import Mathlib

/-!
# Verification of the `algorithms` sorting library (sorting-go)

This file is a shallow embedding, in Lean 4, of every function of
`src/algorithms/algorithms.go`, together with proofs of the behavioural
properties claimed in the specification.

Modelling conventions:

* A Go slice `[]T` is modelled as a `List`.  In-place mutation becomes
  explicit state passing: every loop of the Go source is one recursive
  Lean function whose arguments are the loop's mutable state.
* Go's generic `Ordered` constraint is modelled by passing the Boolean
  comparison operators the generic code uses (`<`, `<=`, `>`) as explicit
  function arguments; the correctness theorems instantiate them with the
  operators of a linear order obtained through a key function `key`, which
  also lets the stability claims speak about elements tagged with a
  secondary index (compare by `key`, carry the tag along).
* Go's `uint` is 64-bit: arithmetic that can overflow carries an explicit
  `% 2 ^ 64`.  A runtime panic (index out of range, division by zero,
  `make` with an out-of-int-range length) is modelled by returning `none`.
* Go slice indexing `vec[i]` at indices that are in bounds in every
  reachable state is modelled with `List.getD`/`List.set` (whose
  out-of-range behaviour is never exercised on those paths).
-/

namespace SortingGo

set_option maxRecDepth 8000

variable {α : Type} {β : Type}

/-- Go's parallel swap `vec[i], vec[j] = vec[j], vec[i]`. -/
def swapL [Inhabited α] (l : List α) (i j : Nat) : List α :=
  (l.set i (l.getD j default)).set j (l.getD i default)

@[simp]
theorem length_swapL [Inhabited α] (l : List α) (i j : Nat) :
    (swapL l i j).length = l.length := by
  simp [swapL]

theorem getD_of_lt [Inhabited α] (l : List α) {i : Nat} (h : i < l.length) :
    l.getD i default = l[i] := by
  rw [List.getD_eq_getElem?_getD, List.getElem?_eq_getElem h]
  rfl

/-- Auxiliary for `swapL_perm`: overwriting position `j` with a fresh value
while extracting the old one is a permutation-preserving exchange. -/
theorem getD_cons_set_perm [Inhabited α] (t : List α) (j : Nat) (a : α)
    (hj : j < t.length) :
    ((t.getD j default) :: (t.set j a)).Perm (a :: t) := by
  induction t generalizing j with
  | nil => simp at hj
  | cons b t ih =>
    cases j with
    | zero => simpa using List.Perm.swap a b t
    | succ j =>
      simp only [List.getD_cons_succ, List.set_cons_succ]
      exact ((List.Perm.swap b _ _).trans
        ((ih j (by simpa using hj)).cons b)).trans (List.Perm.swap a b t)

theorem swapL_perm [Inhabited α] (l : List α) {i j : Nat}
    (hi : i < l.length) (hj : j < l.length) : (swapL l i j).Perm l := by
  induction l generalizing i j with
  | nil => simp at hi
  | cons a t ih =>
    cases i with
    | zero =>
      cases j with
      | zero => simp [swapL]
      | succ j =>
        simp only [swapL, List.getD_cons_succ, List.getD_cons_zero,
          List.set_cons_zero, List.set_cons_succ]
        exact getD_cons_set_perm t j a (by simpa using hj)
    | succ i =>
      cases j with
      | zero =>
        simp only [swapL, List.getD_cons_succ, List.getD_cons_zero,
          List.set_cons_succ, List.set_cons_zero]
        exact getD_cons_set_perm t i a (by simpa using hi)
      | succ j =>
        simp only [swapL, List.getD_cons_succ, List.set_cons_succ]
        exact ((ih (by simpa using hi) (by simpa using hj))).cons a

/-- The Boolean `<` of the order induced by a key function; this is the
operator a Go instantiation of the generic code at an `Ordered` type uses. -/
def kltb (key : α → β) [LinearOrder β] : α → α → Bool :=
  fun a b => decide (key a < key b)

/-- Boolean `<=` through a key function. -/
def kleb (key : α → β) [LinearOrder β] : α → α → Bool :=
  fun a b => decide (key a ≤ key b)

/-- Boolean `>` through a key function (Go's `a > b` is `b < a`). -/
def kgtb (key : α → β) [LinearOrder β] : α → α → Bool :=
  fun a b => decide (key b < key a)

/-! ## SimpleSort -/

/-- Inner loop of `SimpleSort`: `for j := i+1; j < len(vec); j++`. -/
def simpleSortInner (blt : α → α → Bool) [Inhabited α]
    (vec : List α) (i j : Nat) : List α :=
  if h : j < vec.length then
    simpleSortInner blt
      (if blt (vec.getD j default) (vec.getD i default) then swapL vec i j else vec)
      i (j + 1)
  else vec
termination_by vec.length - j
decreasing_by
  split
  · simp only [length_swapL]
    omega
  · omega

@[simp]
theorem length_simpleSortInner (blt : α → α → Bool) [Inhabited α]
    (vec : List α) (i j : Nat) :
    (simpleSortInner blt vec i j).length = vec.length := by
  induction vec, i, j using simpleSortInner.induct blt with
  | case1 vec i j h ih =>
    rw [simpleSortInner, dif_pos h]
    split at ih <;> simp_all
  | case2 vec i j h => rw [simpleSortInner, dif_neg h]

/-- Outer loop of `SimpleSort`: `for i := 0; i < len(vec)-1; i++`
(over Go ints, `i < len(vec)-1` is `i+1 < len(vec)`). -/
def simpleSortOuter (blt : α → α → Bool) [Inhabited α]
    (vec : List α) (i : Nat) : List α :=
  if h : i + 1 < vec.length then
    simpleSortOuter blt (simpleSortInner blt vec i (i + 1)) (i + 1)
  else vec
termination_by vec.length - i
decreasing_by
  simp only [length_simpleSortInner]
  omega

def SimpleSort (blt : α → α → Bool) [Inhabited α] (vec : List α) : List α :=
  simpleSortOuter blt vec 0

/-! ## SelectionSort -/

/-- Inner loop of `SelectionSort`: scan `j` for the index of the minimum. -/
def selectionMinIdx (blt : α → α → Bool) [Inhabited α]
    (vec : List α) (minIndex j : Nat) : Nat :=
  if h : j < vec.length then
    selectionMinIdx blt vec
      (if blt (vec.getD j default) (vec.getD minIndex default) then j else minIndex)
      (j + 1)
  else minIndex
termination_by vec.length - j

/-- Outer loop of `SelectionSort`. -/
def selectionSortOuter (blt : α → α → Bool) [Inhabited α]
    (vec : List α) (i : Nat) : List α :=
  if h : i + 1 < vec.length then
    selectionSortOuter blt
      (if selectionMinIdx blt vec i (i + 1) ≠ i
        then swapL vec i (selectionMinIdx blt vec i (i + 1)) else vec)
      (i + 1)
  else vec
termination_by vec.length - i
decreasing_by
  split
  · simp only [length_swapL]
    omega
  · omega

def SelectionSort (blt : α → α → Bool) [Inhabited α] (vec : List α) : List α :=
  selectionSortOuter blt vec 0

/-! ## BubbleSort -/

/-- One bubble pass: `for j := 0; j < stop; j++`, where `stop = len(vec)-1-i`;
returns the vector together with the `swapped` flag. -/
def bubblePass (bgt : α → α → Bool) [Inhabited α]
    (vec : List α) (j stop : Nat) (swapped : Bool) : List α × Bool :=
  if h : j < stop then
    if bgt (vec.getD j default) (vec.getD (j + 1) default) then
      bubblePass bgt (swapL vec j (j + 1)) (j + 1) stop true
    else
      bubblePass bgt vec (j + 1) stop swapped
  else (vec, swapped)
termination_by stop - j

@[simp]
theorem length_bubblePass (bgt : α → α → Bool) [Inhabited α]
    (vec : List α) (j stop : Nat) (swapped : Bool) :
    (bubblePass bgt vec j stop swapped).1.length = vec.length := by
  induction vec, j, stop, swapped using bubblePass.induct bgt with
  | case1 vec j stop swapped h hb ih =>
    rw [bubblePass, dif_pos h, if_pos hb]
    simpa using ih
  | case2 vec j stop swapped h hb ih =>
    rw [bubblePass, dif_pos h, if_neg hb]
    exact ih
  | case3 vec j stop swapped h => rw [bubblePass, dif_neg h]

/-- Outer loop of `BubbleSort`, with the early exit when no swap happened. -/
def bubbleOuter (bgt : α → α → Bool) [Inhabited α]
    (vec : List α) (i : Nat) : List α :=
  if h : i + 1 < vec.length then
    let p := bubblePass bgt vec 0 (vec.length - 1 - i) false
    if p.2 then bubbleOuter bgt p.1 (i + 1) else p.1
  else vec
termination_by vec.length - i
decreasing_by
  simp only [length_bubblePass]
  omega

def BubbleSort (bgt : α → α → Bool) [Inhabited α] (vec : List α) : List α :=
  bubbleOuter bgt vec 0

/-! ## InsertionSort -/

/-- Inner loop of `InsertionSort`:
`for j := i; j > 0 && vec[j] < vec[j-1]; j--`. -/
def insertInner (blt : α → α → Bool) [Inhabited α]
    (vec : List α) (j : Nat) : List α :=
  if h : 0 < j ∧ blt (vec.getD j default) (vec.getD (j - 1) default) then
    insertInner blt (swapL vec j (j - 1)) (j - 1)
  else vec
termination_by j
decreasing_by
  omega

@[simp]
theorem length_insertInner (blt : α → α → Bool) [Inhabited α]
    (vec : List α) (j : Nat) :
    (insertInner blt vec j).length = vec.length := by
  induction vec, j using insertInner.induct blt with
  | case1 vec j h ih =>
    rw [insertInner, dif_pos h]
    simpa using ih
  | case2 vec j h => rw [insertInner, dif_neg h]

/-- Outer loop of `InsertionSort`: `for i := 1; i < len(vec); i++`. -/
def insertionOuter (blt : α → α → Bool) [Inhabited α]
    (vec : List α) (i : Nat) : List α :=
  if h : i < vec.length then
    insertionOuter blt (insertInner blt vec i) (i + 1)
  else vec
termination_by vec.length - i
decreasing_by
  simp only [length_insertInner]
  omega

def InsertionSort (blt : α → α → Bool) [Inhabited α] (vec : List α) : List α :=
  insertionOuter blt vec 1

/-! ## MergeSort -/

/-- First loop of `merge`: while `i <= mid && j <= end`, copy the smaller
head into `tmp[k]`.  Returns `(tmp, i, j, k)`. -/
def mergeLoop (ble : α → α → Bool) [Inhabited α] (vec tmp : List α)
    (i j k mid endIdx : Nat) : List α × Nat × Nat × Nat :=
  if h : i ≤ mid ∧ j ≤ endIdx then
    if ble (vec.getD i default) (vec.getD j default) then
      mergeLoop ble vec (tmp.set k (vec.getD i default)) (i + 1) j (k + 1) mid endIdx
    else
      mergeLoop ble vec (tmp.set k (vec.getD j default)) i (j + 1) (k + 1) mid endIdx
  else (tmp, i, j, k)
termination_by (mid + 1 - i) + (endIdx + 1 - j)
decreasing_by
  · omega
  · omega

/-- Second loop of `merge`: drain the left run. Returns `(tmp, k)`. -/
def mergeLeft (vec tmp : List α) [Inhabited α] (i k mid : Nat) : List α × Nat :=
  if h : i ≤ mid then
    mergeLeft vec (tmp.set k (vec.getD i default)) (i + 1) (k + 1) mid
  else (tmp, k)
termination_by mid + 1 - i

/-- Third loop of `merge`: drain the right run. Returns `(tmp, k)`. -/
def mergeRight (vec tmp : List α) [Inhabited α] (j k endIdx : Nat) : List α × Nat :=
  if h : j ≤ endIdx then
    mergeRight vec (tmp.set k (vec.getD j default)) (j + 1) (k + 1) endIdx
  else (tmp, k)
termination_by endIdx + 1 - j

/-- Final loop of `merge`: `for i = start; i <= end; i++ { vec[i] = tmp[i] }`. -/
def mergeCopyBack (vec tmp : List α) [Inhabited α] (i endIdx : Nat) : List α :=
  if h : i ≤ endIdx then
    mergeCopyBack (vec.set i (tmp.getD i default)) tmp (i + 1) endIdx
  else vec
termination_by endIdx + 1 - i

/-- `merge` from the source: merge the sorted runs `vec[start..mid]` and
`vec[mid+1..end]` through the shared buffer `tmp`; returns `(vec, tmp)`. -/
def merge (ble : α → α → Bool) [Inhabited α] (vec tmp : List α)
    (start mid endIdx : Nat) : List α × List α :=
  let s1 := mergeLoop ble vec tmp start (mid + 1) start mid endIdx
  let s2 := mergeLeft vec s1.1 s1.2.1 s1.2.2.2 mid
  let s3 := mergeRight vec s2.1 s1.2.2.1 s2.2 endIdx
  (mergeCopyBack vec s3.1 start endIdx, s3.1)

def mergeSortHelper (ble : α → α → Bool) [Inhabited α] (vec tmp : List α)
    (start endIdx : Nat) : List α × List α :=
  if h : start ≥ endIdx then (vec, tmp)
  else
    let mid := start + (endIdx - start) / 2
    let p1 := mergeSortHelper ble vec tmp start mid
    let p2 := mergeSortHelper ble p1.1 p1.2 (mid + 1) endIdx
    merge ble p2.1 p2.2 start mid endIdx
termination_by endIdx - start
decreasing_by
  · omega
  · omega

def MergeSort (ble : α → α → Bool) [Inhabited α] (vec : List α) : List α :=
  if vec.length ≤ 1 then vec
  else
    (mergeSortHelper ble vec (List.replicate vec.length default) 0
      (vec.length - 1)).1

/-! ## QuickSort -/

/-- `medianOfThree` with Go's Boolean sign-mismatch trick. -/
def medianOfThree (bgt : α → α → Bool) [Inhabited α]
    (vec : List α) (i j k : Nat) : Nat :=
  if (bgt (vec.getD i default) (vec.getD j default))
      != (bgt (vec.getD i default) (vec.getD k default)) then i
  else if (bgt (vec.getD j default) (vec.getD i default))
      != (bgt (vec.getD j default) (vec.getD k default)) then j
  else k

/-- Lomuto scan of `partition`.  Go's boundary `i` (initialized `start-1`)
is carried as `ip = i + 1` so that it stays a `Nat`. -/
def partitionLoop (ble : α → α → Bool) [Inhabited α] (vec : List α)
    (pivot : α) (ip j endIdx : Nat) : List α × Nat :=
  if h : j < endIdx then
    if ble (vec.getD j default) pivot then
      partitionLoop ble (swapL vec ip j) pivot (ip + 1) (j + 1) endIdx
    else
      partitionLoop ble vec pivot ip (j + 1) endIdx
  else (vec, ip)
termination_by endIdx - j

theorem partitionLoop_snd_bounds (ble : α → α → Bool) [Inhabited α]
    (vec : List α) (pivot : α) (ip j endIdx : Nat) :
    ip ≤ j → j ≤ endIdx →
      ip ≤ (partitionLoop ble vec pivot ip j endIdx).2 ∧
        (partitionLoop ble vec pivot ip j endIdx).2 ≤ endIdx := by
  induction vec, pivot, ip, j, endIdx using partitionLoop.induct ble with
  | case1 vec pivot ip j endIdx h hb ih =>
    intro hij hj
    rw [partitionLoop, dif_pos h, if_pos hb]
    have := ih (by omega) (by omega)
    omega
  | case2 vec pivot ip j endIdx h hb ih =>
    intro hij hj
    rw [partitionLoop, dif_pos h, if_neg hb]
    have := ih (by omega) (by omega)
    omega
  | case3 vec pivot ip j endIdx h =>
    intro hij hj
    rw [partitionLoop, dif_neg h]
    omega

/-- `partition`: move the median-of-three candidate to `end`, Lomuto scan,
final pivot swap; returns `(vec, pivotPosition)`. -/
def partition (ble bgt : α → α → Bool) [Inhabited α]
    (vec : List α) (start endIdx : Nat) : List α × Nat :=
  let pivotIndex := medianOfThree bgt vec start (start + (endIdx - start) / 2) endIdx
  let v := swapL vec pivotIndex endIdx
  let s := partitionLoop ble v (v.getD endIdx default) start start endIdx
  (swapL s.1 s.2 endIdx, s.2)

theorem partition_snd_bounds (ble bgt : α → α → Bool) [Inhabited α]
    (vec : List α) (start endIdx : Nat) (hse : start ≤ endIdx) :
    start ≤ (partition ble bgt vec start endIdx).2 ∧
      (partition ble bgt vec start endIdx).2 ≤ endIdx := by
  unfold partition
  exact partitionLoop_snd_bounds _ _ _ _ _ _ (Nat.le_refl _) hse

def quickSortHelper (ble bgt : α → α → Bool) [Inhabited α]
    (vec : List α) (start endIdx : Nat) : List α :=
  if h : start ≥ endIdx then vec
  else
    let p := partition ble bgt vec start endIdx
    quickSortHelper ble bgt
      (quickSortHelper ble bgt p.1 start (p.2 - 1)) (p.2 + 1) endIdx
termination_by endIdx - start
decreasing_by
  · have := partition_snd_bounds ble bgt vec start endIdx (by omega)
    omega
  · have := partition_snd_bounds ble bgt vec start endIdx (by omega)
    omega

def QuickSort (ble bgt : α → α → Bool) [Inhabited α] (vec : List α) : List α :=
  if vec.length ≤ 1 then vec
  else quickSortHelper ble bgt vec 0 (vec.length - 1)

/-! ## HeapSort -/

/-- The two `largest` updates of `heapify`. -/
def heapifyLargest (bgt : α → α → Bool) [Inhabited α]
    (vec : List α) (i n : Nat) : Nat :=
  let l1 :=
    if 2 * i + 1 < n ∧ bgt (vec.getD (2 * i + 1) default) (vec.getD i default)
      then 2 * i + 1 else i
  if 2 * i + 2 < n ∧ bgt (vec.getD (2 * i + 2) default) (vec.getD l1 default)
    then 2 * i + 2 else l1

theorem heapifyLargest_cases (bgt : α → α → Bool) [Inhabited α]
    (vec : List α) (i n : Nat) :
    heapifyLargest bgt vec i n = i ∨
      (i < heapifyLargest bgt vec i n ∧ heapifyLargest bgt vec i n < n) := by
  unfold heapifyLargest
  split
  next h1 =>
    dsimp only
    split
    next h2 => exact Or.inr ⟨by omega, h2.1⟩
    next h2 => exact Or.inr ⟨by omega, h1.1⟩
  next h1 =>
    dsimp only
    split
    next h2 => exact Or.inr ⟨by omega, h2.1⟩
    next h2 => exact Or.inl rfl

/-- `heapify`: sift down position `i` within the logical heap `vec[0..n)`. -/
def heapify (bgt : α → α → Bool) [Inhabited α]
    (vec : List α) (i n : Nat) : List α :=
  let largest := heapifyLargest bgt vec i n
  if largest = i then vec
  else heapify bgt (swapL vec i largest) largest n
termination_by n - i
decreasing_by
  have := heapifyLargest_cases bgt vec i n
  omega

@[simp]
theorem length_heapify (bgt : α → α → Bool) [Inhabited α]
    (vec : List α) (i n : Nat) :
    (heapify bgt vec i n).length = vec.length := by
  induction vec, i, n using heapify.induct bgt with
  | case1 vec i n lrg h =>
    rw [heapify]
    rw [if_pos h]
  | case2 vec i n lrg h ih =>
    rw [heapify]
    rw [if_neg h, ih]
    simp

/-- Descending loop of `buildHeap`: `for i := n/2 - 1; i >= 0; i--`. -/
def buildHeapLoop (bgt : α → α → Bool) [Inhabited α]
    (vec : List α) (n : Nat) : Nat → List α
  | 0 => heapify bgt vec 0 n
  | i + 1 => buildHeapLoop bgt (heapify bgt vec (i + 1) n) n i

def buildHeap (bgt : α → α → Bool) [Inhabited α] (vec : List α) : List α :=
  if vec.length / 2 = 0 then vec
  else buildHeapLoop bgt vec vec.length (vec.length / 2 - 1)

/-- Extraction loop of `HeapSort`: `for i := n-1; i >= 0; i--`. -/
def heapSortLoop (bgt : α → α → Bool) [Inhabited α] :
    List α → Nat → List α
  | vec, 0 => heapify bgt (swapL vec 0 0) 0 0
  | vec, i + 1 => heapSortLoop bgt (heapify bgt (swapL vec 0 (i + 1)) 0 (i + 1)) i

def HeapSort (bgt : α → α → Bool) [Inhabited α] (vec : List α) : List α :=
  if vec.length = 0 then vec
  else heapSortLoop bgt (buildHeap bgt vec) (vec.length - 1)

/-! ## Counting sorts and radix sorts

The integer sorts operate on Go's 64-bit `uint`; arithmetic wraps modulo
`uintMod = 2 ^ 64`.  A Go runtime panic is modelled as `none`. The counting
sorts are parameterized by a key function `key` so that the stability claims
can be stated about tagged elements; the `uint` instantiation is `key = id`.
-/

/-- The modulus of Go's 64-bit `uint` arithmetic. -/
def uintMod : Nat := 2 ^ 64

/-- `NumDigits` from the source. -/
def NumDigits : Nat := 10

/-- `slices.Max`: running maximum starting from the first element
(through the key function for the tagged variants). -/
def slicesMax (key : α → Nat) : List α → Nat
  | [] => 0
  | x :: l => l.foldl (fun m y => Nat.max m (key y)) (key x)

/-- Frequency-count loop `for _, val := range vec { counts[val]++ }` (with
`val` generalized to a bucket index).  `none` models the index-out-of-range
panic when a bucket is not below `len(counts)`. -/
def histLoop (bucket : α → Nat) (counts : List Nat) :
    List α → Option (List Nat)
  | [] => some counts
  | x :: l =>
    if bucket x < counts.length then
      histLoop bucket
        (counts.set (bucket x) ((counts.getD (bucket x) 0 + 1) % uintMod)) l
    else none

/-- In-place prefix sums `for i := 1; i < len(counts); i++`; the number of
remaining iterations (`len(counts) - i`, constant across the `set`s) is
passed as the structural recursion argument. -/
def prefixLoopAux : Nat → List Nat → Nat → List Nat
  | 0, counts, _ => counts
  | rem + 1, counts, i =>
    prefixLoopAux rem
      (counts.set i ((counts.getD i 0 + counts.getD (i - 1) 0) % uintMod))
      (i + 1)

def prefixLoop (counts : List Nat) : List Nat :=
  prefixLoopAux (counts.length - 1) counts 1

/-- Stable right-to-left placement
`for i := len(vec)-1; i >= 0; i-- { output[counts[b]-1] = vec[i]; counts[b]-- }`.
The recursion processes the head last, i.e. elements are placed from the
right.  `none` models the panics (bucket read out of range, or the `uint`
index `counts[b]-1` out of range of `output`). -/
def placeLoop (bucket : α → Nat) :
    List α → List α → List Nat → Option (List α × List Nat)
  | [], output, counts => some (output, counts)
  | x :: l, output, counts =>
    match placeLoop bucket l output counts with
    | none => none
    | some (output, counts) =>
      if bucket x < counts.length then
        let idx := (counts.getD (bucket x) 0 + (uintMod - 1)) % uintMod
        if idx < output.length then
          some (output.set idx x, counts.set (bucket x) idx)
        else none
      else none

/-- The stable counting pass shared (as the spec notes) by
`GeneralCountingSort`, `radixIntCountSort` and `radixStringCountSort`:
histogram, prefix sums, right-to-left stable placement into a fresh
output buffer of `vec.length` zero values. -/
def countingPass (numBuckets : Nat) (bucket : α → Nat) [Inhabited α]
    (vec : List α) : Option (List α) :=
  match histLoop bucket (List.replicate numBuckets 0) vec with
  | none => none
  | some counts =>
    match placeLoop bucket vec (List.replicate vec.length default)
        (prefixLoop counts) with
    | none => none
    | some (output, _) => some output

/-- `GeneralCountingSort` (stable).  `make([]uint, max+1)` wraps the length
modulo `2^64` and panics when it exceeds the maximal `int`. -/
def GeneralCountingSort (key : α → Nat) [Inhabited α]
    (vec : List α) : Option (List α) :=
  if vec.length ≤ 1 then some vec
  else
    let maxv := slicesMax key vec
    if 2 ^ 63 ≤ (maxv + 1) % uintMod then none
    else countingPass ((maxv + 1) % uintMod) key vec

/-- Inner while of `IntegerCountingSort`:
`for counts[i] > 0 { vec[index] = i; counts[i]--; index++ }`, with the
count to drain passed as the recursion fuel; `none` models the write panic. -/
def icsWriteRun : Nat → List Nat → Nat → Nat → Option (List Nat × Nat)
  | 0, vec, idx, _ => some (vec, idx)
  | c + 1, vec, idx, v =>
    if idx < vec.length then icsWriteRun c (vec.set idx v) (idx + 1) v
    else none

/-- Outer loop of `IntegerCountingSort`: walk `counts` in increasing value
order (`v` is the running value `i`), draining each count into `vec`. -/
def icsEmit : List Nat → Nat → List Nat → Nat → Option (List Nat)
  | [], _, vec, _ => some vec
  | c :: rest, v, vec, idx =>
    match icsWriteRun c vec idx v with
    | none => none
    | some (vec, idx) => icsEmit rest (v + 1) vec idx

/-- `IntegerCountingSort` (unstable, direct placement). -/
def IntegerCountingSort (vec : List Nat) : Option (List Nat) :=
  if vec.length ≤ 1 then some vec
  else
    let maxv := slicesMax (fun v => v) vec
    if 2 ^ 63 ≤ (maxv + 1) % uintMod then none
    else
      match histLoop (fun v => v) (List.replicate ((maxv + 1) % uintMod) 0) vec with
      | none => none
      | some counts => icsEmit counts 0 vec 0

/-- `radixIntCountSort`: one stable counting pass keyed on the digit
`(v / exp) % NumDigits`. -/
def radixIntCountSort (key : α → Nat) [Inhabited α]
    (vec : List α) (exp : Nat) : Option (List α) :=
  countingPass NumDigits (fun x => (key x / exp) % NumDigits) vec

/-- The digit loop `for (max / exp) > 0 { pass; exp *= 10 }` of
`IntRadixSort`, under wrapping `uint` arithmetic.  The weight `exp` is
`10 ^ k % 2 ^ 64`, which becomes `0` at `k = 64`; evaluating the loop
condition `max / exp` then divides by zero, a Go panic modelled as `none`.
Hence the loop runs at most 65 times and the fuel `65` passed by
`IntRadixSort` is never exhausted. -/
def intRadixLoop (key : α → Nat) [Inhabited α] (max : Nat) :
    Nat → List α → Nat → Option (List α)
  | 0, _, _ => none
  | fuel + 1, vec, exp =>
    if exp = 0 then none
    else if max / exp > 0 then
      match radixIntCountSort key vec exp with
      | none => none
      | some vec => intRadixLoop key max fuel vec ((exp * 10) % uintMod)
    else some vec

def IntRadixSort (key : α → Nat) [Inhabited α]
    (vec : List α) : Option (List α) :=
  if vec.length ≤ 1 then some vec
  else intRadixLoop key (slicesMax key vec) 65 vec 1

/-- Bucket-building loop of `LessEfficientRadixSort`:
`radixArray[radixIndex] = append(radixArray[radixIndex], vec[i])`. -/
def lessEffBuild (divisor : Nat) :
    List Nat → List (List Nat) → List (List Nat)
  | [], arr => arr
  | x :: l, arr =>
    lessEffBuild divisor l
      (arr.set ((x / divisor) % NumDigits)
        (arr.getD ((x / divisor) % NumDigits) [] ++ [x]))

/-- `vec[k] = radixArray[i][j]; k++` over one bucket. -/
def writeSeq (vec : List Nat) (k : Nat) : List Nat → List Nat
  | [] => vec
  | x :: xs => writeSeq (vec.set k x) (k + 1) xs

/-- Concatenation write-back over the buckets in digit order `0..9`. -/
def lessEffFlattenWrite (vec : List Nat) (k : Nat) :
    List (List Nat) → List Nat
  | [] => vec
  | b :: rest => lessEffFlattenWrite (writeSeq vec k b) (k + b.length) rest

/-- The digit loop of `LessEfficientRadixSort`; identical control to
`intRadixLoop` (see there for the fuel and the division-by-zero panic). -/
def lessEffLoop (max : Nat) : Nat → List Nat → Nat → Option (List Nat)
  | 0, _, _ => none
  | fuel + 1, vec, divisor =>
    if divisor = 0 then none
    else if max / divisor > 0 then
      lessEffLoop max fuel
        (lessEffFlattenWrite vec 0
          (lessEffBuild divisor vec (List.replicate NumDigits [])))
        ((divisor * 10) % uintMod)
    else some vec

def LessEfficientRadixSort (vec : List Nat) : Option (List Nat) :=
  if vec.length ≤ 1 then some vec
  else lessEffLoop (slicesMax (fun v => v) vec) 65 vec 1

/-! ## String radix sort

Strings are modelled as their byte sequences (`List Nat`, each byte below
256), reached through a key function so that stability can be stated about
tagged strings; the plain instantiation is `key = id`. -/

/-- The bucket a string contributes to at character position `curIdx`:
`uint8(s[curIdx]) + 1` (8-bit wrap-around) for a long enough string, and
the sentinel bucket `0` otherwise. -/
def stringBucket (key : α → List Nat) (curIdx : Nat) (x : α) : Nat :=
  if curIdx < (key x).length then ((key x).getD curIdx 0 % 256 + 1) % 256
  else 0

/-- `radixStringCountSort`: a stable counting pass over the 129 buckets
(sentinel + 128 ASCII codes). -/
def radixStringCountSort (key : α → List Nat) [Inhabited α]
    (vec : List α) (curIdx : Nat) : Option (List α) :=
  countingPass 129 (stringBucket key curIdx) vec

/-- The descending pass loop `for i := maxLen - 1; i >= 0; i--`. -/
def strRadixLoop (key : α → List Nat) [Inhabited α] :
    Nat → List α → Option (List α)
  | 0, vec => radixStringCountSort key vec 0
  | c + 1, vec =>
    match radixStringCountSort key vec (c + 1) with
    | none => none
    | some vec => strRadixLoop key c vec

/-- The `maxLen` scan `for i := 1; i < len(vec); i++`. -/
def maxLenLoop (key : α → List Nat) : List α → Nat → Nat
  | [], m => m
  | x :: l, m =>
    maxLenLoop key l (if (key x).length > m then (key x).length else m)

def StringRadixSort (key : α → List Nat) [Inhabited α]
    (vec : List α) : Option (List α) :=
  if vec.length ≤ 1 then some vec
  else
    let maxLen :=
      match vec with
      | [] => 0
      | x :: l => maxLenLoop key l (key x).length
    if maxLen = 0 then some vec
    else strRadixLoop key (maxLen - 1) vec

/-! ## Bucket sort (floating point)

`BucketSort` is embedded over Lean's IEEE `Float` so that every code path
of the source is present, but its floating-point arithmetic (`math.Sqrt`,
division, truncating conversion) is opaque to the kernel; only the paths
that do not evaluate floats (the length guard) are reasoned about. -/

/-- The min/max scan of `BucketSort`. -/
def bucketMinMax : List Float → Float × Float → Float × Float
  | [], p => p
  | v :: l, p =>
    bucketMinMax l (if v < p.1 then v else p.1, if v > p.2 then v else p.2)

/-- Bucket-assignment loop: `index := int((val-min)/(max-min)*float64(numBuckets-1))`.
Go's truncating `int(.)` conversion is modelled by `Float.toUInt64` (the
values arising on the non-panicking paths are non-negative). -/
def bucketAssign (mn mx : Float) (numBuckets : Nat) :
    List Float → List (List Float) → List (List Float)
  | [], buckets => buckets
  | v :: l, buckets =>
    let index := ((v - mn) / (mx - mn) * Float.ofNat (numBuckets - 1)).toUInt64.toNat
    bucketAssign mn mx numBuckets l
      (buckets.set index (buckets.getD index [] ++ [v]))

/-- `output[k] = val; k++` over one float bucket. -/
def writeSeqF (out : List Float) (k : Nat) : List Float → List Float
  | [] => out
  | x :: xs => writeSeqF (out.set k x) (k + 1) xs

/-- `QuickSort` each bucket and write the concatenation back. -/
def bucketCollect (out : List Float) (k : Nat) :
    List (List Float) → List Float
  | [] => out
  | b :: rest =>
    let sorted := QuickSort (fun a b : Float => decide (a ≤ b))
      (fun a b : Float => decide (b < a)) b
    bucketCollect (writeSeqF out k sorted) (k + sorted.length) rest

def BucketSort (vec : List Float) : List Float :=
  if vec.length ≤ 1 then vec
  else
    let p := bucketMinMax vec (1.0 / 0.0, -1.0 / 0.0)
    if p.2 == p.1 then
      QuickSort (fun a b : Float => decide (a ≤ b))
        (fun a b : Float => decide (b < a)) vec
    else
      let numBuckets := ((p.2 - p.1) / Float.sqrt (Float.ofNat vec.length)).toUInt64.toNat + 1
      bucketCollect (List.replicate vec.length (0.0 : Float)) 0
        (bucketAssign p.1 p.2 numBuckets vec (List.replicate numBuckets []))

/-! ## Access toolkit -/

theorem getD_set_self (l : List α) (i : Nat) (a d0 : α)
    (h : i < l.length) : (l.set i a).getD i d0 = a := by
  rw [List.getD_eq_getElem?_getD, List.getElem?_set_self h]
  rfl

theorem getD_set_ne (l : List α) {i j : Nat} (a d0 : α)
    (h : i ≠ j) : (l.set i a).getD j d0 = l.getD j d0 := by
  rw [List.getD_eq_getElem?_getD, List.getElem?_set, if_neg h,
    List.getD_eq_getElem?_getD]

theorem getD_swapL [Inhabited α] (l : List α) {i j : Nat} (m : Nat)
    (hi : i < l.length) (hj : j < l.length) :
    (swapL l i j).getD m default =
      if m = j then l.getD i default
      else if m = i then l.getD j default
      else l.getD m default := by
  unfold swapL
  by_cases hmj : m = j
  · subst hmj
    rw [if_pos rfl, getD_set_self _ _ _ _ (by simpa using hj)]
  · rw [if_neg hmj, getD_set_ne _ _ _ (fun h => hmj h.symm)]
    by_cases hmi : m = i
    · subst hmi
      rw [if_pos rfl, getD_set_self _ _ _ _ hi]
    · rw [if_neg hmi, getD_set_ne _ _ _ (fun h => hmi h.symm)]

/-- `v` is a median of the three values `{v, x, y}`: it is neither strictly
less than both others nor strictly greater than both others. -/
def medianOK [LinearOrder β] (v x y : β) : Prop :=
  (x ≤ v ∨ y ≤ v) ∧ (v ≤ x ∨ v ≤ y)

/-! ## Claim C10: empty and singleton inputs are no-ops -/

/-- **C10.**  Every one of the thirteen exported sorts returns a slice of
length 0 or 1 unchanged; `HeapSort` (which has no length guard) performs
only a self-swap of the root on a singleton.  The comparison-based sorts
are stated for arbitrary comparison operators, the counting/radix sorts
for an arbitrary key. -/
theorem claim_C10 {α : Type} [Inhabited α] (blt ble bgt : α → α → Bool)
    (keyN : α → Nat) (keyS : α → List Nat) (a : α) (v : Nat) (x : Float) :
    (SimpleSort blt ([] : List α) = [] ∧ SimpleSort blt [a] = [a]) ∧
    (SelectionSort blt ([] : List α) = [] ∧ SelectionSort blt [a] = [a]) ∧
    (BubbleSort bgt ([] : List α) = [] ∧ BubbleSort bgt [a] = [a]) ∧
    (InsertionSort blt ([] : List α) = [] ∧ InsertionSort blt [a] = [a]) ∧
    (MergeSort ble ([] : List α) = [] ∧ MergeSort ble [a] = [a]) ∧
    (QuickSort ble bgt ([] : List α) = [] ∧ QuickSort ble bgt [a] = [a]) ∧
    (HeapSort bgt ([] : List α) = [] ∧ HeapSort bgt [a] = [a]) ∧
    (GeneralCountingSort keyN ([] : List α) = some [] ∧
      GeneralCountingSort keyN [a] = some [a]) ∧
    (IntegerCountingSort [] = some [] ∧ IntegerCountingSort [v] = some [v]) ∧
    (IntRadixSort keyN ([] : List α) = some [] ∧
      IntRadixSort keyN [a] = some [a]) ∧
    (LessEfficientRadixSort [] = some [] ∧
      LessEfficientRadixSort [v] = some [v]) ∧
    (StringRadixSort keyS ([] : List α) = some [] ∧
      StringRadixSort keyS [a] = some [a]) ∧
    (BucketSort [] = [] ∧ BucketSort [x] = [x]) := by
  refine ⟨⟨?_, ?_⟩, ⟨?_, ?_⟩, ⟨?_, ?_⟩, ⟨?_, ?_⟩, ⟨?_, ?_⟩, ⟨?_, ?_⟩,
    ⟨?_, ?_⟩, ⟨?_, ?_⟩, ⟨?_, ?_⟩, ⟨?_, ?_⟩, ⟨?_, ?_⟩, ⟨?_, ?_⟩, ?_, ?_⟩
  · rw [SimpleSort, simpleSortOuter]
    simp
  · rw [SimpleSort, simpleSortOuter]
    simp
  · rw [SelectionSort, selectionSortOuter]
    simp
  · rw [SelectionSort, selectionSortOuter]
    simp
  · rw [BubbleSort, bubbleOuter]
    simp
  · rw [BubbleSort, bubbleOuter]
    simp
  · rw [InsertionSort, insertionOuter]
    simp
  · rw [InsertionSort, insertionOuter]
    simp
  · rw [MergeSort]
    simp
  · rw [MergeSort]
    simp
  · rw [QuickSort]
    simp
  · rw [QuickSort]
    simp
  · rw [HeapSort]
    simp
  · rw [HeapSort]
    simp [heapSortLoop, buildHeap, swapL, heapify, heapifyLargest]
  · rfl
  · rw [GeneralCountingSort]
    simp
  · rfl
  · rw [IntegerCountingSort]
    simp
  · rfl
  · rw [IntRadixSort]
    simp
  · rfl
  · rw [LessEfficientRadixSort]
    simp
  · rfl
  · rw [StringRadixSort]
    simp
  · rfl
  · rw [BucketSort]
    simp

/-! ## Claim C8: median-of-three pivot selection -/

theorem medianOfThree_mem (bgt : α → α → Bool) [Inhabited α]
    (vec : List α) (i j k : Nat) :
    medianOfThree bgt vec i j k = i ∨ medianOfThree bgt vec i j k = j ∨
      medianOfThree bgt vec i j k = k := by
  unfold medianOfThree
  split
  · exact Or.inl rfl
  · split
    · exact Or.inr (Or.inl rfl)
    · exact Or.inr (Or.inr rfl)

/-- **C8, counterexample.**  On `vec = [1,1,2]` with the triple `(0,1,2)`
that `partition` passes for this slice, `medianOfThree` returns index 2,
whose value `2` is strictly greater than both other candidates — not a
median. -/
theorem claim_C8_counterexample :
    medianOfThree (kgtb (fun n : Nat => n)) [1, 1, 2] 0 1 2 = 2 ∧
    ([1, 1, 2] : List Nat).getD 0 default <
      ([1, 1, 2] : List Nat).getD (medianOfThree (kgtb (fun n : Nat => n)) [1, 1, 2] 0 1 2) default ∧
    ([1, 1, 2] : List Nat).getD 1 default <
      ([1, 1, 2] : List Nat).getD (medianOfThree (kgtb (fun n : Nat => n)) [1, 1, 2] 0 1 2) default := by
  refine ⟨rfl, ?_, ?_⟩ <;> decide

/-- **C8, amended.**  For every in-bounds triple `start ≤ mid ≤ end`,
`medianOfThree` returns one of the three indices, and — except in the one
pattern `vec[start] = vec[mid] < vec[end]`, where it returns `end` holding
the strict maximum — the returned index holds a median of the three
values; `partition`'s first step moves the chosen candidate to position
`end` (the swapped slice holds the candidate's value at `end`). -/
theorem claim_C8 {α β : Type} [Inhabited α] [LinearOrder β] (key : α → β)
    (vec : List α) (start mid endIdx : Nat)
    (hsm : start ≤ mid) (hme : mid ≤ endIdx) (he : endIdx < vec.length)
    (hx : ¬(key (vec.getD start default) = key (vec.getD mid default) ∧
      key (vec.getD mid default) < key (vec.getD endIdx default))) :
    ((medianOfThree (kgtb key) vec start mid endIdx = start ∧
        medianOK (key (vec.getD start default)) (key (vec.getD mid default))
          (key (vec.getD endIdx default))) ∨
      (medianOfThree (kgtb key) vec start mid endIdx = mid ∧
        medianOK (key (vec.getD mid default)) (key (vec.getD start default))
          (key (vec.getD endIdx default))) ∨
      (medianOfThree (kgtb key) vec start mid endIdx = endIdx ∧
        medianOK (key (vec.getD endIdx default)) (key (vec.getD start default))
          (key (vec.getD mid default)))) ∧
    (swapL vec (medianOfThree (kgtb key) vec start mid endIdx) endIdx).getD
        endIdx default =
      vec.getD (medianOfThree (kgtb key) vec start mid endIdx) default := by
  have hmlt : medianOfThree (kgtb key) vec start mid endIdx < vec.length := by
    rcases medianOfThree_mem (kgtb key) vec start mid endIdx with h | h | h <;>
      omega
  constructor
  · unfold medianOfThree kgtb
    split
    next h1 =>
      rw [bne_iff_ne, ne_eq, decide_eq_decide] at h1
      refine Or.inl ⟨rfl, ?_, ?_⟩
      · by_cases hba : key (vec.getD mid default) < key (vec.getD start default)
        · exact Or.inl hba.le
        · have : key (vec.getD endIdx default) < key (vec.getD start default) := by
            by_contra hc
            exact h1 (iff_of_false hba hc)
          exact Or.inr this.le
      · by_cases hba : key (vec.getD mid default) < key (vec.getD start default)
        · have : ¬ key (vec.getD endIdx default) < key (vec.getD start default) := by
            by_contra hc
            exact h1 (iff_of_true hba hc)
          exact Or.inr (le_of_not_lt this)
        · exact Or.inl (le_of_not_lt hba)
    next h1 =>
      rw [bne_iff_ne, ne_eq, not_not, decide_eq_decide] at h1
      split
      next h2 =>
        rw [bne_iff_ne, ne_eq, decide_eq_decide] at h2
        refine Or.inr (Or.inl ⟨rfl, ?_, ?_⟩)
        · by_cases hab : key (vec.getD start default) < key (vec.getD mid default)
          · exact Or.inl hab.le
          · have : key (vec.getD endIdx default) < key (vec.getD mid default) := by
              by_contra hc
              exact h2 (iff_of_false hab hc)
            exact Or.inr this.le
        · by_cases hab : key (vec.getD start default) < key (vec.getD mid default)
          · have : ¬ key (vec.getD endIdx default) < key (vec.getD mid default) := by
              by_contra hc
              exact h2 (iff_of_true hab hc)
            exact Or.inr (le_of_not_lt this)
          · exact Or.inl (le_of_not_lt hab)
      next h2 =>
        rw [bne_iff_ne, ne_eq, not_not, decide_eq_decide] at h2
        refine Or.inr (Or.inr ⟨rfl, ?_, ?_⟩)
        · by_cases hca : key (vec.getD endIdx default) < key (vec.getD start default)
          · have hba : key (vec.getD mid default) < key (vec.getD start default) :=
              h1.mpr hca
            have hncb : ¬ key (vec.getD endIdx default) < key (vec.getD mid default) :=
              fun hc => absurd (h2.mpr hc) (not_lt_of_gt hba)
            exact Or.inr (le_of_not_lt hncb)
          · exact Or.inl (le_of_not_lt hca)
        · by_cases hca : key (vec.getD endIdx default) < key (vec.getD start default)
          · exact Or.inl hca.le
          · by_cases hcb : key (vec.getD endIdx default) < key (vec.getD mid default)
            · exact Or.inr hcb.le
            · have hba : ¬ key (vec.getD mid default) < key (vec.getD start default) :=
                fun hc => hca (h1.mp hc)
              have hab : ¬ key (vec.getD start default) < key (vec.getD mid default) :=
                fun hc => hcb (h2.mp hc)
              have heq : key (vec.getD start default) = key (vec.getD mid default) :=
                le_antisymm (le_of_not_lt hba) (le_of_not_lt hab)
              have hnbc : ¬ key (vec.getD mid default) < key (vec.getD endIdx default) :=
                fun hc => hx ⟨heq, hc⟩
              exact Or.inr (le_of_not_lt hnbc)
  · rw [getD_swapL vec endIdx hmlt he]
    simp

/-- **C8, witness.** -/
theorem claim_C8_witness :
    (0 : Nat) ≤ 1 ∧ (1 : Nat) ≤ 2 ∧ 2 < ([3, 1, 2] : List Nat).length ∧
    ¬((fun n : Nat => n) (([3, 1, 2] : List Nat).getD 0 default) =
        (fun n : Nat => n) (([3, 1, 2] : List Nat).getD 1 default) ∧
      (fun n : Nat => n) (([3, 1, 2] : List Nat).getD 1 default) <
        (fun n : Nat => n) (([3, 1, 2] : List Nat).getD 2 default)) ∧
    (((medianOfThree (kgtb (fun n : Nat => n)) [3, 1, 2] 0 1 2 = 0 ∧
        medianOK ((fun n : Nat => n) (([3, 1, 2] : List Nat).getD 0 default))
          ((fun n : Nat => n) (([3, 1, 2] : List Nat).getD 1 default))
          ((fun n : Nat => n) (([3, 1, 2] : List Nat).getD 2 default))) ∨
      (medianOfThree (kgtb (fun n : Nat => n)) [3, 1, 2] 0 1 2 = 1 ∧
        medianOK ((fun n : Nat => n) (([3, 1, 2] : List Nat).getD 1 default))
          ((fun n : Nat => n) (([3, 1, 2] : List Nat).getD 0 default))
          ((fun n : Nat => n) (([3, 1, 2] : List Nat).getD 2 default))) ∨
      (medianOfThree (kgtb (fun n : Nat => n)) [3, 1, 2] 0 1 2 = 2 ∧
        medianOK ((fun n : Nat => n) (([3, 1, 2] : List Nat).getD 2 default))
          ((fun n : Nat => n) (([3, 1, 2] : List Nat).getD 0 default))
          ((fun n : Nat => n) (([3, 1, 2] : List Nat).getD 1 default)))) ∧
    (swapL [3, 1, 2] (medianOfThree (kgtb (fun n : Nat => n)) [3, 1, 2] 0 1 2) 2).getD
        2 default =
      ([3, 1, 2] : List Nat).getD (medianOfThree (kgtb (fun n : Nat => n)) [3, 1, 2] 0 1 2) default) :=
  ⟨by decide, by decide, by decide, by decide,
    claim_C8 (fun n : Nat => n) [3, 1, 2] 0 1 2 (by decide) (by decide)
      (by decide) (by decide)⟩

/-! ## Claim C9: non-ASCII bytes in the string radix sort -/

/-- **C9, counterexample.**  A slice with two elements whose examined
byte is `255` (non-ASCII) produces bucket `(uint8 255) + 1 = 0` — inside
the 129-entry counts array, handled silently as the sentinel bucket:
`StringRadixSort` completes without a panic. -/
theorem claim_C9_counterexample :
    128 ≤ ([255] : List Nat).getD 0 0 ∧
    stringBucket (fun t : List Nat => t) 0 [255] = 0 ∧
    stringBucket (fun t : List Nat => t) 0 [255] < 129 ∧
    StringRadixSort (fun t : List Nat => t) [[255], [0]] = some [[255], [0]] := by
  refine ⟨by decide, rfl, by decide, by decide⟩

/-- **C9, amended.**  A non-ASCII byte `128 ≤ c ≤ 254` at an examined
position yields the out-of-range bucket `c + 1 ≥ 129`; the remaining
non-ASCII byte `255` wraps around `uint8` to the in-range sentinel
bucket `0`. -/
theorem claim_C9 (s : List Nat) (curIdx : Nat) (h1 : curIdx < s.length)
    (hbyte : s.getD curIdx 0 < 256) :
    (128 ≤ s.getD curIdx 0 → s.getD curIdx 0 ≤ 254 →
      129 ≤ stringBucket (fun t : List Nat => t) curIdx s) ∧
    (s.getD curIdx 0 = 255 → stringBucket (fun t : List Nat => t) curIdx s = 0) := by
  constructor
  · intro hlo hhi
    unfold stringBucket
    rw [if_pos h1]
    have h256 : s.getD curIdx 0 % 256 = s.getD curIdx 0 := Nat.mod_eq_of_lt hbyte
    rw [h256, Nat.mod_eq_of_lt (by omega)]
    omega
  · intro h255
    unfold stringBucket
    rw [if_pos h1, h255]

/-- **C9, witness.** -/
theorem claim_C9_witness :
    (0 : Nat) < ([200] : List Nat).length ∧ ([200] : List Nat).getD 0 0 < 256 ∧
    ((128 ≤ ([200] : List Nat).getD 0 0 → ([200] : List Nat).getD 0 0 ≤ 254 →
        129 ≤ stringBucket (fun t : List Nat => t) 0 [200]) ∧
      (([200] : List Nat).getD 0 0 = 255 →
        stringBucket (fun t : List Nat => t) 0 [200] = 0)) :=
  ⟨by decide, by decide, claim_C9 [200] 0 (by decide) (by decide)⟩

/-! ## Claims C2 and C6, counterexamples: uint overflow panics -/

/-- **C2, counterexample.**  On the two-element `uint` slice
`[2^64-1, 0]` all four integer sorts panic instead of sorting:
the counting sorts because `make([]uint, max+1)` wraps to a
zero-length counts array which the histogram then indexes out of
range, and the radix sorts because `exp *= 10` wraps to `0` after 64
iterations, so the loop condition `max / exp` divides by zero. -/
theorem claim_C2_counterexample :
    GeneralCountingSort (fun v : Nat => v) [2 ^ 64 - 1, 0] = none ∧
    IntegerCountingSort [2 ^ 64 - 1, 0] = none ∧
    IntRadixSort (fun v : Nat => v) [2 ^ 64 - 1, 0] = none ∧
    LessEfficientRadixSort [2 ^ 64 - 1, 0] = none := by
  refine ⟨by decide, by decide, by decide, by decide⟩

/-- **C6, counterexample.**  `IntRadixSort` and `LessEfficientRadixSort`,
invoked on `[2^64-1, 5]`, do not run to completion: after 64 digit passes
`exp = 10^64 % 2^64 = 0` and evaluating the loop condition `max / exp`
panics with a division by zero (modelled as `none`). -/
theorem claim_C6_counterexample :
    IntRadixSort (fun v : Nat => v) [2 ^ 64 - 1, 5] = none ∧
    LessEfficientRadixSort [2 ^ 64 - 1, 5] = none := by
  refine ⟨by decide, by decide⟩

/-! ## The stable counting pass: specification machinery -/

/-- Number of elements of `l` in bucket `d`. -/
def cntEq (bucket : α → Nat) (l : List α) (d : Nat) : Nat :=
  (l.filter (fun x => bucket x == d)).length

/-- Number of elements of `l` in buckets strictly below `d`. -/
def cntLt (bucket : α → Nat) (l : List α) (d : Nat) : Nat :=
  ((List.range d).map (cntEq bucket l)).sum

/-- The canonical output of a stable bucket pass: the buckets in increasing
order, each holding its elements in input order. -/
def bucketBlocks (B : Nat) (bucket : α → Nat) (l : List α) : List α :=
  (List.range B).flatMap (fun d => l.filter (fun x => bucket x == d))

@[simp]
theorem cntEq_nil (bucket : α → Nat) (d : Nat) : cntEq bucket [] d = 0 := rfl

theorem cntEq_cons (bucket : α → Nat) (x : α) (l : List α) (d : Nat) :
    cntEq bucket (x :: l) d =
      cntEq bucket l d + (if bucket x = d then 1 else 0) := by
  unfold cntEq
  rw [List.filter_cons]
  by_cases h : bucket x = d
  · simp [h]
  · simp [h]

theorem cntLt_succ (bucket : α → Nat) (l : List α) (d : Nat) :
    cntLt bucket l (d + 1) = cntLt bucket l d + cntEq bucket l d := by
  unfold cntLt
  rw [List.range_succ, List.map_append, List.sum_append]
  simp

theorem cntLt_mono (bucket : α → Nat) (l : List α) {d e : Nat} (h : d ≤ e) :
    cntLt bucket l d ≤ cntLt bucket l e := by
  obtain ⟨k, rfl⟩ : ∃ k, e = d + k := ⟨e - d, by omega⟩
  clear h
  induction k with
  | zero => exact Nat.le_refl _
  | succ k ih =>
    rw [show d + (k + 1) = (d + k) + 1 by omega, cntLt_succ]
    omega

theorem sum_map_add (f g : Nat → Nat) (l : List Nat) :
    (l.map (fun d => f d + g d)).sum = (l.map f).sum + (l.map g).sum := by
  induction l with
  | nil => simp
  | cons a l ih => simp [ih]; omega

theorem sum_indicator (k B : Nat) :
    ((List.range B).map (fun d => if k = d then (1 : Nat) else 0)).sum =
      if k < B then 1 else 0 := by
  induction B with
  | zero => simp
  | succ B ih =>
    rw [List.range_succ, List.map_append, List.sum_append, ih]
    by_cases h : k = B
    · subst h
      simp
    · by_cases h2 : k < B
    
      · rw [if_pos h2, if_pos (by omega)]
        simp [h]
      · rw [if_neg h2, if_neg (by omega)]
        simp [h]

/-- When every element falls below `B`, the buckets exhaust `l`. -/
theorem cntLt_total (bucket : α → Nat) (l : List α) (B : Nat)
    (hb : ∀ x ∈ l, bucket x < B) : cntLt bucket l B = l.length := by
  induction l with
  | nil =>
    unfold cntLt
    induction B with
    | zero => simp
    | succ B ih =>
      rw [List.range_succ, List.map_append, List.sum_append]
      simp_all
  | cons x l ih =>
    have hx : bucket x < B := hb x (by simp)
    have ihl := ih (fun y hy => hb y (by simp [hy]))
    unfold cntLt at ihl ⊢
    have : (List.range B).map (cntEq bucket (x :: l)) =
        (List.range B).map (fun d => cntEq bucket l d + (if bucket x = d then 1 else 0)) := by
      apply List.map_congr_left
      intro d _
      exact cntEq_cons bucket x l d
    rw [this, sum_map_add]
    have : ((List.range B).map (fun d => if bucket x = d then (1 : Nat) else 0)).sum = 1 := by
      rw [sum_indicator, if_pos hx]
    rw [this]
    simp only [List.length_cons]
    omega

theorem bucketBlocks_succ (B : Nat) (bucket : α → Nat) (l : List α) :
    bucketBlocks (B + 1) bucket l =
      bucketBlocks B bucket l ++ l.filter (fun x => bucket x == B) := by
  unfold bucketBlocks
  rw [List.range_succ, List.flatMap_append]
  simp

theorem length_bucketBlocks (B : Nat) (bucket : α → Nat) (l : List α) :
    (bucketBlocks B bucket l).length = cntLt bucket l B := by
  induction B with
  | zero => simp [bucketBlocks, cntLt]
  | succ B ih =>
    rw [bucketBlocks_succ, cntLt_succ, List.length_append, ih]
    rfl

theorem mem_bucketBlocks {B : Nat} {bucket : α → Nat} {l : List α} {x : α}
    (h : x ∈ bucketBlocks B bucket l) : x ∈ l ∧ bucket x < B := by
  induction B with
  | zero => simp [bucketBlocks] at h
  | succ B ih =>
    rw [bucketBlocks_succ, List.mem_append] at h
    rcases h with h | h
    · have := ih h
      exact ⟨this.1, by omega⟩
    · rw [List.mem_filter] at h
      refine ⟨h.1, ?_⟩
      have := h.2
      simp only [beq_iff_eq] at this
      omega

/-! ### Histogram loop -/

theorem histLoop_spec (bucket : α → Nat) (l : List α) :
    ∀ (counts : List Nat),
      (∀ x ∈ l, bucket x < counts.length) →
      (∀ d, counts.getD d 0 + l.length < uintMod) →
      ∃ counts', histLoop bucket counts l = some counts' ∧
        counts'.length = counts.length ∧
        ∀ d, counts'.getD d 0 = counts.getD d 0 + cntEq bucket l d := by
  induction l with
  | nil =>
    intro counts _ _
    exact ⟨counts, rfl, rfl, by simp⟩
  | cons x l ih =>
    intro counts hb hM
    have hx : bucket x < counts.length := hb x (by simp)
    rw [histLoop, if_pos hx]
    have hv : (counts.getD (bucket x) 0 + 1) % uintMod
        = counts.getD (bucket x) 0 + 1 := by
      have := hM (bucket x)
      simp only [List.length_cons] at this
      exact Nat.mod_eq_of_lt (by omega)
    obtain ⟨counts', h1, h2, h3⟩ := ih
      (counts.set (bucket x) ((counts.getD (bucket x) 0 + 1) % uintMod))
      (by
        intro y hy
        rw [List.length_set]
        exact hb y (by simp [hy]))
      (by
        intro d
        by_cases hd : bucket x = d
        · subst hd
          rw [getD_set_self _ _ _ _ hx, hv]
          have := hM (bucket x)
          simp only [List.length_cons] at this
          omega
        · rw [getD_set_ne _ _ _ hd]
          have := hM d
          simp only [List.length_cons] at this
          omega)
    refine ⟨counts', h1, by rw [h2, List.length_set], ?_⟩
    intro d
    rw [h3 d, cntEq_cons]
    by_cases hd : bucket x = d
    · subst hd
      rw [getD_set_self _ _ _ _ hx, hv, if_pos rfl]
      omega
    · rw [getD_set_ne _ _ _ hd, if_neg hd]
      omega

/-! ### Prefix-sum loop -/

theorem prefixLoopAux_spec :
    ∀ (rem : Nat) (counts : List Nat) (i : Nat),
      rem + i = counts.length → 1 ≤ i →
      counts.getD (i - 1) 0 +
          ((List.range rem).map (fun t => counts.getD (i + t) 0)).sum < uintMod →
      (prefixLoopAux rem counts i).length = counts.length ∧
      (∀ d, d < i → (prefixLoopAux rem counts i).getD d 0 = counts.getD d 0) ∧
      (∀ d, i ≤ d → d < counts.length →
        (prefixLoopAux rem counts i).getD d 0 =
          counts.getD (i - 1) 0 +
            ((List.range (d + 1 - i)).map (fun t => counts.getD (i + t) 0)).sum) := by
  intro rem
  induction rem with
  | zero =>
    intro counts i hlen _ _
    exact ⟨rfl, fun d _ => rfl, fun d hd hd2 => absurd hd2 (by omega)⟩
  | succ rem ih =>
    intro counts i hlen hi hsum
    have hilen : i < counts.length := by omega
    -- the first term of the sum is counts[i]
    have hsplit : ((List.range (rem + 1)).map (fun t => counts.getD (i + t) 0)).sum
        = counts.getD i 0 +
          ((List.range rem).map (fun t => counts.getD (i + 1 + t) 0)).sum := by
      rw [List.range_succ_eq_map]
      simp only [List.map_cons, List.map_map, List.sum_cons, Nat.add_zero]
      congr 1
      apply congrArg
      apply List.map_congr_left
      intro t _
      simp only [Function.comp_apply]
      congr 1
      omega
    rw [hsplit] at hsum
    have hv : (counts.getD i 0 + counts.getD (i - 1) 0) % uintMod
        = counts.getD i 0 + counts.getD (i - 1) 0 :=
      Nat.mod_eq_of_lt (by omega)
    rw [prefixLoopAux]
    have hset : ∀ (d : Nat), i ≠ d →
        (counts.set i ((counts.getD i 0 + counts.getD (i - 1) 0) % uintMod)).getD d 0
          = counts.getD d 0 :=
      fun d hd => getD_set_ne counts _ 0 hd
    obtain ⟨ih1, ih2, ih3⟩ := ih
      (counts.set i ((counts.getD i 0 + counts.getD (i - 1) 0) % uintMod))
      (i + 1)
      (by rw [List.length_set]; omega)
      (by omega)
      (by
        rw [Nat.add_sub_cancel, getD_set_self _ _ _ _ hilen]
        have heq : ((List.range rem).map (fun t =>
            (counts.set i ((counts.getD i 0 + counts.getD (i - 1) 0) % uintMod)).getD
              (i + 1 + t) 0)).sum
            = ((List.range rem).map (fun t => counts.getD (i + 1 + t) 0)).sum := by
          apply congrArg
          apply List.map_congr_left
          intro t _
          exact hset (i + 1 + t) (by omega)
        rw [heq, hv]
        omega)
    refine ⟨by rw [ih1, List.length_set], ?_, ?_⟩
    · intro d hd
      rw [ih2 d (by omega), hset d (by omega)]
    · intro d hd hd2
      rcases Nat.eq_or_lt_of_le hd with hdi | hdi
      · subst hdi
        rw [ih2 i (by omega), getD_set_self _ _ _ _ hilen, hv]
        have h1 : i + 1 - i = 1 := by omega
        rw [h1, show List.range 1 = [0] from rfl]
        simp
        omega
      · rw [ih3 d (by omega) (by rw [List.length_set]; omega)]
        rw [Nat.add_sub_cancel, getD_set_self _ _ _ _ hilen]
        have heq : ((List.range (d + 1 - (i + 1))).map (fun t =>
            (counts.set i ((counts.getD i 0 + counts.getD (i - 1) 0) % uintMod)).getD
              (i + 1 + t) 0)).sum
            = ((List.range (d - i)).map (fun t => counts.getD (i + 1 + t) 0)).sum := by
          have : d + 1 - (i + 1) = d - i := by omega
          rw [this]
          apply congrArg
          apply List.map_congr_left
          intro t _
          exact hset (i + 1 + t) (by omega)
        rw [heq, hv]
        have hsplit2 : ((List.range (d + 1 - i)).map (fun t => counts.getD (i + t) 0)).sum
            = counts.getD i 0 +
              ((List.range (d - i)).map (fun t => counts.getD (i + 1 + t) 0)).sum := by
          have : d + 1 - i = (d - i) + 1 := by omega
          rw [this, List.range_succ_eq_map]
          simp only [List.map_cons, List.map_map, List.sum_cons, Nat.add_zero]
          congr 1
          apply congrArg
          apply List.map_congr_left
          intro t _
          simp only [Function.comp_apply]
          congr 1
          omega
        rw [hsplit2]
        omega

/-- The prefix-sum loop turns `counts` into cumulative counts. -/
theorem prefixLoop_spec (counts : List Nat) (h0 : 1 ≤ counts.length)
    (hsum : ((List.range counts.length).map (fun e => counts.getD e 0)).sum < uintMod) :
    (prefixLoop counts).length = counts.length ∧
    ∀ d, d < counts.length →
      (prefixLoop counts).getD d 0 =
        ((List.range (d + 1)).map (fun e => counts.getD e 0)).sum := by
  have hsplit : ∀ k, k ≤ counts.length - 1 → ((List.range (k + 1)).map (fun e => counts.getD e 0)).sum
      = counts.getD 0 0 + ((List.range k).map (fun t => counts.getD (1 + t) 0)).sum := by
    intro k _
    rw [List.range_succ_eq_map]
    simp only [List.map_cons, List.map_map, List.sum_cons]
    congr 1
    apply congrArg
    apply List.map_congr_left
    intro t _
    simp only [Function.comp_apply]
    congr 1
    omega
  have hlenm : counts.length - 1 + 1 = counts.length := by omega
  obtain ⟨h1, h2, h3⟩ := prefixLoopAux_spec (counts.length - 1) counts 1
    (by omega) (by omega)
    (by
      have := hsplit (counts.length - 1) (by omega)
      rw [hlenm] at this
      simp only [Nat.sub_self]
      rw [this] at hsum
      omega)
  unfold prefixLoop
  refine ⟨h1, ?_⟩
  intro d hd
  rcases Nat.eq_zero_or_pos d with hd0 | hd0
  · subst hd0
    rw [h2 0 (by omega), show List.range 1 = [0] from rfl]
    simp
  · rw [h3 d (by omega) hd]
    rw [hsplit d (by omega)]
    simp only [Nat.sub_self]
    have : d + 1 - 1 = d := by omega
    rw [this]

/-! ### Right-to-left stable placement loop -/

theorem uintMod_pos : 0 < uintMod := by decide

/-- Full characterization of the placement loop.  `P d` is the cumulative
pointer `counts[d]` on entry (number of elements in buckets `≤ d`); on
success the elements of bucket `d` occupy the window
`[P d - cntEq d, P d)` in input order, positions outside every window are
untouched, and `counts[d]` has moved down to the window's start. -/
theorem placeLoop_spec (bucket : α → Nat) [Inhabited α] (P : Nat → Nat)
    (l : List α) :
    ∀ (output : List α) (counts : List Nat),
      (∀ x ∈ l, bucket x < counts.length) →
      (∀ d, d < counts.length → counts.getD d 0 = P d) →
      (∀ d, d < counts.length → P d ≤ output.length) →
      (∀ d, d < counts.length → cntEq bucket l d ≤ P d) →
      (∀ d e, d < counts.length → e < counts.length → d ≠ e →
        P d ≤ P e - cntEq bucket l e ∨ P e ≤ P d - cntEq bucket l d) →
      (∀ d, d < counts.length → P d < uintMod) →
      ∃ output' counts',
        placeLoop bucket l output counts = some (output', counts') ∧
        counts'.length = counts.length ∧
        output'.length = output.length ∧
        (∀ d, d < counts.length →
          counts'.getD d 0 = P d - cntEq bucket l d) ∧
        (∀ d, d < counts.length → ∀ t, t < cntEq bucket l d →
          output'[P d - cntEq bucket l d + t]? =
            (l.filter (fun x => bucket x == d))[t]?) ∧
        (∀ m, (∀ d, d < counts.length → m < P d - cntEq bucket l d ∨ P d ≤ m) →
          output'[m]? = output[m]?) := by
  induction l with
  | nil =>
    intro output counts _ hc _ _ _ _
    exact ⟨output, counts, rfl, rfl, rfl,
      fun d hd => by rw [hc d hd]; simp,
      fun d _ t ht => by simp at ht,
      fun m _ => rfl⟩
  | cons x l ih =>
    intro output counts hb hc hPle hPge hdisj hM
    have hd0 : bucket x < counts.length := hb x (by simp)
    have hcnt_cons_eq : ∀ d, cntEq bucket (x :: l) d
        = cntEq bucket l d + (if bucket x = d then 1 else 0) := cntEq_cons bucket x l
    obtain ⟨o1, c1, heq, hlen1, hlen2, hcnt, hcontent, huntouched⟩ :=
      ih output counts (fun y hy => hb y (by simp [hy])) hc hPle
        (fun d hd => by have := hPge d hd; have := hcnt_cons_eq d; omega)
        (fun d e hd he hde => by
          have := hdisj d e hd he hde
          have h1 := hcnt_cons_eq d
          have h2 := hcnt_cons_eq e
          omega)
        hM
    -- facts about the pointer of x's bucket
    have hc1d0 : c1.getD (bucket x) 0 = P (bucket x) - cntEq bucket l (bucket x) :=
      hcnt (bucket x) hd0
    have hgex : cntEq bucket (x :: l) (bucket x) = cntEq bucket l (bucket x) + 1 := by
      rw [hcnt_cons_eq]
      simp
    have hge1 : 1 ≤ c1.getD (bucket x) 0 := by
      have := hPge (bucket x) hd0
      omega
    have hltM : c1.getD (bucket x) 0 < uintMod := by
      have := hM (bucket x) hd0
      omega
    have hidx : (c1.getD (bucket x) 0 + (uintMod - 1)) % uintMod
        = c1.getD (bucket x) 0 - 1 := by
      have h1 : c1.getD (bucket x) 0 + (uintMod - 1)
          = (c1.getD (bucket x) 0 - 1) + uintMod := by
        have := uintMod_pos
        omega
      rw [h1, Nat.add_mod_right]
      exact Nat.mod_eq_of_lt (by omega)
    have hidxval : c1.getD (bucket x) 0 - 1
        = P (bucket x) - cntEq bucket (x :: l) (bucket x) := by
      omega
    have hidxltP : c1.getD (bucket x) 0 - 1 < P (bucket x) := by
      have := hPge (bucket x) hd0
      omega
    have hidxlt : c1.getD (bucket x) 0 - 1 < o1.length := by
      have := hPle (bucket x) hd0
      omega
    have hstep : placeLoop bucket (x :: l) output counts
        = some (o1.set (c1.getD (bucket x) 0 - 1) x,
            c1.set (bucket x) (c1.getD (bucket x) 0 - 1)) := by
      rw [placeLoop, heq]
      simp only [hidx]
      rw [if_pos (by rw [hlen1]; exact hd0), if_pos hidxlt]
    refine ⟨_, _, hstep, ?_, ?_, ?_, ?_, ?_⟩
    · rw [List.length_set, hlen1]
    · rw [List.length_set, hlen2]
    · intro d hd
      by_cases hdd : bucket x = d
      · subst hdd
        rw [getD_set_self _ _ _ _ (by rw [hlen1]; exact hd0)]
        omega
      · rw [getD_set_ne _ _ _ hdd, hcnt d hd, hcnt_cons_eq d, if_neg hdd]
        omega
    · intro d hd t ht
      by_cases hdd : bucket x = d
      · subst hdd
        have hfil : (x :: l).filter (fun y => bucket y == bucket x)
            = x :: l.filter (fun y => bucket y == bucket x) := by
          rw [List.filter_cons, if_pos (by simp)]
        rw [hfil]
        rcases Nat.eq_zero_or_pos t with ht0 | htpos
        · subst ht0
          have hpos : P (bucket x) - cntEq bucket (x :: l) (bucket x) + 0
              = c1.getD (bucket x) 0 - 1 := by omega
          rw [hpos, List.getElem?_set_self hidxlt]
          simp
        · obtain ⟨t', rfl⟩ : ∃ t', t = t' + 1 := ⟨t - 1, by omega⟩
          have hpos : P (bucket x) - cntEq bucket (x :: l) (bucket x) + (t' + 1)
              = P (bucket x) - cntEq bucket l (bucket x) + t' := by omega
          rw [hpos]
          have hne : c1.getD (bucket x) 0 - 1
              ≠ P (bucket x) - cntEq bucket l (bucket x) + t' := by omega
          rw [List.getElem?_set, if_neg hne]
          rw [hcontent (bucket x) hd0 t' (by omega)]
          simp
      · have hcnteq : cntEq bucket (x :: l) d = cntEq bucket l d := by
          rw [hcnt_cons_eq d, if_neg hdd]
          omega
        have hfil : (x :: l).filter (fun y => bucket y == d)
            = l.filter (fun y => bucket y == d) := by
          rw [List.filter_cons, if_neg (by simpa using hdd)]
        rw [hfil, hcnteq]
        have hne : c1.getD (bucket x) 0 - 1 ≠ P d - cntEq bucket l d + t := by
          rcases hdisj d (bucket x) hd hd0 (fun h => hdd h.symm) with hcase | hcase
          · have := hPge d hd
            omega
          · omega
        rw [List.getElem?_set, if_neg hne]
        exact hcontent d hd t (by omega)
    · intro m hm
      have hm0 := hm (bucket x) hd0
      have hne : c1.getD (bucket x) 0 - 1 ≠ m := by omega
      rw [List.getElem?_set, if_neg hne]
      exact huntouched m (fun d hd => by
        have := hm d hd
        have := hcnt_cons_eq d
        omega)

/-- A list whose windows `[cntLt d, cntLt (d+1))` hold the bucket filters in
order is exactly the bucket concatenation. -/
theorem eq_blocks (bucket : α → Nat) (l : List α) :
    ∀ (B : Nat) (o : List α),
      o.length = cntLt bucket l B →
      (∀ d, d < B → ∀ t, t < cntEq bucket l d →
        o[cntLt bucket l d + t]? = (l.filter (fun x => bucket x == d))[t]?) →
      o = bucketBlocks B bucket l := by
  intro B
  induction B with
  | zero =>
    intro o hlen _
    simp only [cntLt, List.range_zero, List.map_nil, List.sum_nil] at hlen
    rw [List.eq_nil_of_length_eq_zero hlen]
    rfl
  | succ B ih =>
    intro o hlen hcontent
    have hsucc := cntLt_succ bucket l B
    have hA : cntLt bucket l B ≤ o.length := by omega
    have htake : o.take (cntLt bucket l B) = bucketBlocks B bucket l := by
      apply ih
      · rw [List.length_take]
        omega
      · intro d hd t ht
        have hlt : cntLt bucket l d + t < cntLt bucket l B := by
          have h1 := cntLt_succ bucket l d
          have h2 := cntLt_mono bucket l (show d + 1 ≤ B by omega)
          omega
        rw [List.getElem?_take, if_pos hlt]
        exact hcontent d (by omega) t ht
    have hdrop : o.drop (cntLt bucket l B) = l.filter (fun x => bucket x == B) := by
      apply List.ext_getElem?
      intro t
      rw [List.getElem?_drop]
      by_cases ht : t < cntEq bucket l B
      · exact hcontent B (by omega) t ht
      · rw [List.getElem?_eq_none (by omega),
          List.getElem?_eq_none (by
            show cntEq bucket l B ≤ t
            omega)]
    rw [bucketBlocks_succ, ← htake, ← hdrop, List.take_append_drop]

/-- The shared counting pass produces exactly the stable bucket
concatenation. -/
theorem countingPass_eq (B : Nat) (bucket : α → Nat) [Inhabited α]
    (vec : List α) (hb : ∀ x ∈ vec, bucket x < B) (hB : 0 < B)
    (hlen : vec.length < uintMod) :
    countingPass B bucket vec = some (bucketBlocks B bucket vec) := by
  have hrepl : ∀ d, (List.replicate B (0 : Nat)).getD d 0 = 0 := by
    intro d
    rw [List.getD_eq_getElem?_getD, List.getElem?_replicate]
    split <;> rfl
  obtain ⟨counts, h1, h2, h3⟩ := histLoop_spec bucket vec (List.replicate B 0)
    (by simpa using hb)
    (by
      intro d
      rw [hrepl d]
      omega)
  have hc_eq : ∀ d, counts.getD d 0 = cntEq bucket vec d := by
    intro d
    rw [h3 d, hrepl d]
    omega
  have hlenB : counts.length = B := by
    rw [h2]
    simp
  have hmapc : ∀ k, ((List.range k).map (fun e => counts.getD e 0)).sum
      = cntLt bucket vec k := by
    intro k
    unfold cntLt
    apply congrArg
    exact List.map_congr_left (fun e _ => hc_eq e)
  have htotal : cntLt bucket vec B = vec.length := cntLt_total bucket vec B hb
  obtain ⟨hp1, hp2⟩ := prefixLoop_spec counts (by omega)
    (by
      rw [hlenB, hmapc B, htotal]
      exact hlen)
  obtain ⟨o', c', hpl, _hc1, holen, _hcnt, hcont, _hun⟩ :=
    placeLoop_spec bucket (fun d => cntLt bucket vec (d + 1)) vec
      (List.replicate vec.length default) (prefixLoop counts)
      (by
        intro x hx
        rw [hp1, hlenB]
        exact hb x hx)
      (by
        intro d hd
        rw [hp1, hlenB] at hd
        rw [hp2 d (by omega), hmapc (d + 1)])
      (by
        intro d hd
        rw [hp1, hlenB] at hd
        rw [List.length_replicate]
        rw [← htotal]
        exact cntLt_mono bucket vec (by omega))
      (by
        intro d hd
        dsimp only
        have := cntLt_succ bucket vec d
        omega)
      (by
        intro d e hd he hde
        dsimp only
        rw [hp1, hlenB] at hd he
        have hd1 := cntLt_succ bucket vec d
        have he1 := cntLt_succ bucket vec e
        rcases Nat.lt_or_ge d e with hlt | hge
        · left
          have := cntLt_mono bucket vec (show d + 1 ≤ e by omega)
          omega
        · right
          have hgt : e < d := by omega
          have := cntLt_mono bucket vec (show e + 1 ≤ d by omega)
          omega)
      (by
        intro d hd
        dsimp only
        have h4 := cntLt_mono bucket vec (show d + 1 ≤ B by
          rw [hp1, hlenB] at hd
          omega)
        omega)
  have hfinal : o' = bucketBlocks B bucket vec := by
    apply eq_blocks
    · rw [holen, List.length_replicate, htotal]
    · intro d hd t ht
      have hd1 := cntLt_succ bucket vec d
      have := hcont d (by rw [hp1, hlenB]; omega) t ht
      rw [show cntLt bucket vec (d + 1) - cntEq bucket vec d
          = cntLt bucket vec d by omega] at this
      exact this
  unfold countingPass
  rw [h1]
  dsimp only
  rw [hpl]
  dsimp only
  rw [hfinal]

/-! ### Properties of the bucket concatenation -/

theorem flatMap_filter_congr (x : α) (l : List α) (bucket : α → Nat)
    (ds : List Nat) (hne : ∀ d ∈ ds, bucket x ≠ d) :
    ds.flatMap (fun d => (x :: l).filter (fun y => bucket y == d))
      = ds.flatMap (fun d => l.filter (fun y => bucket y == d)) := by
  induction ds with
  | nil => rfl
  | cons d ds ih =>
    rw [List.flatMap_cons, List.flatMap_cons,
      ih (fun e he => hne e (by simp [he]))]
    congr 1
    rw [List.filter_cons, if_neg (by simpa using hne d (by simp))]

theorem bucketBlocks_nil (B : Nat) (bucket : α → Nat) :
    bucketBlocks B bucket [] = [] := by
  induction B with
  | zero => rfl
  | succ B ih => rw [bucketBlocks_succ, ih]; rfl

/-- Splitting the bucket concatenation at one bucket. -/
theorem bucketBlocks_split (B : Nat) (bucket : α → Nat) (l : List α)
    (d0 : Nat) (hd0 : d0 < B) :
    bucketBlocks B bucket l =
      (List.range d0).flatMap (fun d => l.filter (fun y => bucket y == d)) ++
      l.filter (fun y => bucket y == d0) ++
      (((List.range (B - d0 - 1)).map (fun t => d0 + (t + 1))).flatMap
        (fun d => l.filter (fun y => bucket y == d))) := by
  unfold bucketBlocks
  have hr : List.range B
      = List.range d0 ++ d0 :: (List.range (B - d0 - 1)).map (fun t => d0 + (t + 1)) := by
    have hB : B = d0 + (B - d0 - 1 + 1) := by omega
    conv_lhs => rw [hB]
    rw [List.range_add, List.range_succ_eq_map]
    simp only [List.map_cons, Nat.add_zero, List.map_map]
    rfl
  rw [hr, List.flatMap_append, List.flatMap_cons, List.append_assoc]

theorem bucketBlocks_perm (B : Nat) (bucket : α → Nat) (l : List α)
    (hb : ∀ x ∈ l, bucket x < B) : (bucketBlocks B bucket l).Perm l := by
  induction l with
  | nil => rw [bucketBlocks_nil]
  | cons x l ih =>
    have hd0 : bucket x < B := hb x (by simp)
    have hsplx := bucketBlocks_split B bucket (x :: l) (bucket x) hd0
    have hspl := bucketBlocks_split B bucket l (bucket x) hd0
    have hA : (List.range (bucket x)).flatMap
        (fun d => (x :: l).filter (fun y => bucket y == d))
        = (List.range (bucket x)).flatMap (fun d => l.filter (fun y => bucket y == d)) :=
      flatMap_filter_congr x l bucket _ (by
        intro d hd
        rw [List.mem_range] at hd
        omega)
    have hC : (((List.range (B - bucket x - 1)).map (fun t => bucket x + (t + 1))).flatMap
        (fun d => (x :: l).filter (fun y => bucket y == d)))
        = (((List.range (B - bucket x - 1)).map (fun t => bucket x + (t + 1))).flatMap
          (fun d => l.filter (fun y => bucket y == d))) :=
      flatMap_filter_congr x l bucket _ (by
        intro d hd
        rw [List.mem_map] at hd
        obtain ⟨t, _, rfl⟩ := hd
        omega)
    have hm : (x :: l).filter (fun y => bucket y == bucket x)
        = x :: l.filter (fun y => bucket y == bucket x) := by
      rw [List.filter_cons, if_pos (by simp)]
    rw [hsplx, hA, hC, hm]
    have hperm : ((List.range (bucket x)).flatMap (fun d => l.filter (fun y => bucket y == d)) ++
        (x :: l.filter (fun y => bucket y == bucket x)) ++
        (((List.range (B - bucket x - 1)).map (fun t => bucket x + (t + 1))).flatMap
          (fun d => l.filter (fun y => bucket y == d)))).Perm
        (x :: bucketBlocks B bucket l) := by
      rw [hspl, List.append_assoc, List.append_assoc]
      exact List.perm_middle
    exact hperm.trans ((ih (fun y hy => hb y (by simp [hy]))).cons x)

theorem bucketBlocks_pairwise (B : Nat) (bucket : α → Nat) (l : List α)
    (R : α → α → Prop)
    (hcross : ∀ a b, a ∈ l → b ∈ l → bucket a < bucket b → R a b)
    (hwithin : ∀ d, List.Pairwise R (l.filter (fun x => bucket x == d))) :
    List.Pairwise R (bucketBlocks B bucket l) := by
  induction B with
  | zero => exact List.Pairwise.nil
  | succ B ih =>
    rw [bucketBlocks_succ, List.pairwise_append]
    refine ⟨ih, hwithin B, ?_⟩
    intro a ha b hb
    have hma := mem_bucketBlocks ha
    rw [List.mem_filter] at hb
    have hbb : bucket b = B := by simpa using hb.2
    exact hcross a b hma.1 hb.1 (by omega)

theorem filter_bucketBlocks (B : Nat) (bucket : α → Nat) (l : List α)
    (p : α → Bool) (d0 : Nat) (hd0 : d0 < B)
    (hp : ∀ x ∈ l, p x = true → bucket x = d0) :
    (bucketBlocks B bucket l).filter p = l.filter p := by
  revert hd0
  induction B with
  | zero => omega
  | succ B ih =>
    intro hd0
    rw [bucketBlocks_succ, List.filter_append]
    rcases Nat.lt_or_ge d0 B with hlt | hge
    · rw [ih hlt]
      have : (l.filter (fun x => bucket x == B)).filter p = [] := by
        rw [List.filter_eq_nil_iff]
        intro a ha
        rw [List.mem_filter] at ha
        intro hpa
        have := hp a ha.1 hpa
        have : bucket a = B := by simpa using ha.2
        omega
      rw [this, List.append_nil]
    · have hd0B : d0 = B := by omega
      have h1 : (bucketBlocks B bucket l).filter p = [] := by
        rw [List.filter_eq_nil_iff]
        intro a ha hpa
        have hma := mem_bucketBlocks ha
        have := hp a hma.1 hpa
        omega
      rw [h1, List.nil_append, List.filter_filter]
      apply List.filter_congr
      intro a ha
      by_cases hpa : p a = true
      · have hba := hp a ha hpa
        simp [hpa, hba, hd0B]
      · simp only [Bool.not_eq_true] at hpa
        simp [hpa]

/-- Elements in the blocks come from `l`; with no `p`-elements in `l` both
filters are empty. -/
theorem filter_bucketBlocks_of_not_mem (B : Nat) (bucket : α → Nat)
    (l : List α) (p : α → Bool) (hnp : ∀ x ∈ l, ¬ p x = true) :
    (bucketBlocks B bucket l).filter p = l.filter p := by
  have h1 : l.filter p = [] := List.filter_eq_nil_iff.mpr hnp
  have h2 : (bucketBlocks B bucket l).filter p = [] := by
    rw [List.filter_eq_nil_iff]
    intro a ha
    exact hnp a (mem_bucketBlocks ha).1
  rw [h1, h2]

/-! ### slices.Max and generic pairwise helpers -/

theorem foldl_max_ge (key : α → Nat) (l : List α) :
    ∀ (a : Nat), a ≤ l.foldl (fun m y => Nat.max m (key y)) a ∧
      ∀ x ∈ l, key x ≤ l.foldl (fun m y => Nat.max m (key y)) a := by
  induction l with
  | nil => exact fun a => ⟨Nat.le_refl a, by simp⟩
  | cons y l ih =>
    intro a
    simp only [List.foldl_cons]
    obtain ⟨h1, h2⟩ := ih (Nat.max a (key y))
    refine ⟨le_trans (Nat.le_max_left a (key y)) h1, ?_⟩
    intro x hx
    rcases List.mem_cons.mp hx with rfl | hx
    · exact le_trans (Nat.le_max_right a (key x)) h1
    · exact h2 x hx

theorem le_slicesMax (key : α → Nat) (vec : List α) :
    ∀ x ∈ vec, key x ≤ slicesMax key vec := by
  cases vec with
  | nil => simp
  | cons y l =>
    intro x hx
    rcases List.mem_cons.mp hx with rfl | hx
    · exact (foldl_max_ge key l (key x)).1
    · exact (foldl_max_ge key l (key y)).2 x hx

theorem foldl_max_cases (key : α → Nat) (l : List α) :
    ∀ (a : Nat), l.foldl (fun m y => Nat.max m (key y)) a = a ∨
      ∃ x ∈ l, l.foldl (fun m y => Nat.max m (key y)) a = key x := by
  induction l with
  | nil => exact fun a => Or.inl rfl
  | cons y l ih =>
    intro a
    simp only [List.foldl_cons]
    rcases ih (Nat.max a (key y)) with h | ⟨x, hx, h⟩
    · rcases Nat.le_total a (key y) with hm | hm
      · exact Or.inr ⟨y, by simp, h.trans (max_eq_right hm)⟩
      · exact Or.inl (h.trans (max_eq_left hm))
    · exact Or.inr ⟨x, by simp [hx], h⟩

theorem slicesMax_cases (key : α → Nat) (vec : List α) (hne : vec ≠ []) :
    ∃ x ∈ vec, slicesMax key vec = key x := by
  cases vec with
  | nil => exact absurd rfl hne
  | cons y l =>
    rcases foldl_max_cases key l (key y) with h | ⟨x, hx, h⟩
    · exact ⟨y, by simp, h⟩
    · exact ⟨x, by simp [hx], h⟩

theorem pairwise_of_mem {R : α → α → Prop} :
    ∀ (l : List α), (∀ a b, a ∈ l → b ∈ l → R a b) → List.Pairwise R l := by
  intro l
  induction l with
  | nil => exact fun _ => List.Pairwise.nil
  | cons x l ih =>
    intro h
    exact List.Pairwise.cons
      (fun b hb => h x b (by simp) (by simp [hb]))
      (ih (fun a b ha hb => h a b (by simp [ha]) (by simp [hb])))

theorem pairwise_short {R : α → α → Prop} (l : List α) (h : l.length ≤ 1) :
    List.Pairwise R l := by
  cases l with
  | nil => exact List.Pairwise.nil
  | cons x l =>
    cases l with
    | nil => simp
    | cons y l => simp at h

/-! ### GeneralCountingSort -/

/-- On in-range inputs, `GeneralCountingSort` produces the stable bucket
concatenation over buckets `0..max`. -/
theorem GeneralCountingSort_eq (key : α → Nat) [Inhabited α] (vec : List α)
    (h2 : 2 ≤ vec.length)
    (hval : ∀ x ∈ vec, key x < 2 ^ 63 - 1) (hlen : vec.length < uintMod) :
    GeneralCountingSort key vec
      = some (bucketBlocks (slicesMax key vec + 1) key vec) := by
  have hne : vec ≠ [] := by
    cases vec
    · simp at h2
    · simp
  obtain ⟨x0, hx0, hmx⟩ := slicesMax_cases key vec hne
  have hmax : slicesMax key vec < 2 ^ 63 - 1 := by
    rw [hmx]
    exact hval x0 hx0
  have hmod : (slicesMax key vec + 1) % uintMod = slicesMax key vec + 1 :=
    Nat.mod_eq_of_lt (by
      have : uintMod = 2 ^ 64 := rfl
      omega)
  rw [GeneralCountingSort, if_neg (by omega)]
  dsimp only
  rw [hmod, if_neg (by omega)]
  exact countingPass_eq _ key vec
    (fun x hx => by have := le_slicesMax key vec x hx; omega)
    (by omega) hlen

theorem GeneralCountingSort_sorts (key : α → Nat) [Inhabited α]
    (vec : List α)
    (hval : ∀ x ∈ vec, key x < 2 ^ 63 - 1) (hlen : vec.length < uintMod) :
    ∃ out, GeneralCountingSort key vec = some out ∧
      out.Perm vec ∧
      List.Pairwise (fun a b => key a ≤ key b) out ∧
      (∀ k, out.filter (fun x => key x == k) = vec.filter (fun x => key x == k)) := by
  by_cases h2 : 2 ≤ vec.length
  · refine ⟨_, GeneralCountingSort_eq key vec h2 hval hlen, ?_, ?_, ?_⟩
    · exact bucketBlocks_perm _ key vec
        (fun x hx => by have := le_slicesMax key vec x hx; omega)
    · refine bucketBlocks_pairwise _ key vec _ (fun a b _ _ h => le_of_lt h) ?_
      intro d
      apply pairwise_of_mem
      intro a b ha hb
      rw [List.mem_filter] at ha hb
      have ha2 : key a = d := by simpa using ha.2
      have hb2 : key b = d := by simpa using hb.2
      omega
    · intro k
      by_cases hk : k ≤ slicesMax key vec
      · exact filter_bucketBlocks _ key vec _ k (by omega)
          (fun x _ hx => by simpa using hx)
      · apply filter_bucketBlocks_of_not_mem
        intro x hx hpx
        have h1 : key x = k := by simpa using hpx
        have := le_slicesMax key vec x hx
        omega
  · refine ⟨vec, ?_, List.Perm.refl vec, pairwise_short vec (by omega), fun k => rfl⟩
    rw [GeneralCountingSort, if_pos (by omega)]

/-! ### IntRadixSort -/

theorem radixIntCountSort_eq (key : α → Nat) [Inhabited α] (vec : List α)
    (exp : Nat) (hlen : vec.length < uintMod) :
    radixIntCountSort key vec exp
      = some (bucketBlocks 10 (fun x => (key x / exp) % 10) vec) := by
  unfold radixIntCountSort NumDigits
  exact countingPass_eq 10 _ vec
    (fun x _ => Nat.mod_lt _ (by omega)) (by omega) hlen

/-- One stable digit pass refines sortedness from `mod exp` to
`mod (exp * 10)`. -/
theorem radix_pass_sorted (key : α → Nat) (vec : List α) (exp : Nat)
    (hexp : 0 < exp)
    (hsort : List.Pairwise (fun a b => key a % exp ≤ key b % exp) vec) :
    List.Pairwise (fun a b => key a % (exp * 10) ≤ key b % (exp * 10))
      (bucketBlocks 10 (fun x => (key x / exp) % 10) vec) := by
  apply bucketBlocks_pairwise
  · intro a b _ _ hab
    have h1 : key a % (exp * 10) = key a % exp + exp * (key a / exp % 10) :=
      Nat.mod_mul
    have h2 : key b % (exp * 10) = key b % exp + exp * (key b / exp % 10) :=
      Nat.mod_mul
    have h3 : key a % exp < exp := Nat.mod_lt _ hexp
    have h5 : exp * (key a / exp % 10 + 1) ≤ exp * (key b / exp % 10) :=
      Nat.mul_le_mul_left exp hab
    have h6 : exp * (key a / exp % 10 + 1) = exp * (key a / exp % 10) + exp := by
      ring
    omega
  · intro d
    have hsub : List.Pairwise (fun a b => key a % exp ≤ key b % exp)
        (vec.filter (fun x => (key x / exp) % 10 == d)) :=
      List.Pairwise.sublist (List.filter_sublist vec) hsort
    apply List.Pairwise.imp_of_mem _ hsub
    intro a b ha hb hle
    rw [List.mem_filter] at ha hb
    have ha2 : key a / exp % 10 = d := by simpa using ha.2
    have hb2 : key b / exp % 10 = d := by simpa using hb.2
    have h1 : key a % (exp * 10) = key a % exp + exp * (key a / exp % 10) :=
      Nat.mod_mul
    have h2 : key b % (exp * 10) = key b % exp + exp * (key b / exp % 10) :=
      Nat.mod_mul
    rw [ha2] at h1
    rw [hb2] at h2
    omega

/-- One digit pass preserves every key-filter (per-pass stability). -/
theorem radix_pass_filter (key : α → Nat) (vec : List α) (exp k' : Nat) :
    (bucketBlocks 10 (fun x => (key x / exp) % 10) vec).filter
        (fun x => key x == k')
      = vec.filter (fun x => key x == k') := by
  apply filter_bucketBlocks 10 _ vec _ ((k' / exp) % 10)
    (Nat.mod_lt _ (by omega))
  intro x _ hx
  have : key x = k' := by simpa using hx
  rw [this]

/-- Full invariant of the digit loop of `IntRadixSort`, on inputs whose
maximum fits a non-negative `int64` (so `exp` stays a true power of 10 and
never overflows before the loop exits). -/
theorem intRadixLoop_spec (key : α → Nat) [Inhabited α] (maxv : Nat)
    (hmax : maxv < 2 ^ 63) :
    ∀ (fuel : Nat) (vec : List α) (exp : Nat),
      0 < fuel →
      vec.length < uintMod →
      (∀ x ∈ vec, key x ≤ maxv) →
      (∃ k, exp = 10 ^ k) →
      maxv / exp < 10 ^ (fuel - 1) →
      List.Pairwise (fun a b => key a % exp ≤ key b % exp) vec →
      ∃ out, intRadixLoop key maxv fuel vec exp = some out ∧
        out.Perm vec ∧
        List.Pairwise (fun a b => key a ≤ key b) out ∧
        (∀ k', out.filter (fun x => key x == k')
          = vec.filter (fun x => key x == k')) := by
  intro fuel
  induction fuel with
  | zero => omega
  | succ fuel ih =>
    intro vec exp hpos hlen hkey hpow hfuel hsort
    obtain ⟨k, rfl⟩ := hpow
    have hexp : 0 < 10 ^ k := Nat.pos_pow_of_pos k (by omega)
    rw [intRadixLoop, if_neg (by omega)]
    by_cases hcond : maxv / 10 ^ k > 0
    · rw [if_pos hcond]
      rw [radixIntCountSort_eq key vec _ hlen]
      have hle : 10 ^ k ≤ maxv := by
        by_contra h
        rw [Nat.div_eq_of_lt (by omega)] at hcond
        omega
      have hk18 : k ≤ 18 := by
        by_contra hk
        have h19 : (10 : Nat) ^ 19 ≤ 10 ^ k :=
          Nat.pow_le_pow_right (by omega) (by omega)
        have hcmp : (2 : Nat) ^ 63 < 10 ^ 19 := by norm_num
        omega
      have hpow19 : (10 : Nat) ^ k * 10 ≤ 10 ^ 19 := by
        have h1 : (10 : Nat) ^ k * 10 = 10 ^ (k + 1) := (pow_succ 10 k).symm
        rw [h1]
        exact Nat.pow_le_pow_right (by omega) (by omega)
      have hmod10 : (10 ^ k * 10) % uintMod = 10 ^ k * 10 := by
        have hcmp : (10 : Nat) ^ 19 < 2 ^ 64 := by norm_num
        have : uintMod = 2 ^ 64 := rfl
        exact Nat.mod_eq_of_lt (by omega)
      have hfposfuel : 0 < fuel := by
        rcases Nat.eq_zero_or_pos fuel with rfl | hf
        · simp only [Nat.sub_self, pow_zero] at hfuel
          omega
        · exact hf
      have hperm1 := bucketBlocks_perm 10 (fun x => (key x / 10 ^ k) % 10) vec
        (fun x _ => Nat.mod_lt _ (by omega))
      have hsort1 := radix_pass_sorted key vec (10 ^ k) hexp hsort
      obtain ⟨out, hloop, hperm2, hsorted, hfil2⟩ := ih
        (bucketBlocks 10 (fun x => (key x / 10 ^ k) % 10) vec)
        (10 ^ (k + 1))
        hfposfuel
        (by rw [hperm1.length_eq]; exact hlen)
        (fun x hx => hkey x (hperm1.mem_iff.mp hx))
        ⟨k + 1, rfl⟩
        (by
          rw [pow_succ, ← Nat.div_div_eq_div_mul]
          rw [Nat.div_lt_iff_lt_mul (by omega)]
          have h1 : (10 : Nat) ^ (fuel - 1) * 10 = 10 ^ fuel := by
            rw [← pow_succ]
            congr 1
            omega
          rw [h1]
          simpa using hfuel)
        (by
          rw [pow_succ]
          exact hsort1)
      refine ⟨out, ?_, hperm2.trans hperm1, hsorted, ?_⟩
      · rw [hmod10, show (10 : Nat) ^ k * 10 = 10 ^ (k + 1) from (pow_succ 10 k).symm]
        exact hloop
      · intro k'
        rw [hfil2 k', radix_pass_filter]
    · rw [if_neg hcond]
      have hlt : maxv < 10 ^ k := by
        rcases Nat.lt_or_ge maxv (10 ^ k) with h | h
        · exact h
        · exact absurd (Nat.div_pos h hexp) hcond
      refine ⟨vec, rfl, List.Perm.refl vec, ?_, fun _ => rfl⟩
      apply List.Pairwise.imp_of_mem _ hsort
      intro a b ha hb hle
      rw [Nat.mod_eq_of_lt (by have := hkey a ha; omega),
        Nat.mod_eq_of_lt (by have := hkey b hb; omega)] at hle
      exact hle

/-- `IntRadixSort` sorts, permutes, and is stable, for `uint` values below
`2^63` (no wrap of the digit weight). -/
theorem IntRadixSort_sorts (key : α → Nat) [Inhabited α] (vec : List α)
    (hval : ∀ x ∈ vec, key x < 2 ^ 63) (hlen : vec.length < uintMod) :
    ∃ out, IntRadixSort key vec = some out ∧
      out.Perm vec ∧
      List.Pairwise (fun a b => key a ≤ key b) out ∧
      (∀ k, out.filter (fun x => key x == k)
        = vec.filter (fun x => key x == k)) := by
  by_cases h2 : 2 ≤ vec.length
  · have hne : vec ≠ [] := by
      cases vec
      · simp at h2
      · simp
    obtain ⟨x0, hx0, hmx⟩ := slicesMax_cases key vec hne
    have hmax : slicesMax key vec < 2 ^ 63 := by
      rw [hmx]
      exact hval x0 hx0
    obtain ⟨out, hloop, hperm, hsorted, hfil⟩ :=
      intRadixLoop_spec key (slicesMax key vec) hmax 65 vec 1
        (by omega) hlen (le_slicesMax key vec) ⟨0, rfl⟩
        (by
          show slicesMax key vec / 1 < 10 ^ 64
          have h1 : (2 : Nat) ^ 63 < 10 ^ 64 := by norm_num
          rw [Nat.div_one]
          omega)
        (by
          apply pairwise_of_mem
          intro a b _ _
          omega)
    refine ⟨out, ?_, hperm, hsorted, hfil⟩
    rw [IntRadixSort, if_neg (by omega)]
    exact hloop
  · refine ⟨vec, ?_, List.Perm.refl vec, pairwise_short vec (by omega), fun _ => rfl⟩
    rw [IntRadixSort, if_pos (by omega)]

/-! ### LessEfficientRadixSort -/

theorem take_set_concat (vec : List α) (k : Nat) (x : α) (h : k < vec.length) :
    (vec.set k x).take (k + 1) = vec.take k ++ [x] := by
  apply List.ext_getElem?
  intro m
  rw [List.getElem?_take]
  by_cases hm : m < k + 1
  · rw [if_pos hm, List.getElem?_set]
    by_cases hmk : k = m
    · subst hmk
      rw [if_pos rfl, if_pos h]
      rw [List.getElem?_append_right (by simp [List.length_take])]
      simp only [List.length_take]
      rw [min_eq_left (le_of_lt h), Nat.sub_self]
      rfl
    · rw [if_neg hmk]
      rw [List.getElem?_append_left (by simp [List.length_take]; omega)]
      rw [List.getElem?_take, if_pos (by omega)]
  · rw [if_neg hm]
    rw [List.getElem?_eq_none (by simp [List.length_take]; omega)]

theorem writeSeq_spec :
    ∀ (b vec : List Nat) (k : Nat), k + b.length ≤ vec.length →
      writeSeq vec k b = vec.take k ++ b ++ vec.drop (k + b.length) := by
  intro b
  induction b with
  | nil =>
    intro vec k _
    rw [writeSeq]
    simp
  | cons x xs ih =>
    intro vec k hk
    simp only [List.length_cons] at hk
    have hklt : k < vec.length := by omega
    rw [writeSeq, ih (vec.set k x) (k + 1) (by simp; omega)]
    rw [take_set_concat vec k x hklt]
    rw [List.drop_set, if_pos (by omega)]
    have harith : k + 1 + xs.length = k + (xs.length + 1) := by omega
    rw [harith]
    simp [List.append_assoc]

theorem lessEffFlattenWrite_spec :
    ∀ (bs : List (List Nat)) (vec : List Nat) (k : Nat),
      k + (bs.map List.length).sum ≤ vec.length →
      lessEffFlattenWrite vec k bs
        = vec.take k ++ bs.flatten ++ vec.drop (k + (bs.map List.length).sum) := by
  intro bs
  induction bs with
  | nil =>
    intro vec k _
    rw [lessEffFlattenWrite]
    simp
  | cons b rest ih =>
    intro vec k hk
    simp only [List.map_cons, List.sum_cons] at hk
    have hwlen : (writeSeq vec k b).length = vec.length := by
      rw [writeSeq_spec b vec k (by omega)]
      simp [List.length_take, List.length_drop]
      omega
    rw [lessEffFlattenWrite, ih (writeSeq vec k b) (k + b.length)
      (by rw [hwlen]; omega)]
    rw [writeSeq_spec b vec k (by omega)]
    have hpre : (vec.take k ++ b).length = k + b.length := by
      simp [List.length_take]
      omega
    have htake : (vec.take k ++ b ++ vec.drop (k + b.length)).take (k + b.length)
        = vec.take k ++ b := by
      rw [← hpre, List.take_left]
    have hdrop : (vec.take k ++ b ++ vec.drop (k + b.length)).drop
        (k + b.length + (rest.map List.length).sum)
        = vec.drop (k + b.length + (rest.map List.length).sum) := by
      conv_lhs => rw [show k + b.length + (rest.map List.length).sum
          = (vec.take k ++ b).length + (rest.map List.length).sum from by rw [hpre]]
      rw [List.drop_append, List.drop_drop]
    rw [htake, hdrop, List.flatten_cons]
    have harith : k + b.length + (rest.map List.length).sum
        = k + (b.length + (rest.map List.length).sum) := by omega
    rw [harith]
    simp [List.append_assoc]

theorem lessEffBuild_spec (divisor : Nat) :
    ∀ (l : List Nat) (arr : List (List Nat)), arr.length = NumDigits →
      (lessEffBuild divisor l arr).length = NumDigits ∧
      ∀ d, d < NumDigits →
        (lessEffBuild divisor l arr).getD d []
          = arr.getD d [] ++ l.filter (fun x => (x / divisor) % NumDigits == d) := by
  intro l
  induction l with
  | nil =>
    intro arr harr
    exact ⟨harr, fun d _ => by rw [lessEffBuild]; simp⟩
  | cons x l ih =>
    intro arr harr
    rw [lessEffBuild]
    have hdx : (x / divisor) % NumDigits < arr.length := by
      rw [harr]
      exact Nat.mod_lt _ (by decide)
    obtain ⟨hlen, hget⟩ := ih
      (arr.set ((x / divisor) % NumDigits)
        (arr.getD ((x / divisor) % NumDigits) [] ++ [x]))
      (by rw [List.length_set, harr])
    refine ⟨hlen, fun d hd => ?_⟩
    rw [hget d hd]
    by_cases hdd : (x / divisor) % NumDigits = d
    · subst hdd
      rw [getD_set_self _ _ _ _ hdx]
      rw [List.filter_cons_of_pos (by simp)]
      simp [List.append_assoc]
    · rw [getD_set_ne _ _ _ hdd]
      rw [List.filter_cons_of_neg (by simp [hdd])]

theorem lessEffBuild_eq (divisor : Nat) (vec : List Nat) :
    lessEffBuild divisor vec (List.replicate NumDigits [])
      = (List.range NumDigits).map
          (fun d => vec.filter (fun x => (x / divisor) % NumDigits == d)) := by
  obtain ⟨hlen, hget⟩ := lessEffBuild_spec divisor vec (List.replicate NumDigits [])
    (by simp)
  apply List.ext_getElem
  · rw [hlen, List.length_map, List.length_range]
  intro i h1 h2
  have hi : i < NumDigits := by
    rw [hlen] at h1
    exact h1
  have hg := hget i hi
  rw [List.getD_eq_getElem _ _ h1] at hg
  rw [hg, List.getElem_map, List.getElem_range]
  rw [List.getD_eq_getElem _ _ (by simp [hi]), List.getElem_replicate]
  rw [List.nil_append]

theorem lessEffPass_eq (divisor : Nat) (vec : List Nat) :
    lessEffFlattenWrite vec 0 (lessEffBuild divisor vec (List.replicate NumDigits []))
      = bucketBlocks NumDigits (fun x => (x / divisor) % NumDigits) vec := by
  rw [lessEffBuild_eq]
  have hflat : ((List.range NumDigits).map
      (fun d => vec.filter (fun x => (x / divisor) % NumDigits == d))).flatten
      = bucketBlocks NumDigits (fun x => (x / divisor) % NumDigits) vec := by
    rw [bucketBlocks, List.flatMap_def]
  have hperm : (bucketBlocks NumDigits (fun x => (x / divisor) % NumDigits) vec).Perm vec :=
    bucketBlocks_perm _ _ _ (fun x _ => Nat.mod_lt _ (by decide))
  have hsum : (((List.range NumDigits).map
      (fun d => vec.filter (fun x => (x / divisor) % NumDigits == d))).map
        List.length).sum = vec.length := by
    rw [← List.length_flatten, hflat]
    exact hperm.length_eq
  rw [lessEffFlattenWrite_spec _ vec 0 (le_of_eq (by rw [Nat.zero_add, hsum]))]
  rw [Nat.zero_add, hsum]
  rw [List.take_zero, List.drop_length, List.nil_append, List.append_nil]
  exact hflat

theorem lessEffLoop_eq (max : Nat) :
    ∀ (fuel : Nat) (vec : List Nat) (divisor : Nat), vec.length < uintMod →
      lessEffLoop max fuel vec divisor
        = intRadixLoop (fun v => v) max fuel vec divisor := by
  intro fuel
  induction fuel with
  | zero =>
    intro vec divisor _
    rfl
  | succ fuel ih =>
    intro vec divisor hlen
    rw [lessEffLoop, intRadixLoop]
    by_cases h0 : divisor = 0
    · rw [if_pos h0, if_pos h0]
    rw [if_neg h0, if_neg h0]
    by_cases hm : max / divisor > 0
    · rw [if_pos hm, if_pos hm]
      have hcp : radixIntCountSort (fun v : Nat => v) vec divisor
          = some (bucketBlocks NumDigits (fun x => (x / divisor) % NumDigits) vec) :=
        countingPass_eq NumDigits _ vec
          (fun x _ => Nat.mod_lt _ (by decide)) (by decide) hlen
      rw [hcp]
      dsimp only
      rw [lessEffPass_eq]
      have hperm : (bucketBlocks NumDigits (fun x => (x / divisor) % NumDigits) vec).Perm vec :=
        bucketBlocks_perm _ _ _ (fun x _ => Nat.mod_lt _ (by decide))
      exact ih _ _ (by rw [hperm.length_eq]; exact hlen)
    · rw [if_neg hm, if_neg hm]

theorem LessEfficientRadixSort_eq (vec : List Nat) (hlen : vec.length < uintMod) :
    LessEfficientRadixSort vec = IntRadixSort (fun v => v) vec := by
  rw [LessEfficientRadixSort, IntRadixSort]
  by_cases h : vec.length ≤ 1
  · rw [if_pos h, if_pos h]
  · rw [if_neg h, if_neg h]
    exact lessEffLoop_eq _ 65 vec 1 hlen

/-- **C7.**  `LessEfficientRadixSort` is functionally equivalent to
`IntRadixSort`: on every input slice (any list whose length fits in a Go
slice, in particular below `2 ^ 64`) the two return identical results —
the same values in the same positions, and they panic in exactly the same
cases.  Each bucket-partitioning pass of `LessEfficientRadixSort` produces
the same stable digit-ordered rearrangement as the counting pass of
`IntRadixSort`, and the two digit loops have identical control. -/
theorem claim_C7 (vec : List Nat) (hlen : vec.length < uintMod) :
    LessEfficientRadixSort vec = IntRadixSort (fun v => v) vec :=
  LessEfficientRadixSort_eq vec hlen

/-- **C7, witness.**  The equivalence applied to the worked example from
the specification. -/
theorem claim_C7_witness :
    ([170, 45, 75, 90, 802, 24, 2, 66] : List Nat).length < uintMod ∧
      LessEfficientRadixSort [170, 45, 75, 90, 802, 24, 2, 66]
        = IntRadixSort (fun v => v) [170, 45, 75, 90, 802, 24, 2, 66] :=
  ⟨by decide, claim_C7 [170, 45, 75, 90, 802, 24, 2, 66] (by decide)⟩

/-! ### IntegerCountingSort -/

/-- The canonical output of the drain loop of `IntegerCountingSort`:
each count expanded to a run of its value, values in increasing order. -/
def emitBlocks : List Nat → Nat → List Nat
  | [], _ => []
  | c :: rest, v => List.replicate c v ++ emitBlocks rest (v + 1)

theorem icsWriteRun_spec (v : Nat) :
    ∀ (c : Nat) (vec : List Nat) (idx : Nat), idx + c ≤ vec.length →
      icsWriteRun c vec idx v
        = some (writeSeq vec idx (List.replicate c v), idx + c) := by
  intro c
  induction c with
  | zero =>
    intro vec idx _
    rfl
  | succ c ih =>
    intro vec idx h
    rw [icsWriteRun, if_pos (by omega)]
    rw [ih (vec.set idx v) (idx + 1) (by simp; omega)]
    rw [List.replicate_succ, writeSeq]
    have harith : idx + 1 + c = idx + (c + 1) := by omega
    rw [harith]

theorem icsEmit_spec :
    ∀ (counts : List Nat) (v : Nat) (vec : List Nat) (idx : Nat),
      idx + counts.sum ≤ vec.length →
      icsEmit counts v vec idx
        = some (vec.take idx ++ emitBlocks counts v
            ++ vec.drop (idx + counts.sum)) := by
  intro counts
  induction counts with
  | nil =>
    intro v vec idx _
    rw [icsEmit, emitBlocks]
    simp
  | cons c rest ih =>
    intro v vec idx hk
    have hsum : (c :: rest).sum = c + rest.sum := List.sum_cons
    rw [hsum] at hk
    rw [icsEmit, icsWriteRun_spec v c vec idx (by omega)]
    dsimp only
    have hWeq : writeSeq vec idx (List.replicate c v)
        = vec.take idx ++ List.replicate c v ++ vec.drop (idx + c) := by
      rw [writeSeq_spec (List.replicate c v) vec idx (by simp; omega)]
      rw [List.length_replicate]
    have hWlen : (writeSeq vec idx (List.replicate c v)).length = vec.length := by
      rw [hWeq]
      simp [List.length_take, List.length_drop, List.length_replicate]
      omega
    rw [ih (v + 1) (writeSeq vec idx (List.replicate c v)) (idx + c)
      (by rw [hWlen]; omega)]
    rw [hWeq]
    have hpre : (vec.take idx ++ List.replicate c v).length = idx + c := by
      simp [List.length_take, List.length_replicate]
      omega
    have htake : (vec.take idx ++ List.replicate c v
        ++ vec.drop (idx + c)).take (idx + c)
        = vec.take idx ++ List.replicate c v := by
      rw [← hpre, List.take_left]
    have hdrop : (vec.take idx ++ List.replicate c v
        ++ vec.drop (idx + c)).drop (idx + c + rest.sum)
        = vec.drop (idx + c + rest.sum) := by
      conv_lhs => rw [show idx + c + rest.sum
          = (vec.take idx ++ List.replicate c v).length + rest.sum from by rw [hpre]]
      rw [List.drop_append, List.drop_drop]
    rw [htake, hdrop, emitBlocks, hsum]
    have harith : idx + c + rest.sum = idx + (c + rest.sum) := by omega
    rw [harith]
    simp [List.append_assoc]

theorem sum_eq_sum_getD :
    ∀ (l : List Nat),
      l.sum = ((List.range l.length).map (fun j => l.getD j 0)).sum := by
  intro l
  induction l with
  | nil => rfl
  | cons x l ih =>
    rw [List.sum_cons, ih]
    rw [List.length_cons, List.range_succ_eq_map]
    rw [List.map_cons, List.map_map, List.sum_cons]
    have hcomp : ((fun j => (x :: l).getD j 0) ∘ Nat.succ)
        = fun j => l.getD j 0 := by
      funext j
      rfl
    rw [hcomp]
    rfl

theorem filter_eq_replicate_cntEq (l : List Nat) (d : Nat) :
    l.filter (fun x => x == d)
      = List.replicate (cntEq (fun x => x) l d) d := by
  rw [List.eq_replicate_iff]
  refine ⟨rfl, ?_⟩
  intro b hb
  exact eq_of_beq (List.mem_filter.mp hb).2

theorem emitBlocks_eq :
    ∀ (counts : List Nat) (v : Nat),
      emitBlocks counts v
        = (List.range counts.length).flatMap
            (fun j => List.replicate (counts.getD j 0) (v + j)) := by
  intro counts
  induction counts with
  | nil =>
    intro v
    rfl
  | cons c rest ih =>
    intro v
    rw [emitBlocks, ih (v + 1)]
    rw [List.length_cons, List.range_succ_eq_map]
    rw [List.flatMap_cons, List.flatMap_map]
    have hfun : (fun j => List.replicate ((c :: rest).getD (Nat.succ j) 0)
          (v + Nat.succ j))
        = fun j => List.replicate (rest.getD j 0) (v + 1 + j) := by
      funext j
      have : v + Nat.succ j = v + 1 + j := by omega
      rw [this]
      rfl
    rw [hfun]
    rfl

theorem IntegerCountingSort_eq (vec : List Nat) (h2 : 2 ≤ vec.length)
    (hval : ∀ x ∈ vec, x < 2 ^ 63 - 1) (hlen : vec.length < uintMod) :
    IntegerCountingSort vec
      = some (bucketBlocks (slicesMax (fun v => v) vec + 1) (fun x => x) vec) := by
  have hne : vec ≠ [] := by
    cases vec
    · simp at h2
    · simp
  obtain ⟨x0, hx0, hmx⟩ := slicesMax_cases (fun v => v) vec hne
  have hmax : slicesMax (fun v => v) vec < 2 ^ 63 - 1 := by
    rw [hmx]
    exact hval x0 hx0
  have hmod : (slicesMax (fun v => v) vec + 1) % uintMod
      = slicesMax (fun v => v) vec + 1 :=
    Nat.mod_eq_of_lt (by
      have : uintMod = 2 ^ 64 := rfl
      omega)
  rw [IntegerCountingSort, if_neg (by omega)]
  dsimp only
  rw [hmod, if_neg (by omega)]
  obtain ⟨counts, hhist, hclen, hcget⟩ :=
    histLoop_spec (fun v => v) vec
      (List.replicate (slicesMax (fun v => v) vec + 1) 0)
      (fun x hx => by
        have h1 : x ≤ slicesMax (fun v => v) vec := le_slicesMax (fun v => v) vec x hx
        simp only [List.length_replicate]
        show x < slicesMax (fun v => v) vec + 1
        omega)
      (fun d => by
        have hr : (List.replicate (slicesMax (fun v => v) vec + 1) (0 : Nat)).getD d 0
            = 0 := by
          rw [List.getD_eq_getElem?_getD, List.getElem?_replicate]
          cases Nat.decLt d (slicesMax (fun v => v) vec + 1) with
          | isTrue h => rw [if_pos h]; rfl
          | isFalse h => rw [if_neg h]; rfl
        rw [hr]
        have : uintMod = 2 ^ 64 := rfl
        omega)
  rw [hhist]
  dsimp only
  have hB : counts.length = slicesMax (fun v => v) vec + 1 := by
    rw [hclen, List.length_replicate]
  have hget0 : ∀ d, counts.getD d 0 = cntEq (fun x => x) vec d := by
    intro d
    rw [hcget d]
    rw [List.getD_eq_getElem?_getD, List.getElem?_replicate]
    cases Nat.decLt d (slicesMax (fun v => v) vec + 1) with
    | isTrue h => rw [if_pos h]; simp [cntEq]
    | isFalse h => rw [if_neg h]; simp [cntEq]
  have hcsum : counts.sum = vec.length := by
    rw [sum_eq_sum_getD counts]
    have hmapeq : (List.range counts.length).map (fun j => counts.getD j 0)
        = (List.range counts.length).map (cntEq (fun x => x) vec) := by
      apply List.map_congr_left
      intro j _
      exact hget0 j
    rw [hmapeq, hB]
    have hct : cntLt (fun x => x) vec (slicesMax (fun v => v) vec + 1)
        = vec.length :=
      cntLt_total (fun x => x) vec _
        (fun x hx => by
          have h1 : x ≤ slicesMax (fun v => v) vec := le_slicesMax (fun v => v) vec x hx
          show x < slicesMax (fun v => v) vec + 1
          omega)
    exact hct
  rw [icsEmit_spec counts 0 vec 0 (by omega)]
  rw [Nat.zero_add, hcsum, List.drop_length, List.take_zero,
    List.nil_append, List.append_nil]
  rw [emitBlocks_eq counts 0]
  have hfun : (fun j => List.replicate (counts.getD j 0) (0 + j))
      = fun j => vec.filter (fun x => x == j) := by
    funext j
    rw [hget0 j, Nat.zero_add, ← filter_eq_replicate_cntEq]
  rw [hfun, hB, bucketBlocks]

theorem IntegerCountingSort_sorts (vec : List Nat)
    (hval : ∀ x ∈ vec, x < 2 ^ 63 - 1) (hlen : vec.length < uintMod) :
    ∃ out, IntegerCountingSort vec = some out ∧
      out.Perm vec ∧ List.Pairwise (fun a b => a ≤ b) out := by
  by_cases h2 : 2 ≤ vec.length
  · refine ⟨_, IntegerCountingSort_eq vec h2 hval hlen, ?_, ?_⟩
    · exact bucketBlocks_perm _ _ vec
        (fun x hx => by
          have h1 : x ≤ slicesMax (fun v => v) vec :=
            le_slicesMax (fun v => v) vec x hx
          show x < slicesMax (fun v => v) vec + 1
          omega)
    · refine bucketBlocks_pairwise _ _ vec _ (fun a b _ _ h => le_of_lt h) ?_
      intro d
      apply pairwise_of_mem
      intro a b ha hb
      rw [List.mem_filter] at ha hb
      have ha2 : a = d := by simpa using ha.2
      have hb2 : b = d := by simpa using hb.2
      omega
  · refine ⟨vec, ?_, List.Perm.refl vec, pairwise_short vec (by omega)⟩
    rw [IntegerCountingSort, if_pos (by omega)]

/-- **C2.**  On every input slice of `uint`s that a Go program can build
without overflowing the internal `uint` arithmetic — every value below
`2 ^ 63 - 1` (so `make([]uint, max+1)` stays within `int` range and the
digit weight `exp` never wraps to `0`) and length below `2 ^ 64` — each of
`GeneralCountingSort`, `IntegerCountingSort`, `IntRadixSort` and
`LessEfficientRadixSort` returns normally with a permutation of the input
in non-decreasing order.  (Without the value bound the claim fails:
see the counterexample theorem, where all four panic.) -/
theorem claim_C2 (vec : List Nat)
    (hval : ∀ x ∈ vec, x < 2 ^ 63 - 1) (hlen : vec.length < uintMod) :
    (∃ out, GeneralCountingSort (fun v => v) vec = some out ∧
        out.Perm vec ∧ List.Pairwise (fun a b => a ≤ b) out) ∧
    (∃ out, IntegerCountingSort vec = some out ∧
        out.Perm vec ∧ List.Pairwise (fun a b => a ≤ b) out) ∧
    (∃ out, IntRadixSort (fun v => v) vec = some out ∧
        out.Perm vec ∧ List.Pairwise (fun a b => a ≤ b) out) ∧
    (∃ out, LessEfficientRadixSort vec = some out ∧
        out.Perm vec ∧ List.Pairwise (fun a b => a ≤ b) out) := by
  obtain ⟨o1, he1, hp1, hs1, _⟩ :=
    GeneralCountingSort_sorts (fun v => v) vec (fun x hx => hval x hx) hlen
  obtain ⟨o2, he2, hp2, hs2⟩ := IntegerCountingSort_sorts vec hval hlen
  obtain ⟨o3, he3, hp3, hs3, _⟩ :=
    IntRadixSort_sorts (fun v => v) vec
      (fun x hx => by
        have h1 := hval x hx
        show x < 2 ^ 63
        omega) hlen
  refine ⟨⟨o1, he1, hp1, hs1⟩, ⟨o2, he2, hp2, hs2⟩,
    ⟨o3, he3, hp3, hs3⟩, ⟨o3, ?_, hp3, hs3⟩⟩
  rw [LessEfficientRadixSort_eq vec hlen]
  exact he3

/-- **C2, witness.**  The guarantee applied to the worked example of the
specification, `[170, 45, 75, 90, 802, 24, 2, 66]`. -/
theorem claim_C2_witness :
    ((∀ x ∈ ([170, 45, 75, 90, 802, 24, 2, 66] : List Nat), x < 2 ^ 63 - 1) ∧
      ([170, 45, 75, 90, 802, 24, 2, 66] : List Nat).length < uintMod) ∧
    ((∃ out, GeneralCountingSort (fun v => v) [170, 45, 75, 90, 802, 24, 2, 66]
          = some out ∧
        out.Perm [170, 45, 75, 90, 802, 24, 2, 66] ∧
        List.Pairwise (fun a b => a ≤ b) out) ∧
      (∃ out, IntegerCountingSort [170, 45, 75, 90, 802, 24, 2, 66] = some out ∧
        out.Perm [170, 45, 75, 90, 802, 24, 2, 66] ∧
        List.Pairwise (fun a b => a ≤ b) out) ∧
      (∃ out, IntRadixSort (fun v => v) [170, 45, 75, 90, 802, 24, 2, 66]
          = some out ∧
        out.Perm [170, 45, 75, 90, 802, 24, 2, 66] ∧
        List.Pairwise (fun a b => a ≤ b) out) ∧
      (∃ out, LessEfficientRadixSort [170, 45, 75, 90, 802, 24, 2, 66]
          = some out ∧
        out.Perm [170, 45, 75, 90, 802, 24, 2, 66] ∧
        List.Pairwise (fun a b => a ≤ b) out)) :=
  ⟨⟨by decide, by decide⟩,
    claim_C2 [170, 45, 75, 90, 802, 24, 2, 66] (by decide) (by decide)⟩

/-! ### StringRadixSort

Byte-lexicographic order on byte sequences, with a proper prefix ordered
before its extensions — the order the specification claims
`StringRadixSort` establishes on ASCII input. -/

def lexLeb : List Nat → List Nat → Bool
  | [], _ => true
  | _ :: _, [] => false
  | a :: as, b :: bs =>
    if a < b then true
    else if b < a then false
    else lexLeb as bs

theorem lexLeb_nil (l : List Nat) : lexLeb [] l = true := rfl

theorem lexLeb_cons_lt {a b : Nat} (as bs : List Nat) (h : a < b) :
    lexLeb (a :: as) (b :: bs) = true := by
  rw [lexLeb, if_pos h]

theorem lexLeb_cons_eq (a : Nat) (as bs : List Nat) :
    lexLeb (a :: as) (a :: bs) = lexLeb as bs := by
  rw [lexLeb, if_neg (lt_irrefl a), if_neg (lt_irrefl a)]

theorem stringBucket_congr (key : α → List Nat) (i : Nat) {x y : α}
    (h : key x = key y) : stringBucket key i x = stringBucket key i y := by
  rw [stringBucket, stringBucket, h]

theorem stringBucket_lt_129 (key : α → List Nat) (i : Nat) (x : α)
    (hx : ∀ b ∈ key x, b < 128) : stringBucket key i x < 129 := by
  rw [stringBucket]
  by_cases hox : i < (key x).length
  · rw [if_pos hox]
    have hbx : (key x).getD i 0 < 128 := by
      rw [List.getD_eq_getElem _ _ hox]
      exact hx _ (List.getElem_mem hox)
    omega
  · rw [if_neg hox]
    omega

theorem stringBucket_lt_lex (key : α → List Nat) (i : Nat) (x y : α)
    (hx : ∀ b ∈ key x, b < 128) (hy : ∀ b ∈ key y, b < 128)
    (h : stringBucket key i x < stringBucket key i y) :
    lexLeb ((key x).drop i) ((key y).drop i) = true := by
  by_cases hox : i < (key x).length
  · by_cases hoy : i < (key y).length
    · rw [stringBucket, stringBucket, if_pos hox, if_pos hoy] at h
      rw [List.getD_eq_getElem _ _ hox, List.getD_eq_getElem _ _ hoy] at h
      have hbx : (key x)[i] < 128 := hx _ (List.getElem_mem hox)
      have hby : (key y)[i] < 128 := hy _ (List.getElem_mem hoy)
      have hlt : (key x)[i] < (key y)[i] := by omega
      rw [List.drop_eq_getElem_cons hox, List.drop_eq_getElem_cons hoy]
      exact lexLeb_cons_lt _ _ hlt
    · rw [stringBucket, stringBucket, if_pos hox, if_neg hoy] at h
      have hbx : (key x).getD i 0 < 128 := by
        rw [List.getD_eq_getElem _ _ hox]
        exact hx _ (List.getElem_mem hox)
      omega
  · rw [List.drop_eq_nil_of_le (by omega)]
    exact lexLeb_nil _

theorem stringBucket_eq_lex (key : α → List Nat) (i : Nat) (x y : α)
    (hx : ∀ b ∈ key x, b < 128) (hy : ∀ b ∈ key y, b < 128)
    (heq : stringBucket key i x = stringBucket key i y)
    (hrec : lexLeb ((key x).drop (i + 1)) ((key y).drop (i + 1)) = true) :
    lexLeb ((key x).drop i) ((key y).drop i) = true := by
  by_cases hox : i < (key x).length
  · by_cases hoy : i < (key y).length
    · rw [stringBucket, stringBucket, if_pos hox, if_pos hoy] at heq
      rw [List.getD_eq_getElem _ _ hox, List.getD_eq_getElem _ _ hoy] at heq
      have hbx : (key x)[i] < 128 := hx _ (List.getElem_mem hox)
      have hby : (key y)[i] < 128 := hy _ (List.getElem_mem hoy)
      have hele : (key x)[i] = (key y)[i] := by omega
      rw [List.drop_eq_getElem_cons hox, List.drop_eq_getElem_cons hoy]
      rw [hele, lexLeb_cons_eq]
      exact hrec
    · rw [stringBucket, stringBucket, if_pos hox, if_neg hoy] at heq
      have hbx : (key x).getD i 0 < 128 := by
        rw [List.getD_eq_getElem _ _ hox]
        exact hx _ (List.getElem_mem hox)
      omega
  · rw [List.drop_eq_nil_of_le (by omega)]
    exact lexLeb_nil _

theorem strPass_sorted (key : α → List Nat) [Inhabited α] (vec : List α)
    (i : Nat)
    (hA : ∀ x ∈ vec, ∀ b ∈ key x, b < 128) (hlen : vec.length < uintMod)
    (hsorted : List.Pairwise
      (fun a b => lexLeb ((key a).drop (i + 1)) ((key b).drop (i + 1)) = true)
      vec) :
    radixStringCountSort key vec i
      = some (bucketBlocks 129 (stringBucket key i) vec) ∧
    List.Pairwise
      (fun a b => lexLeb ((key a).drop i) ((key b).drop i) = true)
      (bucketBlocks 129 (stringBucket key i) vec) := by
  constructor
  · exact countingPass_eq 129 (stringBucket key i) vec
      (fun x hx => stringBucket_lt_129 key i x (hA x hx)) (by omega) hlen
  · refine bucketBlocks_pairwise 129 (stringBucket key i) vec _
      (fun a b ha hb h => stringBucket_lt_lex key i a b (hA a ha) (hA b hb) h)
      ?_
    intro d
    refine List.Pairwise.imp_of_mem ?_ (hsorted.filter _)
    intro a b ha hb hrec
    rw [List.mem_filter] at ha hb
    have hda : stringBucket key i a = d := by simpa using ha.2
    have hdb : stringBucket key i b = d := by simpa using hb.2
    exact stringBucket_eq_lex key i a b (hA a ha.1) (hA b hb.1)
      (by rw [hda, hdb]) hrec

theorem strRadixLoop_spec (key : α → List Nat) [Inhabited α] :
    ∀ (c : Nat) (vec : List α),
      (∀ x ∈ vec, ∀ b ∈ key x, b < 128) → vec.length < uintMod →
      List.Pairwise
        (fun a b => lexLeb ((key a).drop (c + 1)) ((key b).drop (c + 1)) = true)
        vec →
      ∃ out, strRadixLoop key c vec = some out ∧
        out.Perm vec ∧
        List.Pairwise (fun a b => lexLeb (key a) (key b) = true) out ∧
        (∀ k, out.filter (fun x => key x == k)
          = vec.filter (fun x => key x == k)) := by
  intro c
  induction c with
  | zero =>
    intro vec hA hlen hsorted
    obtain ⟨heq, hpw⟩ := strPass_sorted key vec 0 hA hlen hsorted
    refine ⟨_, heq, ?_, ?_, ?_⟩
    · exact bucketBlocks_perm _ _ vec
        (fun x hx => stringBucket_lt_129 key 0 x (hA x hx))
    · exact hpw
    · intro k
      by_cases hk129 : ∃ x ∈ vec, key x = k
      · obtain ⟨x0, hx0, hk0⟩ := hk129
        exact filter_bucketBlocks 129 _ vec _ (stringBucket key 0 x0)
          (stringBucket_lt_129 key 0 x0 (hA x0 hx0))
          (fun x _ hx => by
            have hxy : key x = k := by simpa using hx
            exact stringBucket_congr key 0 (hxy.trans hk0.symm))
      · apply filter_bucketBlocks_of_not_mem
        intro x hx hpx
        exact hk129 ⟨x, hx, by simpa using hpx⟩
  | succ c ih =>
    intro vec hA hlen hsorted
    obtain ⟨heq, hpw⟩ := strPass_sorted key vec (c + 1) hA hlen hsorted
    rw [strRadixLoop, heq]
    dsimp only
    have hperm : (bucketBlocks 129 (stringBucket key (c + 1)) vec).Perm vec :=
      bucketBlocks_perm _ _ vec
        (fun x hx => stringBucket_lt_129 key (c + 1) x (hA x hx))
    obtain ⟨out, hloop, hoperm, hosort, hofil⟩ :=
      ih (bucketBlocks 129 (stringBucket key (c + 1)) vec)
        (fun x hx => hA x (hperm.mem_iff.mp hx))
        (by rw [hperm.length_eq]; exact hlen)
        hpw
    refine ⟨out, hloop, hoperm.trans hperm, hosort, ?_⟩
    intro k
    rw [hofil k]
    by_cases hk129 : ∃ x ∈ vec, key x = k
    · obtain ⟨x0, hx0, hk0⟩ := hk129
      exact filter_bucketBlocks 129 _ vec _ (stringBucket key (c + 1) x0)
        (stringBucket_lt_129 key (c + 1) x0 (hA x0 hx0))
        (fun x _ hx => by
          have hxy : key x = k := by simpa using hx
          exact stringBucket_congr key (c + 1) (hxy.trans hk0.symm))
    · apply filter_bucketBlocks_of_not_mem
      intro x hx hpx
      exact hk129 ⟨x, hx, by simpa using hpx⟩

theorem maxLenLoop_ge (key : α → List Nat) :
    ∀ (l : List α) (m : Nat),
      m ≤ maxLenLoop key l m ∧ ∀ x ∈ l, (key x).length ≤ maxLenLoop key l m := by
  intro l
  induction l with
  | nil =>
    intro m
    exact ⟨Nat.le_refl m, by simp⟩
  | cons x l ih =>
    intro m
    rw [maxLenLoop]
    obtain ⟨h1, h2⟩ := ih (if (key x).length > m then (key x).length else m)
    constructor
    · refine le_trans ?_ h1
      split
      · omega
      · exact Nat.le_refl m
    · intro y hy
      rcases List.mem_cons.mp hy with rfl | hy
      · refine le_trans ?_ h1
        split
        · omega
        · omega
      · exact h2 y hy

theorem StringRadixSort_sorts (key : α → List Nat) [Inhabited α]
    (vec : List α)
    (hA : ∀ x ∈ vec, ∀ b ∈ key x, b < 128) (hlen : vec.length < uintMod) :
    ∃ out, StringRadixSort key vec = some out ∧
      out.Perm vec ∧
      List.Pairwise (fun a b => lexLeb (key a) (key b) = true) out ∧
      (∀ k, out.filter (fun x => key x == k)
        = vec.filter (fun x => key x == k)) := by
  by_cases h1 : vec.length ≤ 1
  · refine ⟨vec, ?_, List.Perm.refl vec, pairwise_short vec h1, fun k => rfl⟩
    rw [StringRadixSort.eq_def, if_pos h1]
  · cases vec with
    | nil => simp at h1
    | cons x l =>
      have hml := maxLenLoop_ge key l (key x).length
      by_cases hm0 : maxLenLoop key l (key x).length = 0
      · refine ⟨x :: l, ?_, List.Perm.refl _, ?_, fun k => rfl⟩
        · rw [StringRadixSort, if_neg h1]
          dsimp only
          rw [if_pos hm0]
        · apply pairwise_of_mem
          intro a b ha _
          have hka : (key a).length ≤ 0 := by
            rcases List.mem_cons.mp ha with rfl | ha
            · omega
            · have := hml.2 a ha
              omega
          have : key a = [] := List.eq_nil_of_length_eq_zero (by omega)
          rw [this]
          exact lexLeb_nil _
      · have hbound : ∀ y ∈ x :: l,
            (key y).length ≤ maxLenLoop key l (key x).length := by
          intro y hy
          rcases List.mem_cons.mp hy with rfl | hy
          · exact hml.1
          · exact hml.2 y hy
        obtain ⟨out, hloop, hperm, hsort, hfil⟩ :=
          strRadixLoop_spec key (maxLenLoop key l (key x).length - 1) (x :: l)
            hA hlen
            (by
              apply pairwise_of_mem
              intro a b ha hb
              have hda : (key a).drop
                  (maxLenLoop key l (key x).length - 1 + 1) = [] :=
                List.drop_eq_nil_of_le (by
                  have := hbound a ha
                  omega)
              rw [hda]
              exact lexLeb_nil _)
        refine ⟨out, ?_, hperm, hsort, hfil⟩
        rw [StringRadixSort, if_neg h1]
        dsimp only
        rw [if_neg hm0]
        exact hloop

/-- **C3.**  On every input slice of ASCII strings (every byte below 128;
strings are modelled as their byte sequences) whose length is below
`2 ^ 64` (true of every Go slice), `StringRadixSort` returns a permutation
of the input in full byte-lexicographic order, a proper prefix ordered
before its extensions (`lexLeb`). -/
theorem claim_C3 (vec : List (List Nat))
    (hA : ∀ s ∈ vec, ∀ b ∈ s, b < 128) (hlen : vec.length < uintMod) :
    ∃ out, StringRadixSort (fun s => s) vec = some out ∧
      out.Perm vec ∧ List.Pairwise (fun a b => lexLeb a b = true) out := by
  obtain ⟨out, heq, hperm, hsort, _⟩ :=
    StringRadixSort_sorts (fun s => s) vec (fun x hx => hA x hx) hlen
  exact ⟨out, heq, hperm, hsort⟩

/-- **C3, witness.**  The guarantee applied to the specification example
`["banana", "apple", "ab", "app"]` (as byte sequences), together with the
concrete evaluation showing the output is
`["ab", "app", "apple", "banana"]`. -/
theorem claim_C3_witness :
    ((∀ s ∈ ([[98, 97, 110, 97, 110, 97], [97, 112, 112, 108, 101],
          [97, 98], [97, 112, 112]] : List (List Nat)), ∀ b ∈ s, b < 128) ∧
      ([[98, 97, 110, 97, 110, 97], [97, 112, 112, 108, 101],
          [97, 98], [97, 112, 112]] : List (List Nat)).length < uintMod) ∧
    (∃ out, StringRadixSort (fun s => s)
          [[98, 97, 110, 97, 110, 97], [97, 112, 112, 108, 101],
            [97, 98], [97, 112, 112]] = some out ∧
        out.Perm [[98, 97, 110, 97, 110, 97], [97, 112, 112, 108, 101],
          [97, 98], [97, 112, 112]] ∧
        List.Pairwise (fun a b => lexLeb a b = true) out) ∧
    StringRadixSort (fun s => s)
        [[98, 97, 110, 97, 110, 97], [97, 112, 112, 108, 101],
          [97, 98], [97, 112, 112]]
      = some [[97, 98], [97, 112, 112], [97, 112, 112, 108, 101],
          [98, 97, 110, 97, 110, 97]] :=
  ⟨⟨by decide, by decide⟩,
    claim_C3 [[98, 97, 110, 97, 110, 97], [97, 112, 112, 108, 101],
      [97, 98], [97, 112, 112]] (by decide) (by decide),
    by decide⟩

/-- **C6.**  Away from `uint` overflow the exported algorithms run to
completion: the comparison sorts are total functions of the embedding
(their termination is established by definition), and each Option-valued
sort returns normally (`isSome`) on every slice within the overflow-free
bounds — values below `2 ^ 63 - 1` for the integer sorts, ASCII bytes for
the string sort, slice length below `2 ^ 64`.  (The unconditional claim is
refuted by the counterexample theorem: on `[2 ^ 64 - 1, 5]` the digit
loops reach `exp = 0` and the condition `max / exp` divides by zero, so
`IntRadixSort` and `LessEfficientRadixSort` do not run to completion.) -/
theorem claim_C6 (vec : List Nat) (svec : List (List Nat))
    (hval : ∀ x ∈ vec, x < 2 ^ 63 - 1) (hlen : vec.length < uintMod)
    (hA : ∀ s ∈ svec, ∀ b ∈ s, b < 128) (hslen : svec.length < uintMod) :
    (GeneralCountingSort (fun v => v) vec).isSome = true ∧
    (IntegerCountingSort vec).isSome = true ∧
    (IntRadixSort (fun v => v) vec).isSome = true ∧
    (LessEfficientRadixSort vec).isSome = true ∧
    (StringRadixSort (fun s => s) svec).isSome = true := by
  obtain ⟨o1, he1, _, _, _⟩ :=
    GeneralCountingSort_sorts (fun v => v) vec (fun x hx => hval x hx) hlen
  obtain ⟨o2, he2, _, _⟩ := IntegerCountingSort_sorts vec hval hlen
  obtain ⟨o3, he3, _, _, _⟩ :=
    IntRadixSort_sorts (fun v => v) vec
      (fun x hx => by
        have h1 := hval x hx
        show x < 2 ^ 63
        omega) hlen
  obtain ⟨o5, he5, _, _, _⟩ :=
    StringRadixSort_sorts (fun s => s) svec (fun x hx => hA x hx) hslen
  refine ⟨by rw [he1]; rfl, by rw [he2]; rfl, by rw [he3]; rfl, ?_,
    by rw [he5]; rfl⟩
  rw [LessEfficientRadixSort_eq vec hlen, he3]
  rfl

/-- **C6, witness.**  Normal completion on the specification examples
`[170, 45, 75, 90, 802, 24, 2, 66]` and `["ab", "app"]`. -/
theorem claim_C6_witness :
    ((∀ x ∈ ([170, 45, 75, 90, 802, 24, 2, 66] : List Nat), x < 2 ^ 63 - 1) ∧
      ([170, 45, 75, 90, 802, 24, 2, 66] : List Nat).length < uintMod ∧
      (∀ s ∈ ([[97, 98], [97, 112, 112]] : List (List Nat)), ∀ b ∈ s, b < 128) ∧
      ([[97, 98], [97, 112, 112]] : List (List Nat)).length < uintMod) ∧
    ((GeneralCountingSort (fun v => v) [170, 45, 75, 90, 802, 24, 2, 66]).isSome
        = true ∧
      (IntegerCountingSort [170, 45, 75, 90, 802, 24, 2, 66]).isSome = true ∧
      (IntRadixSort (fun v => v) [170, 45, 75, 90, 802, 24, 2, 66]).isSome
        = true ∧
      (LessEfficientRadixSort [170, 45, 75, 90, 802, 24, 2, 66]).isSome = true ∧
      (StringRadixSort (fun s => s) [[97, 98], [97, 112, 112]]).isSome = true) :=
  ⟨⟨by decide, by decide, by decide, by decide⟩,
    claim_C6 [170, 45, 75, 90, 802, 24, 2, 66] [[97, 98], [97, 112, 112]]
      (by decide) (by decide) (by decide) (by decide)⟩

/-! ### Utilities for the comparison-sort proofs

Positional reasoning (`getD` at indices) is converted to `Pairwise`
statements and to permutation facts about segments. -/

theorem pairwise_key_of_getD [Inhabited α] (key : α → β) [LinearOrder β]
    (l : List α)
    (h : ∀ a b, a < b → b < l.length →
      key (l.getD a default) ≤ key (l.getD b default)) :
    List.Pairwise (fun a b => key a ≤ key b) l := by
  rw [List.pairwise_iff_getElem]
  intro i j hi hj hij
  have h2 := h i j hij hj
  rw [getD_of_lt l hi, getD_of_lt l hj] at h2
  exact h2

theorem le_of_adjacent_getD [Inhabited α] (key : α → β) [LinearOrder β]
    (l : List α)
    (h : ∀ k, k + 1 < l.length →
      key (l.getD k default) ≤ key (l.getD (k + 1) default)) :
    ∀ a b, a ≤ b → b < l.length →
      key (l.getD a default) ≤ key (l.getD b default) := by
  intro a b
  induction b with
  | zero =>
    intro hab _
    have : a = 0 := by omega
    rw [this]
  | succ b ih =>
    intro hab hb
    by_cases hab2 : a = b + 1
    · rw [hab2]
    · exact le_trans (ih (by omega) (by omega)) (h b hb)

/-- The segment `l[a..b)` of a list. -/
def seg (l : List α) (a b : Nat) : List α := (l.drop a).take (b - a)

theorem length_seg (l : List α) (a b : Nat) (hab : a ≤ b)
    (hb : b ≤ l.length) : (seg l a b).length = b - a := by
  simp [seg, List.length_take, List.length_drop]
  omega

theorem seg_decomp (l : List α) (a b : Nat) (hab : a ≤ b)
    (hb : b ≤ l.length) : l.take a ++ (seg l a b ++ l.drop b) = l := by
  have h1 : l.drop b = (l.drop a).drop (b - a) := by
    rw [List.drop_drop]
    have : a + (b - a) = b := by omega
    rw [this]
  rw [seg, h1, List.take_append_drop, List.take_append_drop]

theorem getD_seg [Inhabited α] (l : List α) (a b k : Nat)
    (hak : a ≤ k) (hkb : k < b) (hb : b ≤ l.length) :
    (seg l a b).getD (k - a) default = l.getD k default := by
  rw [List.getD_eq_getElem?_getD, List.getD_eq_getElem?_getD]
  rw [seg, List.getElem?_take, if_pos (by omega), List.getElem?_drop]
  have h2 : a + (k - a) = k := by omega
  rw [h2]

theorem getD_mem_seg [Inhabited α] (l : List α) (a b k : Nat)
    (hak : a ≤ k) (hkb : k < b) (hb : b ≤ l.length) :
    l.getD k default ∈ seg l a b := by
  rw [← getD_seg l a b k hak hkb hb]
  have hlt : k - a < (seg l a b).length := by
    rw [length_seg l a b (by omega) hb]
    omega
  rw [getD_of_lt _ hlt]
  exact List.getElem_mem hlt

theorem mem_seg [Inhabited α] (l : List α) (a b : Nat) (x : α)
    (hx : x ∈ seg l a b) (hb : b ≤ l.length) :
    ∃ k, a ≤ k ∧ k < b ∧ l.getD k default = x := by
  by_cases hab : a ≤ b
  · obtain ⟨m, hm, hget⟩ := List.mem_iff_getElem.mp hx
    have hmlen : m < b - a := by
      rw [length_seg l a b hab hb] at hm
      exact hm
    refine ⟨a + m, by omega, by omega, ?_⟩
    rw [← hget]
    have h2 := getD_seg l a b (a + m) (by omega) (by omega) hb
    rw [Nat.add_sub_cancel_left] at h2
    rw [← h2, getD_of_lt _ hm]
  · exfalso
    have hnil : seg l a b = [] := by
      rw [seg, show b - a = 0 from by omega]
      rfl
    rw [hnil] at hx
    simp at hx

theorem take_eq_of_getD [Inhabited α] (r l : List α) (m : Nat)
    (hlen : r.length = l.length)
    (h : ∀ k, k < m → r.getD k default = l.getD k default) :
    r.take m = l.take m := by
  apply List.ext_getElem
  · simp [List.length_take, hlen]
  intro i h1 h2
  simp only [List.length_take] at h1
  have hi : i < r.length := by omega
  have hi2 : i < l.length := by omega
  rw [List.getElem_take, List.getElem_take]
  have h3 := h i (by omega)
  rw [getD_of_lt r hi, getD_of_lt l hi2] at h3
  exact h3

theorem drop_eq_of_getD [Inhabited α] (r l : List α) (m : Nat)
    (hlen : r.length = l.length)
    (h : ∀ k, m ≤ k → k < l.length → r.getD k default = l.getD k default) :
    r.drop m = l.drop m := by
  apply List.ext_getElem
  · simp [List.length_drop, hlen]
  intro i h1 h2
  simp only [List.length_drop] at h1 h2
  rw [List.getElem_drop, List.getElem_drop]
  have h3 := h (m + i) (by omega) (by omega)
  rw [getD_of_lt r (by omega), getD_of_lt l (by omega)] at h3
  exact h3

theorem seg_perm_of_frame [Inhabited α] (r l : List α) (a b : Nat)
    (hperm : r.Perm l)
    (hlo : ∀ k, k < a → r.getD k default = l.getD k default)
    (hhi : ∀ k, b ≤ k → k < l.length → r.getD k default = l.getD k default)
    (hab : a ≤ b) (hb : b ≤ l.length) :
    (seg r a b).Perm (seg l a b) := by
  have hlen := hperm.length_eq
  have htake : r.take a = l.take a := take_eq_of_getD r l a hlen hlo
  have hdrop : r.drop b = l.drop b := drop_eq_of_getD r l b hlen hhi
  have hr := seg_decomp r a b hab (by omega)
  have hl := seg_decomp l a b hab hb
  have hperm2 : (l.take a ++ (seg r a b ++ l.drop b)).Perm
      (l.take a ++ (seg l a b ++ l.drop b)) := by
    rw [← htake, ← hdrop] at hl ⊢
    rw [hr, hl]
    exact hperm
  have hperm3 := (List.perm_append_left_iff _).mp hperm2
  exact (List.perm_append_right_iff _).mp hperm3

theorem swapL_adjacent [Inhabited α] (l : List α) (j : Nat)
    (h : j + 1 < l.length) :
    swapL l j (j + 1)
      = l.take j ++ l.getD (j + 1) default :: l.getD j default
          :: l.drop (j + 2) := by
  rw [swapL]
  have hA : l.set j (l.getD (j + 1) default)
      = (l.take j ++ [l.getD (j + 1) default]) ++ l.drop (j + 1) := by
    rw [List.set_eq_take_cons_drop _ (by omega : j < l.length)]
    simp
  have hlenp : (l.take j ++ [l.getD (j + 1) default]).length = j + 1 := by
    simp [List.length_take]
    omega
  rw [List.set_eq_take_cons_drop _ (by simp; omega :
    j + 1 < (l.set j (l.getD (j + 1) default)).length)]
  rw [hA]
  rw [List.take_left' hlenp]
  conv_lhs => rw [show j + 1 + 1
      = (l.take j ++ [l.getD (j + 1) default]).length + 1 from by rw [hlenp]]
  rw [List.drop_append, List.drop_drop]
  rw [List.append_assoc]
  rfl

theorem cons_getD_drop [Inhabited α] (l : List α) (j : Nat)
    (h : j < l.length) :
    l.getD j default :: l.drop (j + 1) = l.drop j := by
  rw [getD_of_lt l h, ← List.drop_eq_getElem_cons h]

theorem filter_swap_adjacent [Inhabited α] (p : α → Bool) (l : List α)
    (j : Nat) (h : j + 1 < l.length)
    (hp : p (l.getD j default) = false ∨ p (l.getD (j + 1) default) = false) :
    (swapL l j (j + 1)).filter p = l.filter p := by
  rw [swapL_adjacent l j h]
  conv_rhs => rw [← List.take_append_drop j l]
  rw [← cons_getD_drop l j (by omega), ← cons_getD_drop l (j + 1) h]
  rw [List.filter_append, List.filter_append]
  congr 1
  rw [show j + 1 + 1 = j + 2 from rfl]
  simp only [List.filter_cons]
  rcases hp with hp | hp
  · rw [hp]
    simp
  · rw [hp]
    simp

theorem kltb_iff (key : α → β) [LinearOrder β] (a b : α) :
    kltb key a b = true ↔ key a < key b := by
  rw [kltb]
  exact decide_eq_true_iff

theorem kleb_iff (key : α → β) [LinearOrder β] (a b : α) :
    kleb key a b = true ↔ key a ≤ key b := by
  rw [kleb]
  exact decide_eq_true_iff

theorem kgtb_iff (key : α → β) [LinearOrder β] (a b : α) :
    kgtb key a b = true ↔ key b < key a := by
  rw [kgtb]
  exact decide_eq_true_iff

theorem swapL_comm [Inhabited α] (l : List α) (i j : Nat) (h : i ≠ j) :
    swapL l i j = swapL l j i := by
  rw [swapL, swapL, List.set_comm _ _ _ h]

/-! ### InsertionSort: sortedness, permutation and stability -/

theorem insertInner_spec [Inhabited α] (key : α → β) [LinearOrder β]
    (i : Nat) :
    ∀ (vec : List α) (j : Nat), j ≤ i → i < vec.length →
      (∀ a b, a < b → b ≤ i → a ≠ j → b ≠ j →
        key (vec.getD a default) ≤ key (vec.getD b default)) →
      (∀ b, j < b → b ≤ i →
        key (vec.getD j default) ≤ key (vec.getD b default)) →
      (insertInner (kltb key) vec j).Perm vec ∧
      (∀ k, i < k → k < vec.length →
        (insertInner (kltb key) vec j).getD k default = vec.getD k default) ∧
      (∀ a b, a < b → b ≤ i →
        key ((insertInner (kltb key) vec j).getD a default)
          ≤ key ((insertInner (kltb key) vec j).getD b default)) ∧
      (∀ k : β, (insertInner (kltb key) vec j).filter
          (fun x => decide (key x = k))
        = vec.filter (fun x => decide (key x = k))) := by
  intro vec j
  induction vec, j using insertInner.induct (kltb key) with
  | case1 vec j h ih =>
    intro hji hi hexc hdom
    rw [insertInner, dif_pos h]
    have hj0 : 0 < j := h.1
    have hlt : key (vec.getD j default) < key (vec.getD (j - 1) default) :=
      (kltb_iff key _ _).mp h.2
    have hjlen : j < vec.length := by omega
    have hj1len : j - 1 < vec.length := by omega
    have hgsw : ∀ m, (swapL vec j (j - 1)).getD m default =
        if m = j - 1 then vec.getD j default
        else if m = j then vec.getD (j - 1) default
        else vec.getD m default := fun m => getD_swapL vec m hjlen hj1len
    obtain ⟨ihperm, ihframe, ihsort, ihfil⟩ := ih (by omega)
      (by rw [length_swapL]; exact hi)
      (by
        intro a b hab hbi ha hb
        rw [hgsw a, hgsw b]
        by_cases haj : a = j
        · rw [if_neg ha, if_pos haj]
          rw [if_neg hb, if_neg (by omega : ¬ b = j)]
          exact hexc (j - 1) b (by omega) hbi (by omega) (by omega)
        · rw [if_neg ha, if_neg haj]
          by_cases hbj : b = j
          · rw [if_neg hb, if_pos hbj]
            exact hexc a (j - 1) (by omega) (by omega) haj (by omega)
          · rw [if_neg hb, if_neg hbj]
            exact hexc a b hab hbi haj hbj)
      (by
        intro b hb1 hbi
        rw [hgsw (j - 1), hgsw b, if_pos rfl]
        by_cases hbj : b = j
        · rw [if_neg (by omega : ¬ b = j - 1), if_pos hbj]
          exact le_of_lt hlt
        · rw [if_neg (by omega : ¬ b = j - 1), if_neg hbj]
          exact hdom b (by omega) hbi)
    refine ⟨ihperm.trans (swapL_perm vec hjlen hj1len), ?_, ?_, ?_⟩
    · intro k hik hk
      rw [ihframe k hik (by rw [length_swapL]; exact hk)]
      rw [hgsw k, if_neg (by omega), if_neg (by omega)]
    · exact ihsort
    · intro k
      rw [ihfil k]
      have hj11 : j - 1 + 1 = j := by omega
      have hp2 : decide (key (vec.getD (j - 1) default) = k) = false
          ∨ decide (key (vec.getD j default) = k) = false := by
        by_cases hk1 : key (vec.getD j default) = k
        · left
          simp only [decide_eq_false_iff_not]
          intro hk2
          rw [hk1] at hlt
          rw [hk2] at hlt
          exact lt_irrefl k hlt
        · right
          simp only [decide_eq_false_iff_not]
          exact hk1
      have happ := filter_swap_adjacent (fun x => decide (key x = k)) vec
        (j - 1) (by omega) (by rw [hj11]; exact hp2)
      rw [hj11] at happ
      rw [swapL_comm vec j (j - 1) (by omega)]
      exact happ
  | case2 vec j h =>
    intro hji hi hexc hdom
    rw [insertInner, dif_neg h]
    refine ⟨List.Perm.refl vec, fun k _ _ => rfl, ?_, fun k => rfl⟩
    intro a b hab hbi
    by_cases hj0 : 0 < j
    · have hstop : ¬ kltb key (vec.getD j default) (vec.getD (j - 1) default)
          = true := by
        intro hc
        exact h ⟨hj0, hc⟩
      have hstop2 : key (vec.getD (j - 1) default)
          ≤ key (vec.getD j default) := by
        rcases le_or_lt (key (vec.getD (j - 1) default))
          (key (vec.getD j default)) with h2 | h2
        · exact h2
        · exact absurd ((kltb_iff key _ _).mpr h2) hstop
      by_cases haj : a = j
      · rw [haj]
        exact hdom b (by omega) hbi
      · by_cases hbj : b = j
        · rw [hbj]
          by_cases haj1 : a = j - 1
          · rw [haj1]
            exact hstop2
          · exact le_trans
              (hexc a (j - 1) (by omega) (by omega) haj (by omega)) hstop2
        · exact hexc a b hab hbi haj hbj
    · have hj : j = 0 := by omega
      by_cases ha0 : a = 0
      · rw [ha0, ← hj]
        exact hdom b (by omega) hbi
      · exact hexc a b hab hbi (by omega) (by omega)

theorem insertionOuter_spec [Inhabited α] (key : α → β) [LinearOrder β] :
    ∀ (vec : List α) (i : Nat),
      (∀ a b, a < b → b < i → b < vec.length →
        key (vec.getD a default) ≤ key (vec.getD b default)) →
      (insertionOuter (kltb key) vec i).Perm vec ∧
      (∀ a b, a < b → b < (insertionOuter (kltb key) vec i).length →
        key ((insertionOuter (kltb key) vec i).getD a default)
          ≤ key ((insertionOuter (kltb key) vec i).getD b default)) ∧
      (∀ k : β, (insertionOuter (kltb key) vec i).filter
          (fun x => decide (key x = k))
        = vec.filter (fun x => decide (key x = k))) := by
  intro vec i
  induction vec, i using insertionOuter.induct (kltb key) with
  | case1 vec i h ih =>
    intro hpre
    rw [insertionOuter, dif_pos h]
    obtain ⟨i1perm, i1frame, i1sort, i1fil⟩ := insertInner_spec key i vec i
      (Nat.le_refl i) h
      (fun a b hab hbi ha hb => hpre a b hab (by omega) (by omega))
      (fun b hb1 hb2 => by omega)
    obtain ⟨operm, osort, ofil⟩ := ih
      (by
        intro a b hab hbi hblen
        exact i1sort a b hab (by omega))
    refine ⟨operm.trans i1perm, osort, ?_⟩
    intro k
    rw [ofil k, i1fil k]
  | case2 vec i h =>
    intro hpre
    rw [insertionOuter, dif_neg h]
    refine ⟨List.Perm.refl vec, ?_, fun k => rfl⟩
    intro a b hab hblen
    exact hpre a b hab (by omega) hblen

theorem InsertionSort_sorts [Inhabited α] (key : α → β) [LinearOrder β]
    (vec : List α) :
    (InsertionSort (kltb key) vec).Perm vec ∧
    List.Pairwise (fun a b => key a ≤ key b) (InsertionSort (kltb key) vec) ∧
    (∀ k : β, (InsertionSort (kltb key) vec).filter
        (fun x => decide (key x = k))
      = vec.filter (fun x => decide (key x = k))) := by
  obtain ⟨hperm, hsort, hfil⟩ :=
    insertionOuter_spec key vec 1 (fun a b hab hb1 _ => by omega)
  refine ⟨hperm, ?_, hfil⟩
  exact pairwise_key_of_getD key _ (fun a b hab hb => hsort a b hab hb)

/-! ### SimpleSort: sortedness and permutation -/

theorem simpleSortInner_spec [Inhabited α] (key : α → β) [LinearOrder β] :
    ∀ (vec : List α) (i j : Nat), i < j → i < vec.length →
      (∀ k, i < k → k < j → k < vec.length →
        key (vec.getD i default) ≤ key (vec.getD k default)) →
      (simpleSortInner (kltb key) vec i j).Perm vec ∧
      (∀ k, k < i → (simpleSortInner (kltb key) vec i j).getD k default
        = vec.getD k default) ∧
      (∀ k, i < k → k < vec.length →
        key ((simpleSortInner (kltb key) vec i j).getD i default)
          ≤ key ((simpleSortInner (kltb key) vec i j).getD k default)) := by
  intro vec i j
  induction vec, i, j using simpleSortInner.induct (kltb key) with
  | case1 vec i j h ih =>
    intro hij hi hpre
    rw [simpleSortInner, dif_pos h]
    by_cases hc : kltb key (vec.getD j default) (vec.getD i default) = true
    · rw [if_pos hc]
      rw [dif_pos hc] at ih
      have hclt : key (vec.getD j default) < key (vec.getD i default) :=
        (kltb_iff key _ _).mp hc
      have hgsw : ∀ m, (swapL vec i j).getD m default =
          if m = j then vec.getD i default
          else if m = i then vec.getD j default
          else vec.getD m default := fun m => getD_swapL vec m hi h
      obtain ⟨p1, p2, p3⟩ := ih (by omega) (by rw [length_swapL]; exact hi)
        (by
          intro k hk1 hk2 hk3
          rw [hgsw i, hgsw k, if_neg (by omega), if_pos rfl]
          by_cases hkj : k = j
          · rw [if_pos hkj]
            exact le_of_lt hclt
          · rw [if_neg hkj, if_neg (by omega)]
            refine le_trans (le_of_lt hclt) (hpre k hk1 (by omega) ?_)
            rw [length_swapL] at hk3
            exact hk3)
      refine ⟨p1.trans (swapL_perm vec hi h), ?_, ?_⟩
      · intro k hk
        rw [p2 k hk, hgsw k, if_neg (by omega), if_neg (by omega)]
      · intro k hk1 hk2
        exact p3 k hk1 (by rw [length_swapL]; exact hk2)
    · rw [if_neg hc]
      rw [dif_neg hc] at ih
      have hcge : key (vec.getD i default) ≤ key (vec.getD j default) := by
        rcases le_or_lt (key (vec.getD i default))
          (key (vec.getD j default)) with h2 | h2
        · exact h2
        · exact absurd ((kltb_iff key _ _).mpr h2) hc
      exact ih (by omega) hi
        (by
          intro k hk1 hk2 hk3
          by_cases hkj : k = j
          · rw [hkj]
            exact hcge
          · exact hpre k hk1 (by omega) hk3)
  | case2 vec i j h =>
    intro hij hi hpre
    rw [simpleSortInner, dif_neg h]
    exact ⟨List.Perm.refl vec, fun k _ => rfl,
      fun k hk1 hk2 => hpre k hk1 (by omega) hk2⟩

theorem simpleSortOuter_spec [Inhabited α] (key : α → β) [LinearOrder β] :
    ∀ (vec : List α) (i : Nat),
      (∀ a b, a < b → b < i → b < vec.length →
        key (vec.getD a default) ≤ key (vec.getD b default)) →
      (∀ a, a < i → ∀ x ∈ seg vec i vec.length,
        key (vec.getD a default) ≤ key x) →
      (simpleSortOuter (kltb key) vec i).Perm vec ∧
      (∀ a b, a < b → b < vec.length →
        key ((simpleSortOuter (kltb key) vec i).getD a default)
          ≤ key ((simpleSortOuter (kltb key) vec i).getD b default)) := by
  intro vec i
  induction vec, i using simpleSortOuter.induct (kltb key) with
  | case1 vec i h ih =>
    intro hyp1 hyp2
    rw [simpleSortOuter, dif_pos h]
    obtain ⟨q1, q2, q3⟩ := simpleSortInner_spec key vec i (i + 1)
      (by omega) (by omega) (fun k hk1 hk2 _ => by omega)
    have hr1len : (simpleSortInner (kltb key) vec i (i + 1)).length
        = vec.length := q1.length_eq
    have hsegperm : (seg (simpleSortInner (kltb key) vec i (i + 1)) i
        vec.length).Perm (seg vec i vec.length) :=
      seg_perm_of_frame _ vec i vec.length q1
        (fun k hk => q2 k hk) (fun k hk1 hk2 => by omega)
        (by omega) (Nat.le_refl _)
    have hmemtr : ∀ x ∈ seg (simpleSortInner (kltb key) vec i (i + 1)) i
        vec.length, ∀ a, a < i →
        key (vec.getD a default) ≤ key x := by
      intro x hx a ha
      have hx2 : x ∈ seg vec i vec.length := hsegperm.mem_iff.mp hx
      exact hyp2 a ha x hx2
    obtain ⟨operm, osort⟩ := ih
      (by
        intro a b hab hbi hblen
        rw [hr1len] at hblen
        by_cases hbi2 : b = i
        · have ha : a < i := by omega
          rw [q2 a ha, hbi2]
          refine hmemtr _ ?_ a ha
          exact getD_mem_seg _ i vec.length i (Nat.le_refl i) (by omega)
            (le_of_eq hr1len.symm)
        · rw [q2 a (by omega), q2 b (by omega)]
          exact hyp1 a b hab (by omega) hblen)
      (by
        intro a ha x hx
        rw [hr1len] at hx
        obtain ⟨m, hm1, hm2, hm3⟩ := mem_seg _ (i + 1) vec.length x hx
          (by omega)
        by_cases hai : a = i
        · rw [hai, ← hm3]
          exact q3 m (by omega) hm2
        · rw [q2 a (by omega)]
          refine hmemtr x ?_ a (by omega)
          rw [← hm3]
          exact getD_mem_seg _ i vec.length m (by omega) hm2
            (le_of_eq hr1len.symm))
    refine ⟨operm.trans q1, ?_⟩
    intro a b hab hblen
    exact osort a b hab (by rw [hr1len]; exact hblen)
  | case2 vec i h =>
    intro hyp1 hyp2
    rw [simpleSortOuter, dif_neg h]
    refine ⟨List.Perm.refl vec, ?_⟩
    intro a b hab hblen
    by_cases hbi : b = i
    · rw [hbi]
      refine hyp2 a (by omega) _ ?_
      exact getD_mem_seg vec i vec.length i (Nat.le_refl i) (by omega)
        (Nat.le_refl _)
    · exact hyp1 a b hab (by omega) hblen

theorem SimpleSort_sorts [Inhabited α] (key : α → β) [LinearOrder β]
    (vec : List α) :
    (SimpleSort (kltb key) vec).Perm vec ∧
    List.Pairwise (fun a b => key a ≤ key b) (SimpleSort (kltb key) vec) := by
  obtain ⟨hperm, hsort⟩ := simpleSortOuter_spec key vec 0
    (fun a b hab hb _ => by omega)
    (fun a ha => by omega)
  refine ⟨hperm, ?_⟩
  apply pairwise_key_of_getD
  intro a b hab hb
  rw [SimpleSort] at hb ⊢
  exact hsort a b hab (by rw [← hperm.length_eq]; exact hb)

/-! ### SelectionSort: sortedness and permutation -/

/-- Shared step argument of the selection-style outer loops: if the pass
puts a minimum of the suffix at position `i`, leaves the prefix unchanged
and permutes the whole list, then both outer-loop invariants advance. -/
theorem outer_step [Inhabited α] (key : α → β) [LinearOrder β]
    (vec r1 : List α) (i : Nat) (h : i + 1 < vec.length)
    (q1 : r1.Perm vec)
    (q2 : ∀ k, k < i → r1.getD k default = vec.getD k default)
    (q3 : ∀ k, i < k → k < vec.length →
      key (r1.getD i default) ≤ key (r1.getD k default))
    (hyp1 : ∀ a b, a < b → b < i → b < vec.length →
      key (vec.getD a default) ≤ key (vec.getD b default))
    (hyp2 : ∀ a, a < i → ∀ x ∈ seg vec i vec.length,
      key (vec.getD a default) ≤ key x) :
    (∀ a b, a < b → b < i + 1 → b < r1.length →
      key (r1.getD a default) ≤ key (r1.getD b default)) ∧
    (∀ a, a < i + 1 → ∀ x ∈ seg r1 (i + 1) r1.length,
      key (r1.getD a default) ≤ key x) := by
  have hr1len : r1.length = vec.length := q1.length_eq
  have hsegperm : (seg r1 i vec.length).Perm (seg vec i vec.length) :=
    seg_perm_of_frame r1 vec i vec.length q1
      (fun k hk => q2 k hk) (fun k hk1 hk2 => by omega)
      (by omega) (Nat.le_refl _)
  have hmemtr : ∀ x ∈ seg r1 i vec.length, ∀ a, a < i →
      key (vec.getD a default) ≤ key x := by
    intro x hx a ha
    exact hyp2 a ha x (hsegperm.mem_iff.mp hx)
  constructor
  · intro a b hab hbi hblen
    rw [hr1len] at hblen
    by_cases hbi2 : b = i
    · have ha : a < i := by omega
      rw [q2 a ha, hbi2]
      refine hmemtr _ ?_ a ha
      exact getD_mem_seg _ i vec.length i (Nat.le_refl i) (by omega)
        (le_of_eq hr1len.symm)
    · rw [q2 a (by omega), q2 b (by omega)]
      exact hyp1 a b hab (by omega) hblen
  · intro a ha x hx
    rw [hr1len] at hx
    obtain ⟨m, hm1, hm2, hm3⟩ := mem_seg _ (i + 1) vec.length x hx (by omega)
    by_cases hai : a = i
    · rw [hai, ← hm3]
      exact q3 m (by omega) hm2
    · rw [q2 a (by omega)]
      refine hmemtr x ?_ a (by omega)
      rw [← hm3]
      exact getD_mem_seg _ i vec.length m (by omega) hm2
        (le_of_eq hr1len.symm)

theorem selectionMinIdx_spec [Inhabited α] (key : α → β) [LinearOrder β] :
    ∀ (vec : List α) (minIndex j : Nat), minIndex < vec.length →
      (selectionMinIdx (kltb key) vec minIndex j = minIndex
        ∨ (j ≤ selectionMinIdx (kltb key) vec minIndex j
            ∧ selectionMinIdx (kltb key) vec minIndex j < vec.length)) ∧
      key (vec.getD (selectionMinIdx (kltb key) vec minIndex j) default)
        ≤ key (vec.getD minIndex default) ∧
      (∀ k, j ≤ k → k < vec.length →
        key (vec.getD (selectionMinIdx (kltb key) vec minIndex j) default)
          ≤ key (vec.getD k default)) := by
  intro vec minIndex j
  induction minIndex, j using selectionMinIdx.induct (kltb key) vec with
  | case1 minIndex j h ih =>
    intro hmin
    rw [selectionMinIdx, dif_pos h]
    by_cases hc : kltb key (vec.getD j default) (vec.getD minIndex default)
        = true
    · rw [if_pos hc]
      rw [dif_pos hc] at ih
      have hclt : key (vec.getD j default) < key (vec.getD minIndex default) :=
        (kltb_iff key _ _).mp hc
      obtain ⟨r1, r2, r3⟩ := ih h
      refine ⟨?_, le_trans r2 (le_of_lt hclt), ?_⟩
      · rcases r1 with h1 | h1
        · exact Or.inr ⟨le_of_eq h1.symm, by rw [h1]; exact h⟩
        · exact Or.inr ⟨by omega, h1.2⟩
      · intro k hk1 hk2
        by_cases hkj : k = j
        · rw [hkj]
          exact r2
        · exact r3 k (by omega) hk2
    · rw [if_neg hc]
      rw [dif_neg hc] at ih
      have hcge : key (vec.getD minIndex default)
          ≤ key (vec.getD j default) := by
        rcases le_or_lt (key (vec.getD minIndex default))
          (key (vec.getD j default)) with h2 | h2
        · exact h2
        · exact absurd ((kltb_iff key _ _).mpr h2) hc
      obtain ⟨r1, r2, r3⟩ := ih hmin
      refine ⟨?_, r2, ?_⟩
      · rcases r1 with h1 | h1
        · exact Or.inl h1
        · exact Or.inr ⟨by omega, h1.2⟩
      · intro k hk1 hk2
        by_cases hkj : k = j
        · rw [hkj]
          exact le_trans r2 hcge
        · exact r3 k (by omega) hk2
  | case2 minIndex j h =>
    intro hmin
    rw [selectionMinIdx, dif_neg h]
    exact ⟨Or.inl rfl, le_refl _, fun k hk1 hk2 => by omega⟩

theorem selectionSortOuter_spec [Inhabited α] (key : α → β) [LinearOrder β] :
    ∀ (vec : List α) (i : Nat),
      (∀ a b, a < b → b < i → b < vec.length →
        key (vec.getD a default) ≤ key (vec.getD b default)) →
      (∀ a, a < i → ∀ x ∈ seg vec i vec.length,
        key (vec.getD a default) ≤ key x) →
      (selectionSortOuter (kltb key) vec i).Perm vec ∧
      (∀ a b, a < b → b < vec.length →
        key ((selectionSortOuter (kltb key) vec i).getD a default)
          ≤ key ((selectionSortOuter (kltb key) vec i).getD b default)) := by
  intro vec i
  induction vec, i using selectionSortOuter.induct (kltb key) with
  | case1 vec i h ih =>
    intro hyp1 hyp2
    rw [selectionSortOuter, dif_pos h]
    simp only [dite_eq_ite] at ih
    obtain ⟨r1, r2, r3⟩ := selectionMinIdx_spec key vec i (i + 1) (by omega)
    have hmrange : selectionMinIdx (kltb key) vec i (i + 1) < vec.length := by
      rcases r1 with h1 | h1
      · rw [h1]
        omega
      · exact h1.2
    have hq : ((if selectionMinIdx (kltb key) vec i (i + 1) ≠ i
          then swapL vec i (selectionMinIdx (kltb key) vec i (i + 1))
          else vec).Perm vec) ∧
        (∀ k, k < i → (if selectionMinIdx (kltb key) vec i (i + 1) ≠ i
          then swapL vec i (selectionMinIdx (kltb key) vec i (i + 1))
          else vec).getD k default = vec.getD k default) ∧
        (∀ k, i < k → k < vec.length →
          key ((if selectionMinIdx (kltb key) vec i (i + 1) ≠ i
            then swapL vec i (selectionMinIdx (kltb key) vec i (i + 1))
            else vec).getD i default)
          ≤ key ((if selectionMinIdx (kltb key) vec i (i + 1) ≠ i
            then swapL vec i (selectionMinIdx (kltb key) vec i (i + 1))
            else vec).getD k default)) := by
      by_cases hne : selectionMinIdx (kltb key) vec i (i + 1) ≠ i
      · rw [if_pos hne]
        have hgsw : ∀ m, (swapL vec i
            (selectionMinIdx (kltb key) vec i (i + 1))).getD m default =
            if m = selectionMinIdx (kltb key) vec i (i + 1)
              then vec.getD i default
            else if m = i
              then vec.getD (selectionMinIdx (kltb key) vec i (i + 1)) default
            else vec.getD m default :=
          fun m => getD_swapL vec m (by omega) hmrange
        have hmge : i + 1 ≤ selectionMinIdx (kltb key) vec i (i + 1) := by
          rcases r1 with h1 | h1
          · exact absurd h1 hne
          · exact h1.1
        refine ⟨swapL_perm vec (by omega) hmrange, ?_, ?_⟩
        · intro k hk
          rw [hgsw k, if_neg (by omega), if_neg (by omega)]
        · intro k hk1 hk2
          rw [hgsw i, if_neg (by omega), if_pos rfl, hgsw k]
          by_cases hkm : k = selectionMinIdx (kltb key) vec i (i + 1)
          · rw [if_pos hkm]
            exact r2
          · rw [if_neg hkm, if_neg (by omega)]
            exact r3 k (by omega) hk2
      · rw [if_neg hne]
        have hmi : selectionMinIdx (kltb key) vec i (i + 1) = i := by
          by_cases h2 : selectionMinIdx (kltb key) vec i (i + 1) = i
          · exact h2
          · exact absurd h2 hne
        refine ⟨List.Perm.refl vec, fun k hk => rfl, ?_⟩
        intro k hk1 hk2
        rw [← hmi]
        exact r3 k (by omega) hk2
    obtain ⟨q1, q2, q3⟩ := hq
    obtain ⟨nh1, nh2⟩ := outer_step key vec _ i h q1 q2 q3 hyp1 hyp2
    obtain ⟨operm, osort⟩ := ih nh1 nh2
    refine ⟨operm.trans q1, ?_⟩
    intro a b hab hblen
    exact osort a b hab (by rw [q1.length_eq]; exact hblen)
  | case2 vec i h =>
    intro hyp1 hyp2
    rw [selectionSortOuter, dif_neg h]
    refine ⟨List.Perm.refl vec, ?_⟩
    intro a b hab hblen
    by_cases hbi : b = i
    · rw [hbi]
      refine hyp2 a (by omega) _ ?_
      exact getD_mem_seg vec i vec.length i (Nat.le_refl i) (by omega)
        (Nat.le_refl _)
    · exact hyp1 a b hab (by omega) hblen

theorem SelectionSort_sorts [Inhabited α] (key : α → β) [LinearOrder β]
    (vec : List α) :
    (SelectionSort (kltb key) vec).Perm vec ∧
    List.Pairwise (fun a b => key a ≤ key b) (SelectionSort (kltb key) vec) := by
  obtain ⟨hperm, hsort⟩ := selectionSortOuter_spec key vec 0
    (fun a b hab hb _ => by omega)
    (fun a ha => by omega)
  refine ⟨hperm, ?_⟩
  apply pairwise_key_of_getD
  intro a b hab hb
  rw [SelectionSort] at hb ⊢
  exact hsort a b hab (by rw [← hperm.length_eq]; exact hb)

/-! ### BubbleSort: sortedness, permutation and stability -/

theorem bubblePass_spec [Inhabited α] (key : α → β) [LinearOrder β] :
    ∀ (vec : List α) (j stop : Nat) (swapped : Bool),
      stop < vec.length → j ≤ stop →
      (∀ k, k < j → key (vec.getD k default) ≤ key (vec.getD j default)) →
      (bubblePass (kgtb key) vec j stop swapped).1.Perm vec ∧
      (∀ k, stop < k → k < vec.length →
        (bubblePass (kgtb key) vec j stop swapped).1.getD k default
          = vec.getD k default) ∧
      (∀ k, k < stop →
        key ((bubblePass (kgtb key) vec j stop swapped).1.getD k default)
          ≤ key ((bubblePass (kgtb key) vec j stop swapped).1.getD stop
              default)) ∧
      ((bubblePass (kgtb key) vec j stop swapped).2 = false →
        swapped = false ∧
        (bubblePass (kgtb key) vec j stop swapped).1 = vec ∧
        (∀ k, j ≤ k → k + 1 ≤ stop →
          key (vec.getD k default) ≤ key (vec.getD (k + 1) default))) ∧
      (∀ kk : β, (bubblePass (kgtb key) vec j stop swapped).1.filter
          (fun x => decide (key x = kk))
        = vec.filter (fun x => decide (key x = kk))) := by
  intro vec j stop swapped
  induction vec, j, stop, swapped using bubblePass.induct (kgtb key) with
  | case1 vec j stop swapped h hb ih =>
    intro hstop hjs hinv
    rw [bubblePass, dif_pos h, if_pos hb]
    have hlt : key (vec.getD (j + 1) default) < key (vec.getD j default) :=
      (kgtb_iff key _ _).mp hb
    have hjlen : j < vec.length := by omega
    have hj1len : j + 1 < vec.length := by omega
    have hgsw : ∀ m, (swapL vec j (j + 1)).getD m default =
        if m = j + 1 then vec.getD j default
        else if m = j then vec.getD (j + 1) default
        else vec.getD m default := fun m => getD_swapL vec m hjlen hj1len
    obtain ⟨a1, a2, a3, a4, a5⟩ := ih
      (by rw [length_swapL]; exact hstop) (by omega)
      (by
        intro k hk
        rw [hgsw k, hgsw (j + 1), if_pos rfl]
        by_cases hkj : k = j
        · rw [if_neg (by omega), if_pos hkj]
          exact le_of_lt hlt
        · rw [if_neg (by omega), if_neg hkj]
          exact hinv k (by omega))
    refine ⟨a1.trans (swapL_perm vec hjlen hj1len), ?_, a3, ?_, ?_⟩
    · intro k hk1 hk2
      rw [a2 k hk1 (by rw [length_swapL]; exact hk2)]
      rw [hgsw k, if_neg (by omega), if_neg (by omega)]
    · intro hsw
      exact absurd (a4 hsw).1 (by simp)
    · intro kk
      rw [a5 kk]
      apply filter_swap_adjacent _ vec j hj1len
      by_cases hk1 : key (vec.getD j default) = kk
      · right
        simp only [decide_eq_false_iff_not]
        intro hk2
        rw [hk1] at hlt
        rw [hk2] at hlt
        exact lt_irrefl kk hlt
      · left
        simp only [decide_eq_false_iff_not]
        exact hk1
  | case2 vec j stop swapped h hb ih =>
    intro hstop hjs hinv
    rw [bubblePass, dif_pos h, if_neg hb]
    have hble : key (vec.getD j default) ≤ key (vec.getD (j + 1) default) := by
      rcases le_or_lt (key (vec.getD j default))
        (key (vec.getD (j + 1) default)) with h2 | h2
      · exact h2
      · exact absurd ((kgtb_iff key _ _).mpr h2) hb
    obtain ⟨a1, a2, a3, a4, a5⟩ := ih hstop (by omega)
      (by
        intro k hk
        by_cases hkj : k = j
        · rw [hkj]
          exact hble
        · exact le_trans (hinv k (by omega)) hble)
    refine ⟨a1, a2, a3, ?_, a5⟩
    intro hsw
    obtain ⟨s1, s2, s3⟩ := a4 hsw
    refine ⟨s1, s2, ?_⟩
    intro k hk1 hk2
    by_cases hkj : k = j
    · rw [hkj]
      exact hble
    · exact s3 k (by omega) hk2
  | case3 vec j stop swapped h =>
    intro hstop hjs hinv
    rw [bubblePass, dif_neg h]
    have hj : j = stop := by omega
    refine ⟨List.Perm.refl vec, fun k _ _ => rfl, ?_, ?_, fun kk => rfl⟩
    · intro k hk
      have h2 := hinv k (by omega)
      rw [hj] at h2
      exact h2
    · intro hsw
      exact ⟨hsw, rfl, fun k hk1 hk2 => by omega⟩

theorem bubbleOuter_spec [Inhabited α] (key : α → β) [LinearOrder β] :
    ∀ (vec : List α) (i : Nat),
      (∀ a b, a < b → b < vec.length → vec.length - i ≤ a →
        key (vec.getD a default) ≤ key (vec.getD b default)) →
      (∀ x ∈ seg vec 0 (vec.length - i), ∀ b, vec.length - i ≤ b →
        b < vec.length → key x ≤ key (vec.getD b default)) →
      (bubbleOuter (kgtb key) vec i).Perm vec ∧
      (∀ a b, a < b → b < vec.length →
        key ((bubbleOuter (kgtb key) vec i).getD a default)
          ≤ key ((bubbleOuter (kgtb key) vec i).getD b default)) ∧
      (∀ kk : β, (bubbleOuter (kgtb key) vec i).filter
          (fun x => decide (key x = kk))
        = vec.filter (fun x => decide (key x = kk))) := by
  intro vec i
  induction vec, i using bubbleOuter.induct (kgtb key) with
  | case1 vec i h p hp2 ih =>
    intro hyp1 hyp2
    have hpdef : p = bubblePass (kgtb key) vec 0 (vec.length - 1 - i) false :=
      rfl
    rw [bubbleOuter, dif_pos h]
    dsimp only
    rw [← hpdef, if_pos hp2]
    obtain ⟨pa, pb, pc, pd, pe⟩ := bubblePass_spec key vec 0
      (vec.length - 1 - i) false (by omega) (by omega) (fun k hk => by omega)
    rw [← hpdef] at pa pb pc pe
    have hrlen : p.1.length = vec.length := pa.length_eq
    have hstop1 : vec.length - 1 - i + 1 = vec.length - i := by omega
    have hsp : (seg p.1 0 (vec.length - i)).Perm (seg vec 0 (vec.length - i)) := by
      refine seg_perm_of_frame p.1 vec 0 (vec.length - i) pa
        (fun k hk => by omega) ?_ (by omega) (by omega)
      intro k hk1 hk2
      exact pb k (by omega) hk2
    have hmemtr : ∀ x ∈ seg p.1 0 (vec.length - i), ∀ b,
        vec.length - i ≤ b → b < vec.length →
        key x ≤ key (vec.getD b default) := by
      intro x hx b hb1 hb2
      exact hyp2 x (hsp.mem_iff.mp hx) b hb1 hb2
    obtain ⟨o1, o2, o3⟩ := ih
      (by
        intro a b hab hblen ha
        rw [hrlen] at hblen ha
        by_cases has : a = vec.length - 1 - i
        · have hbgt : vec.length - 1 - i < b := by omega
          rw [pb b (by omega) hblen, has]
          refine hmemtr _ ?_ b (by omega) hblen
          refine getD_mem_seg p.1 0 (vec.length - i) (vec.length - 1 - i)
            (by omega) (by omega) (by omega)
        · rw [pb a (by omega) (by omega), pb b (by omega) hblen]
          exact hyp1 a b hab hblen (by omega))
      (by
        intro x hx b hb1 hb2
        rw [hrlen] at hx hb1 hb2
        obtain ⟨m, hm1, hm2, hm3⟩ := mem_seg p.1 0 (vec.length - (i + 1)) x hx
          (by omega)
        by_cases hbs : b = vec.length - 1 - i
        · rw [hbs, ← hm3]
          exact pc m (by omega)
        · rw [pb b (by omega) hb2]
          refine hmemtr x ?_ b (by omega) hb2
          rw [← hm3]
          exact getD_mem_seg p.1 0 (vec.length - i) m (by omega) (by omega)
            (by omega))
    refine ⟨o1.trans pa, ?_, ?_⟩
    · intro a b hab hblen
      exact o2 a b hab (by rw [hrlen]; exact hblen)
    · intro kk
      rw [o3 kk, pe kk]
  | case2 vec i h p hp2 =>
    intro hyp1 hyp2
    have hpdef : p = bubblePass (kgtb key) vec 0 (vec.length - 1 - i) false :=
      rfl
    rw [bubbleOuter, dif_pos h]
    dsimp only
    rw [← hpdef, if_neg hp2]
    obtain ⟨pa, pb, pc, pd, pe⟩ := bubblePass_spec key vec 0
      (vec.length - 1 - i) false (by omega) (by omega) (fun k hk => by omega)
    rw [← hpdef] at pd
    obtain ⟨hsw0, hpvec, hadj⟩ := pd (Bool.eq_false_iff.mpr hp2)
    rw [hpvec]
    have hadj2 : ∀ k, k + 1 < vec.length →
        key (vec.getD k default) ≤ key (vec.getD (k + 1) default) := by
      intro k hk
      by_cases hks : k + 1 ≤ vec.length - 1 - i
      · exact hadj k (by omega) hks
      · by_cases hke : k = vec.length - 1 - i
        · refine hyp2 (vec.getD k default) ?_ (k + 1) (by omega) hk
          exact getD_mem_seg vec 0 (vec.length - i) k (by omega) (by omega)
            (by omega)
        · exact hyp1 k (k + 1) (by omega) hk (by omega)
    refine ⟨List.Perm.refl vec, ?_, fun kk => rfl⟩
    intro a b hab hblen
    exact le_of_adjacent_getD key vec hadj2 a b (by omega) hblen
  | case3 vec i h =>
    intro hyp1 hyp2
    rw [bubbleOuter, dif_neg h]
    refine ⟨List.Perm.refl vec, ?_, fun kk => rfl⟩
    intro a b hab hblen
    by_cases ha : vec.length - i ≤ a
    · exact hyp1 a b hab hblen ha
    · refine hyp2 (vec.getD a default) ?_ b (by omega) hblen
      exact getD_mem_seg vec 0 (vec.length - i) a (by omega) (by omega)
        (by omega)

theorem BubbleSort_sorts [Inhabited α] (key : α → β) [LinearOrder β]
    (vec : List α) :
    (BubbleSort (kgtb key) vec).Perm vec ∧
    List.Pairwise (fun a b => key a ≤ key b) (BubbleSort (kgtb key) vec) ∧
    (∀ kk : β, (BubbleSort (kgtb key) vec).filter
        (fun x => decide (key x = kk))
      = vec.filter (fun x => decide (key x = kk))) := by
  obtain ⟨hperm, hsort, hfil⟩ := bubbleOuter_spec key vec 0
    (fun a b hab hb ha => by omega)
    (fun x hx b hb1 hb2 => by omega)
  refine ⟨hperm, ?_, hfil⟩
  apply pairwise_key_of_getD
  intro a b hab hb
  rw [BubbleSort] at hb ⊢
  exact hsort a b hab (by rw [← hperm.length_eq]; exact hb)

/-! ### MergeSort: sortedness, permutation and stability

The imperative `merge`/`mergeSortHelper` are shown to compute the
functional stable merge sort `msF` on the segment, from which the
specification properties follow. -/

def mergeLists (ble : α → α → Bool) : List α → List α → List α
  | [], ys => ys
  | x :: xs, [] => x :: xs
  | x :: xs, y :: ys =>
    if ble x y then x :: mergeLists ble xs (y :: ys)
    else y :: mergeLists ble (x :: xs) ys
termination_by xs ys => xs.length + ys.length

theorem mergeLists_nil_right (ble : α → α → Bool) (xs : List α) :
    mergeLists ble xs [] = xs := by
  cases xs with
  | nil => rw [mergeLists]
  | cons x xs => rw [mergeLists]

theorem mergeLists_perm (ble : α → α → Bool) :
    ∀ (xs ys : List α), (mergeLists ble xs ys).Perm (xs ++ ys) := by
  intro xs ys
  induction xs, ys using mergeLists.induct ble with
  | case1 ys => simp [mergeLists]
  | case2 x xs =>
    rw [mergeLists_nil_right]
    simp
  | case3 x xs y ys hb ih =>
    rw [mergeLists, if_pos hb]
    exact ih.cons x
  | case4 x xs y ys hb ih =>
    rw [mergeLists, if_neg hb]
    refine (ih.cons y).trans ?_
    exact List.perm_middle.symm

theorem mergeLists_sorted (key : α → β) [LinearOrder β] :
    ∀ (xs ys : List α),
      List.Pairwise (fun a b => key a ≤ key b) xs →
      List.Pairwise (fun a b => key a ≤ key b) ys →
      List.Pairwise (fun a b => key a ≤ key b) (mergeLists (kleb key) xs ys) := by
  intro xs ys
  induction xs, ys using mergeLists.induct (kleb key) with
  | case1 ys =>
    intro _ hys
    rw [mergeLists]
    exact hys
  | case2 x xs =>
    intro hxs _
    rw [mergeLists_nil_right]
    exact hxs
  | case3 x xs y ys hb ih =>
    intro hxs hys
    rw [mergeLists, if_pos hb]
    have hxy : key x ≤ key y := (kleb_iff key _ _).mp hb
    rw [List.pairwise_cons] at hxs ⊢
    refine ⟨?_, ih hxs.2 hys⟩
    intro b hb2
    have hb3 : b ∈ xs ++ y :: ys :=
      (mergeLists_perm (kleb key) xs (y :: ys)).mem_iff.mp hb2
    rcases List.mem_append.mp hb3 with h3 | h3
    · exact hxs.1 b h3
    · rcases List.mem_cons.mp h3 with rfl | h3
      · exact hxy
      · rw [List.pairwise_cons] at hys
        exact le_trans hxy (hys.1 b h3)
  | case4 x xs y ys hb ih =>
    intro hxs hys
    rw [mergeLists, if_neg hb]
    have hyx : key y < key x := by
      rcases le_or_lt (key x) (key y) with h2 | h2
      · exact absurd ((kleb_iff key _ _).mpr h2) hb
      · exact h2
    rw [List.pairwise_cons] at hys ⊢
    refine ⟨?_, ih hxs hys.2⟩
    intro b hb2
    have hb3 : b ∈ (x :: xs) ++ ys :=
      (mergeLists_perm (kleb key) (x :: xs) ys).mem_iff.mp hb2
    rcases List.mem_append.mp hb3 with h3 | h3
    · rcases List.mem_cons.mp h3 with rfl | h3
      · exact le_of_lt hyx
      · rw [List.pairwise_cons] at hxs
        exact le_trans (le_of_lt hyx) (hxs.1 b h3)
    · exact hys.1 b h3

theorem mergeLists_filter (key : α → β) [LinearOrder β] (kk : β) :
    ∀ (xs ys : List α),
      List.Pairwise (fun a b => key a ≤ key b) xs →
      (mergeLists (kleb key) xs ys).filter (fun x => decide (key x = kk))
        = xs.filter (fun x => decide (key x = kk))
          ++ ys.filter (fun x => decide (key x = kk)) := by
  intro xs ys
  induction xs, ys using mergeLists.induct (kleb key) with
  | case1 ys =>
    intro _
    rw [mergeLists]
    simp
  | case2 x xs =>
    intro _
    rw [mergeLists_nil_right]
    simp
  | case3 x xs y ys hb ih =>
    intro hxs
    rw [mergeLists, if_pos hb]
    rw [List.pairwise_cons] at hxs
    rw [List.filter_cons, List.filter_cons]
    by_cases hx : decide (key x = kk) = true
    · rw [if_pos hx, if_pos hx, ih hxs.2]
      rfl
    · rw [if_neg hx, if_neg hx, ih hxs.2]
  | case4 x xs y ys hb ih =>
    intro hxs
    rw [mergeLists, if_neg hb]
    have hyx : key y < key x := by
      rcases le_or_lt (key x) (key y) with h2 | h2
      · exact absurd ((kleb_iff key _ _).mpr h2) hb
      · exact h2
    rw [List.filter_cons]
    have hyr : (y :: ys).filter (fun x => decide (key x = kk))
        = if decide (key y = kk) = true
          then y :: ys.filter (fun x => decide (key x = kk))
          else ys.filter (fun x => decide (key x = kk)) := List.filter_cons
    rw [hyr]
    by_cases hy : decide (key y = kk) = true
    · rw [if_pos hy, if_pos hy, ih hxs]
      have hknil : (x :: xs).filter (fun x => decide (key x = kk)) = [] := by
        rw [List.filter_eq_nil_iff]
        intro a ha
        simp only [decide_eq_true_eq]
        intro hak
        have hyk : key y = kk := of_decide_eq_true hy
        rcases List.mem_cons.mp ha with rfl | ha
        · rw [hak] at hyx
          rw [hyk] at hyx
          exact lt_irrefl kk hyx
        · rw [List.pairwise_cons] at hxs
          have := hxs.1 a ha
          have h4 := hxs.1 a ha
          rw [hak] at h4
          rw [hyk] at hyx
          exact absurd h4 (not_le_of_lt hyx)
      simp [hknil]
    · rw [if_neg hy, if_neg hy, ih hxs]

/-- Functional counterpart of `mergeSortHelper` on a segment: split at
`(len-1)/2 + 1` (the size of the source's left run `[start..mid]`),
recursively sort, stable merge. -/
def msF (ble : α → α → Bool) (l : List α) : List α :=
  if h : l.length ≤ 1 then l
  else
    mergeLists ble (msF ble (l.take ((l.length - 1) / 2 + 1)))
      (msF ble (l.drop ((l.length - 1) / 2 + 1)))
termination_by l.length
decreasing_by
  · simp [List.length_take]
    omega
  · simp [List.length_drop]
    omega

theorem msF_perm (ble : α → α → Bool) :
    ∀ l : List α, (msF ble l).Perm l := by
  intro l
  induction l using msF.induct ble with
  | case1 l h => rw [msF, dif_pos h]
  | case2 l h ih1 ih2 =>
    rw [msF, dif_neg h]
    refine (mergeLists_perm ble _ _).trans ?_
    refine (ih1.append ih2).trans ?_
    rw [List.take_append_drop]

theorem msF_sorted (key : α → β) [LinearOrder β] :
    ∀ l : List α, List.Pairwise (fun a b => key a ≤ key b)
      (msF (kleb key) l) := by
  intro l
  induction l using msF.induct (kleb key) with
  | case1 l h =>
    rw [msF, dif_pos h]
    exact pairwise_short l h
  | case2 l h ih1 ih2 =>
    rw [msF, dif_neg h]
    exact mergeLists_sorted key _ _ ih1 ih2

theorem msF_filter (key : α → β) [LinearOrder β] (kk : β) :
    ∀ l : List α, (msF (kleb key) l).filter (fun x => decide (key x = kk))
      = l.filter (fun x => decide (key x = kk)) := by
  intro l
  induction l using msF.induct (kleb key) with
  | case1 l h => rw [msF, dif_pos h]
  | case2 l h ih1 ih2 =>
    rw [msF, dif_neg h]
    rw [mergeLists_filter key kk _ _ (msF_sorted key _)]
    rw [ih1, ih2, ← List.filter_append, List.take_append_drop]

theorem seg_cons [Inhabited α] (l : List α) (a b : Nat) (hab : a < b)
    (hb : b ≤ l.length) :
    seg l a b = l.getD a default :: seg l (a + 1) b := by
  rw [seg, seg]
  rw [← cons_getD_drop l a (by omega)]
  rw [show b - a = (b - (a + 1)) + 1 from by omega]
  rw [List.take_succ_cons]

theorem seg_nil [Inhabited α] (l : List α) (a b : Nat) (hab : b ≤ a) :
    seg l a b = [] := by
  rw [seg, show b - a = 0 from by omega]
  rfl

theorem mergeLeft_spec [Inhabited α] (vec : List α) (mid : Nat) :
    ∀ (n : Nat) (tmp : List α) (i k : Nat), mid + 1 - i ≤ n →
      i ≤ mid + 1 → mid < vec.length →
      k + (mid + 1 - i) ≤ tmp.length →
      mergeLeft vec tmp i k mid
        = (tmp.take k ++ seg vec i (mid + 1) ++ tmp.drop (k + (mid + 1 - i)),
           k + (mid + 1 - i)) := by
  intro n
  induction n with
  | zero =>
    intro tmp i k hn hi hmid hlen
    rw [mergeLeft, dif_neg (by omega)]
    rw [show mid + 1 - i = 0 from by omega]
    rw [seg_nil vec i (mid + 1) (by omega)]
    simp [List.take_append_drop]
  | succ n ih =>
    intro tmp i k hn hi hmid hlen
    by_cases h : i ≤ mid
    · rw [mergeLeft, dif_pos h]
      rw [ih (tmp.set k (vec.getD i default)) (i + 1) (k + 1) (by omega)
        (by omega) hmid (by simp [List.length_set]; omega)]
      rw [take_set_concat tmp k _ (by omega)]
      rw [List.drop_set, if_pos (by omega)]
      rw [seg_cons vec i (mid + 1) (by omega) (by omega)]
      rw [show k + 1 + (mid + 1 - (i + 1)) = k + (mid + 1 - i) from by omega]
      simp [List.append_assoc]
    · rw [mergeLeft, dif_neg h]
      rw [show mid + 1 - i = 0 from by omega]
      rw [seg_nil vec i (mid + 1) (by omega)]
      simp [List.take_append_drop]

theorem mergeRight_spec [Inhabited α] (vec : List α) (endIdx : Nat) :
    ∀ (n : Nat) (tmp : List α) (j k : Nat), endIdx + 1 - j ≤ n →
      j ≤ endIdx + 1 → endIdx < vec.length →
      k + (endIdx + 1 - j) ≤ tmp.length →
      mergeRight vec tmp j k endIdx
        = (tmp.take k ++ seg vec j (endIdx + 1)
            ++ tmp.drop (k + (endIdx + 1 - j)),
           k + (endIdx + 1 - j)) := by
  intro n
  induction n with
  | zero =>
    intro tmp j k hn hj hend hlen
    rw [mergeRight, dif_neg (by omega)]
    rw [show endIdx + 1 - j = 0 from by omega]
    rw [seg_nil vec j (endIdx + 1) (by omega)]
    simp [List.take_append_drop]
  | succ n ih =>
    intro tmp j k hn hj hend hlen
    by_cases h : j ≤ endIdx
    · rw [mergeRight, dif_pos h]
      rw [ih (tmp.set k (vec.getD j default)) (j + 1) (k + 1) (by omega)
        (by omega) hend (by simp [List.length_set]; omega)]
      rw [take_set_concat tmp k _ (by omega)]
      rw [List.drop_set, if_pos (by omega)]
      rw [seg_cons vec j (endIdx + 1) (by omega) (by omega)]
      rw [show k + 1 + (endIdx + 1 - (j + 1)) = k + (endIdx + 1 - j) from by
        omega]
      simp [List.append_assoc]
    · rw [mergeRight, dif_neg h]
      rw [show endIdx + 1 - j = 0 from by omega]
      rw [seg_nil vec j (endIdx + 1) (by omega)]
      simp [List.take_append_drop]

theorem mergeCopyBack_spec [Inhabited α] (tmp : List α) (endIdx : Nat) :
    ∀ (n : Nat) (vec : List α) (i : Nat), endIdx + 1 - i ≤ n →
      i ≤ endIdx + 1 → endIdx < vec.length → endIdx < tmp.length →
      mergeCopyBack vec tmp i endIdx
        = vec.take i ++ seg tmp i (endIdx + 1) ++ vec.drop (endIdx + 1) := by
  intro n
  induction n with
  | zero =>
    intro vec i hn hi hend htmp
    rw [mergeCopyBack, dif_neg (by omega)]
    rw [seg_nil tmp i (endIdx + 1) (by omega)]
    rw [show i = endIdx + 1 from by omega]
    simp [List.take_append_drop]
  | succ n ih =>
    intro vec i hn hi hend htmp
    by_cases h : i ≤ endIdx
    · rw [mergeCopyBack, dif_pos h]
      rw [ih (vec.set i (tmp.getD i default)) (i + 1) (by omega) (by omega)
        (by simp [List.length_set]; omega) htmp]
      rw [take_set_concat vec i _ (by omega)]
      rw [List.drop_set, if_pos (by omega)]
      rw [seg_cons tmp i (endIdx + 1) (by omega) (by omega)]
      simp [List.append_assoc]
    · rw [mergeCopyBack, dif_neg h]
      rw [seg_nil tmp i (endIdx + 1) (by omega)]
      rw [show i = endIdx + 1 from by omega]
      simp [List.take_append_drop]

theorem mergeLoop_spec [Inhabited α] (ble : α → α → Bool) (vec : List α)
    (mid endIdx : Nat) :
    ∀ (n : Nat) (tmp : List α) (i j k : Nat),
      (mid + 1 - i) + (endIdx + 1 - j) ≤ n →
      i ≤ mid + 1 → j ≤ endIdx + 1 → mid < vec.length → endIdx < vec.length →
      k + (mid + 1 - i) + (endIdx + 1 - j) ≤ tmp.length →
      ∃ i2 j2,
        mergeLoop ble vec tmp i j k mid endIdx
          = (tmp.take k
              ++ (mergeLists ble (seg vec i (mid + 1))
                  (seg vec j (endIdx + 1))).take ((i2 - i) + (j2 - j))
              ++ tmp.drop (k + ((i2 - i) + (j2 - j))),
             i2, j2, k + ((i2 - i) + (j2 - j))) ∧
        i ≤ i2 ∧ i2 ≤ mid + 1 ∧ j ≤ j2 ∧ j2 ≤ endIdx + 1 ∧
        ¬(i2 ≤ mid ∧ j2 ≤ endIdx) ∧
        (mergeLists ble (seg vec i (mid + 1)) (seg vec j (endIdx + 1))).drop
            ((i2 - i) + (j2 - j))
          = mergeLists ble (seg vec i2 (mid + 1)) (seg vec j2 (endIdx + 1)) := by
  intro n
  induction n with
  | zero =>
    intro tmp i j k hn hi hj hmid hend hlen
    refine ⟨i, j, ?_, Nat.le_refl i, hi, Nat.le_refl j, hj, by omega, by simp⟩
    rw [mergeLoop, dif_neg (by omega)]
    simp [List.take_append_drop]
  | succ n ih =>
    intro tmp i j k hn hi hj hmid hend hlen
    by_cases h : i ≤ mid ∧ j ≤ endIdx
    · have hsegi : seg vec i (mid + 1)
          = vec.getD i default :: seg vec (i + 1) (mid + 1) :=
        seg_cons vec i (mid + 1) (by omega) (by omega)
      have hsegj : seg vec j (endIdx + 1)
          = vec.getD j default :: seg vec (j + 1) (endIdx + 1) :=
        seg_cons vec j (endIdx + 1) (by omega) (by omega)
      by_cases hb : ble (vec.getD i default) (vec.getD j default) = true
      · rw [mergeLoop, dif_pos h, if_pos hb]
        obtain ⟨i2, j2, heq, hii, hi2, hjj, hj2, hstop, hdrop⟩ :=
          ih (tmp.set k (vec.getD i default)) (i + 1) j (k + 1) (by omega)
            (by omega) hj hmid hend (by simp [List.length_set]; omega)
        have hM : mergeLists ble (seg vec i (mid + 1)) (seg vec j (endIdx + 1))
            = vec.getD i default
              :: mergeLists ble (seg vec (i + 1) (mid + 1))
                  (seg vec j (endIdx + 1)) := by
          rw [hsegi, hsegj, mergeLists, if_pos hb, ← hsegj]
        refine ⟨i2, j2, ?_, by omega, hi2, hjj, hj2, hstop, ?_⟩
        · rw [heq]
          rw [take_set_concat tmp k _ (by omega)]
          rw [List.drop_set, if_pos (by omega)]
          rw [hM]
          rw [show (i2 - i) + (j2 - j) = ((i2 - (i + 1)) + (j2 - j)) + 1 from
            by omega]
          rw [List.take_succ_cons]
          rw [show k + ((i2 - (i + 1)) + (j2 - j) + 1)
              = k + 1 + ((i2 - (i + 1)) + (j2 - j)) from by omega]
          simp [List.append_assoc]
        · rw [hM]
          rw [show (i2 - i) + (j2 - j) = ((i2 - (i + 1)) + (j2 - j)) + 1 from
            by omega]
          rw [List.drop_succ_cons]
          exact hdrop
      · rw [mergeLoop, dif_pos h, if_neg hb]
        obtain ⟨i2, j2, heq, hii, hi2, hjj, hj2, hstop, hdrop⟩ :=
          ih (tmp.set k (vec.getD j default)) i (j + 1) (k + 1) (by omega)
            hi (by omega) hmid hend (by simp [List.length_set]; omega)
        have hM : mergeLists ble (seg vec i (mid + 1)) (seg vec j (endIdx + 1))
            = vec.getD j default
              :: mergeLists ble (seg vec i (mid + 1))
                  (seg vec (j + 1) (endIdx + 1)) := by
          rw [hsegi, hsegj, mergeLists, if_neg hb, ← hsegi]
        refine ⟨i2, j2, ?_, hii, hi2, by omega, hj2, hstop, ?_⟩
        · rw [heq]
          rw [take_set_concat tmp k _ (by omega)]
          rw [List.drop_set, if_pos (by omega)]
          rw [hM]
          rw [show (i2 - i) + (j2 - j) = ((i2 - i) + (j2 - (j + 1))) + 1 from
            by omega]
          rw [List.take_succ_cons]
          rw [show k + ((i2 - i) + (j2 - (j + 1)) + 1)
              = k + 1 + ((i2 - i) + (j2 - (j + 1))) from by omega]
          simp [List.append_assoc]
        · rw [hM]
          rw [show (i2 - i) + (j2 - j) = ((i2 - i) + (j2 - (j + 1))) + 1 from
            by omega]
          rw [List.drop_succ_cons]
          exact hdrop
    · refine ⟨i, j, ?_, Nat.le_refl i, hi, Nat.le_refl j, hj, by omega,
        by simp⟩
      rw [mergeLoop, dif_neg h]
      simp [List.take_append_drop]

theorem mergeLists_nil_left (ble : α → α → Bool) (ys : List α) :
    mergeLists ble [] ys = ys := by
  rw [mergeLists]

theorem merge_spec [Inhabited α] (ble : α → α → Bool) (vec tmp : List α)
    (start mid endIdx : Nat)
    (h1 : start ≤ mid) (h2 : mid ≤ endIdx) (h3 : endIdx < vec.length)
    (h4 : tmp.length = vec.length) :
    (merge ble vec tmp start mid endIdx).1
      = vec.take start
        ++ mergeLists ble (seg vec start (mid + 1))
            (seg vec (mid + 1) (endIdx + 1))
        ++ vec.drop (endIdx + 1)
    ∧ (merge ble vec tmp start mid endIdx).2.length = vec.length := by
  obtain ⟨i2, j2, heq, hii, hi2, hjj, hj2, hstop, hdrop⟩ :=
    mergeLoop_spec ble vec mid endIdx
      ((mid + 1 - start) + (endIdx + 1 - (mid + 1))) tmp start (mid + 1) start
      (Nat.le_refl _) (by omega) (by omega) (by omega) h3 (by omega)
  have hMlen : (mergeLists ble (seg vec start (mid + 1))
      (seg vec (mid + 1) (endIdx + 1))).length = endIdx + 1 - start := by
    rw [(mergeLists_perm ble _ _).length_eq, List.length_append]
    rw [length_seg vec start (mid + 1) (by omega) (by omega)]
    rw [length_seg vec (mid + 1) (endIdx + 1) (by omega) (by omega)]
    omega
  have hdle : i2 - start + (j2 - (mid + 1)) ≤ endIdx + 1 - start := by omega
  have hpre1len : (tmp.take start
      ++ (mergeLists ble (seg vec start (mid + 1))
          (seg vec (mid + 1) (endIdx + 1))).take
            (i2 - start + (j2 - (mid + 1)))).length
      = start + (i2 - start + (j2 - (mid + 1))) := by
    simp [List.length_append, List.length_take, hMlen, h4]
    omega
  have hcomb : seg vec i2 (mid + 1) ++ seg vec j2 (endIdx + 1)
      = (mergeLists ble (seg vec start (mid + 1))
          (seg vec (mid + 1) (endIdx + 1))).drop
            (i2 - start + (j2 - (mid + 1))) := by
    rw [hdrop]
    by_cases hcase : i2 ≤ mid
    · have hj2e : j2 = endIdx + 1 := by
        rcases Nat.lt_or_ge endIdx j2 with h5 | h5
        · omega
        · exact absurd ⟨hcase, h5⟩ hstop
      rw [hj2e, seg_nil vec (endIdx + 1) (endIdx + 1) (Nat.le_refl _)]
      rw [mergeLists_nil_right]
      simp
    · have hi2e : i2 = mid + 1 := by omega
      rw [hi2e, seg_nil vec (mid + 1) (mid + 1) (Nat.le_refl _)]
      rw [mergeLists_nil_left]
      simp
  have hS1len : (tmp.take start
      ++ (mergeLists ble (seg vec start (mid + 1))
          (seg vec (mid + 1) (endIdx + 1))).take
            (i2 - start + (j2 - (mid + 1)))
      ++ tmp.drop (start + (i2 - start + (j2 - (mid + 1))))).length
      = vec.length := by
    simp [List.length_append, List.length_take, List.length_drop, hMlen, h4]
    omega
  have htakeS : (tmp.take start
      ++ (mergeLists ble (seg vec start (mid + 1))
          (seg vec (mid + 1) (endIdx + 1))).take
            (i2 - start + (j2 - (mid + 1)))
      ++ tmp.drop (start + (i2 - start + (j2 - (mid + 1))))).take
        (start + (i2 - start + (j2 - (mid + 1))))
      = tmp.take start
        ++ (mergeLists ble (seg vec start (mid + 1))
            (seg vec (mid + 1) (endIdx + 1))).take
              (i2 - start + (j2 - (mid + 1))) :=
    List.take_left' hpre1len
  have hdropS : ∀ m, (tmp.take start
      ++ (mergeLists ble (seg vec start (mid + 1))
          (seg vec (mid + 1) (endIdx + 1))).take
            (i2 - start + (j2 - (mid + 1)))
      ++ tmp.drop (start + (i2 - start + (j2 - (mid + 1))))).drop
        (start + (i2 - start + (j2 - (mid + 1))) + m)
      = tmp.drop (start + (i2 - start + (j2 - (mid + 1))) + m) := by
    intro m
    conv_lhs => rw [show start + (i2 - start + (j2 - (mid + 1))) + m
        = (tmp.take start
            ++ (mergeLists ble (seg vec start (mid + 1))
                (seg vec (mid + 1) (endIdx + 1))).take
                  (i2 - start + (j2 - (mid + 1)))).length + m from by
      rw [hpre1len]]
    rw [List.drop_append, List.drop_drop]
  rw [merge]
  dsimp only
  rw [heq]
  dsimp only
  rw [mergeLeft_spec vec mid (mid + 1) _ i2
    (start + (i2 - start + (j2 - (mid + 1)))) (by omega) hi2 (by omega)
    (by rw [hS1len]; omega)]
  dsimp only
  rw [htakeS, hdropS]
  have hpre2len : ((tmp.take start
      ++ (mergeLists ble (seg vec start (mid + 1))
          (seg vec (mid + 1) (endIdx + 1))).take
            (i2 - start + (j2 - (mid + 1))))
      ++ seg vec i2 (mid + 1)).length
      = start + (i2 - start + (j2 - (mid + 1))) + (mid + 1 - i2) := by
    rw [List.length_append, hpre1len,
      length_seg vec i2 (mid + 1) hi2 (by omega)]
  have hS2len : ((tmp.take start
      ++ (mergeLists ble (seg vec start (mid + 1))
          (seg vec (mid + 1) (endIdx + 1))).take
            (i2 - start + (j2 - (mid + 1))))
      ++ seg vec i2 (mid + 1)
      ++ tmp.drop (start + (i2 - start + (j2 - (mid + 1)))
          + (mid + 1 - i2))).length = vec.length := by
    simp only [List.length_append, List.length_take, List.length_drop]
    rw [hMlen, length_seg vec i2 (mid + 1) hi2 (by omega), h4]
    omega
  rw [mergeRight_spec vec endIdx (endIdx + 1) _ j2 _ (by omega) hj2 (by omega)
    (by rw [hS2len]; omega)]
  dsimp only
  rw [List.take_left' hpre2len]
  have hdropS2 : ((tmp.take start
      ++ (mergeLists ble (seg vec start (mid + 1))
          (seg vec (mid + 1) (endIdx + 1))).take
            (i2 - start + (j2 - (mid + 1))))
      ++ seg vec i2 (mid + 1)
      ++ tmp.drop (start + (i2 - start + (j2 - (mid + 1)))
          + (mid + 1 - i2))).drop
        (start + (i2 - start + (j2 - (mid + 1))) + (mid + 1 - i2)
          + (endIdx + 1 - j2))
      = tmp.drop (endIdx + 1) := by
    conv_lhs => rw [show start + (i2 - start + (j2 - (mid + 1)))
          + (mid + 1 - i2) + (endIdx + 1 - j2)
        = ((tmp.take start
            ++ (mergeLists ble (seg vec start (mid + 1))
                (seg vec (mid + 1) (endIdx + 1))).take
                  (i2 - start + (j2 - (mid + 1))))
            ++ seg vec i2 (mid + 1)).length + (endIdx + 1 - j2) from by
      rw [hpre2len]]
    rw [List.drop_append, List.drop_drop]
    congr 1
    omega
  rw [hdropS2]
  have hS3 : ((tmp.take start
      ++ (mergeLists ble (seg vec start (mid + 1))
          (seg vec (mid + 1) (endIdx + 1))).take
            (i2 - start + (j2 - (mid + 1))))
      ++ seg vec i2 (mid + 1))
      ++ seg vec j2 (endIdx + 1) ++ tmp.drop (endIdx + 1)
      = tmp.take start
        ++ (mergeLists ble (seg vec start (mid + 1))
            (seg vec (mid + 1) (endIdx + 1))
          ++ tmp.drop (endIdx + 1)) := by
    conv_rhs => rw [← List.take_append_drop (i2 - start + (j2 - (mid + 1)))
      (mergeLists ble (seg vec start (mid + 1))
        (seg vec (mid + 1) (endIdx + 1)))]
    rw [← hcomb]
    simp [List.append_assoc]
  rw [hS3]
  have hS3len : (tmp.take start
      ++ (mergeLists ble (seg vec start (mid + 1))
          (seg vec (mid + 1) (endIdx + 1))
        ++ tmp.drop (endIdx + 1))).length = vec.length := by
    simp only [List.length_append, List.length_take, List.length_drop, hMlen]
    rw [h4]
    omega
  have hsegS3 : seg (tmp.take start
      ++ (mergeLists ble (seg vec start (mid + 1))
          (seg vec (mid + 1) (endIdx + 1))
        ++ tmp.drop (endIdx + 1))) start (endIdx + 1)
      = mergeLists ble (seg vec start (mid + 1))
          (seg vec (mid + 1) (endIdx + 1)) := by
    rw [seg]
    rw [List.drop_left' (by simp [List.length_take]; omega)]
    rw [List.take_left' hMlen]
  constructor
  · rw [mergeCopyBack_spec _ endIdx (endIdx + 1) vec start (by omega)
      (by omega) h3 (by rw [hS3len]; omega)]
    rw [hsegS3]
  · exact hS3len

theorem mergeSortHelper_spec [Inhabited α] (ble : α → α → Bool) :
    ∀ (vec tmp : List α) (start endIdx : Nat),
      start ≤ endIdx → endIdx < vec.length → tmp.length = vec.length →
      (mergeSortHelper ble vec tmp start endIdx).1
        = vec.take start ++ msF ble (seg vec start (endIdx + 1))
          ++ vec.drop (endIdx + 1)
      ∧ (mergeSortHelper ble vec tmp start endIdx).2.length = vec.length := by
  intro vec tmp start endIdx
  induction vec, tmp, start, endIdx using mergeSortHelper.induct ble with
  | case1 vec tmp start endIdx h =>
    intro hse hend htmp
    rw [mergeSortHelper, dif_pos h]
    refine ⟨?_, htmp⟩
    have hseg : seg vec start (endIdx + 1) = [vec.getD start default] := by
      rw [seg_cons vec start (endIdx + 1) (by omega) (by omega)]
      rw [seg_nil vec (start + 1) (endIdx + 1) (by omega)]
    rw [hseg, msF, dif_pos (by simp)]
    rw [show endIdx + 1 = start + 1 from by omega]
    conv_lhs => rw [← List.take_append_drop start vec,
      ← cons_getD_drop vec start (by omega)]
    simp [List.append_assoc]
  | case2 vec tmp start endIdx h mid p1 ihA ihB ihC =>
    intro hse hend htmp
    have hmd : mid = start + (endIdx - start) / 2 := rfl
    have hm1 : start ≤ mid := by omega
    have hm2 : mid < endIdx := by omega
    have hp1d : p1 = mergeSortHelper ble vec tmp start mid := rfl
    obtain ⟨e1, e2⟩ := ihA hm1 (by omega) htmp
    rw [← hp1d] at e1 e2
    have hmsl1 : (msF ble (seg vec start (mid + 1))).length
        = mid + 1 - start := by
      rw [(msF_perm ble _).length_eq,
        length_seg vec start (mid + 1) (by omega) (by omega)]
    have hmsl2 : (msF ble (seg vec (mid + 1) (endIdx + 1))).length
        = endIdx - mid := by
      rw [(msF_perm ble _).length_eq,
        length_seg vec (mid + 1) (endIdx + 1) (by omega) (by omega)]
      omega
    have hplen : (vec.take start ++ msF ble (seg vec start (mid + 1))).length
        = mid + 1 := by
      simp only [List.length_append, List.length_take, hmsl1]
      omega
    have hp1len : p1.1.length = vec.length := by
      rw [e1]
      simp only [List.length_append, List.length_take, List.length_drop,
        hmsl1]
      omega
    have htakep1 : p1.1.take (mid + 1)
        = vec.take start ++ msF ble (seg vec start (mid + 1)) := by
      rw [e1]
      exact List.take_left' hplen
    have hdropp1 : p1.1.drop (mid + 1) = vec.drop (mid + 1) := by
      rw [e1]
      exact List.drop_left' hplen
    have hsegp1 : seg p1.1 (mid + 1) (endIdx + 1)
        = seg vec (mid + 1) (endIdx + 1) := by
      rw [seg, seg, hdropp1]
    have hdropp1e : p1.1.drop (endIdx + 1) = vec.drop (endIdx + 1) := by
      rw [e1]
      conv_lhs => rw [show endIdx + 1
          = (vec.take start ++ msF ble (seg vec start (mid + 1))).length
            + (endIdx - mid) from by rw [hplen]; omega]
      rw [List.drop_append, List.drop_drop]
      congr 1
      omega
    obtain ⟨f1, f2⟩ := ihC (by omega) (by rw [hp1len]; omega)
      (by rw [e2, hp1len])
    have hC1 : (mergeSortHelper ble p1.1 p1.2 (mid + 1) endIdx).1
        = (vec.take start ++ msF ble (seg vec start (mid + 1)))
          ++ msF ble (seg vec (mid + 1) (endIdx + 1))
          ++ vec.drop (endIdx + 1) := by
      rw [f1, htakep1, hsegp1, hdropp1e]
    have hC1len : (mergeSortHelper ble p1.1 p1.2 (mid + 1) endIdx).1.length
        = vec.length := by
      rw [hC1]
      simp only [List.length_append, List.length_take, List.length_drop,
        hmsl1, hmsl2]
      omega
    have hC2len : (mergeSortHelper ble p1.1 p1.2 (mid + 1) endIdx).2.length
        = (mergeSortHelper ble p1.1 p1.2 (mid + 1) endIdx).1.length := by
      rw [f2, hC1len]
      exact hp1len
    rw [mergeSortHelper, dif_neg h]
    show (merge ble (mergeSortHelper ble p1.1 p1.2 (mid + 1) endIdx).1
        (mergeSortHelper ble p1.1 p1.2 (mid + 1) endIdx).2 start mid
        endIdx).1
      = vec.take start ++ msF ble (seg vec start (endIdx + 1))
        ++ vec.drop (endIdx + 1)
      ∧ (merge ble (mergeSortHelper ble p1.1 p1.2 (mid + 1) endIdx).1
        (mergeSortHelper ble p1.1 p1.2 (mid + 1) endIdx).2 start mid
        endIdx).2.length = vec.length
    obtain ⟨m1, m2⟩ := merge_spec ble
      (mergeSortHelper ble p1.1 p1.2 (mid + 1) endIdx).1
      (mergeSortHelper ble p1.1 p1.2 (mid + 1) endIdx).2 start mid endIdx
      hm1 (by omega) (by rw [hC1len]; omega)
      (by rw [hC2len])
    -- canonical right-associated form of the merged vector
    have hv1 : (mergeSortHelper ble p1.1 p1.2 (mid + 1) endIdx).1
        = vec.take start
          ++ (msF ble (seg vec start (mid + 1))
            ++ (msF ble (seg vec (mid + 1) (endIdx + 1))
              ++ vec.drop (endIdx + 1))) := by
      rw [hC1]
      simp [List.append_assoc]
    have htkC : (mergeSortHelper ble p1.1 p1.2 (mid + 1) endIdx).1.take start
        = vec.take start := by
      rw [hv1]
      exact List.take_left' (by simp [List.length_take]; omega)
    have hsg1 : seg (mergeSortHelper ble p1.1 p1.2 (mid + 1) endIdx).1
        start (mid + 1) = msF ble (seg vec start (mid + 1)) := by
      rw [seg, hv1]
      rw [List.drop_left' (by simp [List.length_take]; omega)]
      rw [List.take_left' (by rw [hmsl1])]
    have hsg2 : seg (mergeSortHelper ble p1.1 p1.2 (mid + 1) endIdx).1
        (mid + 1) (endIdx + 1) = msF ble (seg vec (mid + 1) (endIdx + 1)) := by
      rw [seg, hC1]
      have hbr : (vec.take start ++ msF ble (seg vec start (mid + 1)))
          ++ msF ble (seg vec (mid + 1) (endIdx + 1))
          ++ vec.drop (endIdx + 1)
          = (vec.take start ++ msF ble (seg vec start (mid + 1)))
            ++ (msF ble (seg vec (mid + 1) (endIdx + 1))
              ++ vec.drop (endIdx + 1)) := by
        simp [List.append_assoc]
      rw [hbr, List.drop_left' hplen]
      rw [show endIdx + 1 - (mid + 1) = endIdx - mid from by omega]
      rw [List.take_left' (by rw [hmsl2])]
    have hdrC : (mergeSortHelper ble p1.1 p1.2 (mid + 1) endIdx).1.drop
        (endIdx + 1) = vec.drop (endIdx + 1) := by
      rw [hC1]
      have hbr : (vec.take start ++ msF ble (seg vec start (mid + 1)))
          ++ msF ble (seg vec (mid + 1) (endIdx + 1))
          ++ vec.drop (endIdx + 1)
          = ((vec.take start ++ msF ble (seg vec start (mid + 1)))
            ++ msF ble (seg vec (mid + 1) (endIdx + 1)))
            ++ vec.drop (endIdx + 1) := by
        simp [List.append_assoc]
      rw [hbr]
      refine List.drop_left' ?_
      simp only [List.length_append, List.length_take, hmsl1, hmsl2]
      omega
    have hmsFsplit : msF ble (seg vec start (endIdx + 1))
        = mergeLists ble (msF ble (seg vec start (mid + 1)))
            (msF ble (seg vec (mid + 1) (endIdx + 1))) := by
      rw [msF, dif_neg (by
        rw [length_seg vec start (endIdx + 1) (by omega) (by omega)]
        omega)]
      have hlseg : (seg vec start (endIdx + 1)).length = endIdx + 1 - start :=
        length_seg vec start (endIdx + 1) (by omega) (by omega)
      rw [hlseg]
      rw [show (endIdx + 1 - start - 1) / 2 + 1 = mid + 1 - start from by omega]
      have htk : (seg vec start (endIdx + 1)).take (mid + 1 - start)
          = seg vec start (mid + 1) := by
        rw [seg, List.take_take]
        rw [show (mid + 1 - start) ⊓ (endIdx + 1 - start)
            = mid + 1 - start from by omega]
        rw [seg]
      have hdr : (seg vec start (endIdx + 1)).drop (mid + 1 - start)
          = seg vec (mid + 1) (endIdx + 1) := by
        rw [seg, List.drop_take, List.drop_drop]
        rw [show start + (mid + 1 - start) = mid + 1 from by omega]
        rw [show endIdx + 1 - start - (mid + 1 - start) = endIdx - mid from
          by omega]
        rw [seg]
        rw [show endIdx + 1 - (mid + 1) = endIdx - mid from by omega]
      rw [htk, hdr]
    refine ⟨?_, ?_⟩
    · rw [m1, htkC, hsg1, hsg2, hdrC, hmsFsplit]
    · rw [m2, hC1len]

theorem MergeSort_sorts [Inhabited α] (key : α → β) [LinearOrder β]
    (vec : List α) :
    (MergeSort (kleb key) vec).Perm vec ∧
    List.Pairwise (fun a b => key a ≤ key b) (MergeSort (kleb key) vec) ∧
    (∀ kk : β, (MergeSort (kleb key) vec).filter (fun x => decide (key x = kk))
      = vec.filter (fun x => decide (key x = kk))) := by
  rw [MergeSort]
  by_cases h : vec.length ≤ 1
  · rw [if_pos h]
    exact ⟨List.Perm.refl vec, pairwise_short vec h, fun kk => rfl⟩
  · rw [if_neg h]
    obtain ⟨m1, _⟩ := mergeSortHelper_spec (kleb key) vec
      (List.replicate vec.length default) 0 (vec.length - 1)
      (by omega) (by omega) (by simp)
    have hseg : seg vec 0 (vec.length - 1 + 1) = vec := by
      rw [seg, show vec.length - 1 + 1 = vec.length from by omega]
      rw [show vec.length - 0 = vec.length from by omega]
      rw [List.drop_zero, List.take_length]
    rw [m1, hseg]
    rw [show vec.length - 1 + 1 = vec.length from by omega]
    rw [List.drop_length]
    rw [List.take_zero, List.nil_append, List.append_nil]
    exact ⟨msF_perm (kleb key) vec, msF_sorted key vec,
      fun kk => msF_filter key kk vec⟩

/-! ### QuickSort: sortedness and permutation -/

theorem partitionLoop_spec [Inhabited α] (ble : α → α → Bool) (s : Nat) :
    ∀ (vec : List α) (pivot : α) (ip j endIdx : Nat),
      s ≤ ip → ip ≤ j → j ≤ endIdx → endIdx < vec.length →
      (∀ k, s ≤ k → k < ip → ble (vec.getD k default) pivot = true) →
      (∀ k, ip ≤ k → k < j → ble (vec.getD k default) pivot = false) →
      (partitionLoop ble vec pivot ip j endIdx).1.Perm vec ∧
      (∀ k, k < s →
        (partitionLoop ble vec pivot ip j endIdx).1.getD k default
          = vec.getD k default) ∧
      (∀ k, endIdx ≤ k → k < vec.length →
        (partitionLoop ble vec pivot ip j endIdx).1.getD k default
          = vec.getD k default) ∧
      (∀ k, s ≤ k → k < (partitionLoop ble vec pivot ip j endIdx).2 →
        ble ((partitionLoop ble vec pivot ip j endIdx).1.getD k default) pivot
          = true) ∧
      (∀ k, (partitionLoop ble vec pivot ip j endIdx).2 ≤ k → k < endIdx →
        ble ((partitionLoop ble vec pivot ip j endIdx).1.getD k default) pivot
          = false) := by
  intro vec pivot ip j endIdx
  induction vec, pivot, ip, j, endIdx using partitionLoop.induct ble with
  | case1 vec pivot ip j endIdx h hb ih =>
    intro hsip hipj hje hend hA hB
    rw [partitionLoop, dif_pos h, if_pos hb]
    have hiplen : ip < vec.length := by omega
    have hjlen : j < vec.length := by omega
    have hgsw : ∀ m, (swapL vec ip j).getD m default =
        if m = j then vec.getD ip default
        else if m = ip then vec.getD j default
        else vec.getD m default := fun m => getD_swapL vec m hiplen hjlen
    obtain ⟨a1, a2, a3, a4, a5⟩ := ih (by omega) (by omega) (by omega)
      (by rw [length_swapL]; exact hend)
      (by
        intro k hk1 hk2
        rw [hgsw k]
        by_cases hkip : k = ip
        · by_cases hkj : k = j
          · rw [if_pos hkj]
            rw [show ip = j by omega]
            exact hb
          · rw [if_neg hkj, if_pos hkip]
            exact hb
        · rw [if_neg (by omega), if_neg hkip]
          exact hA k hk1 (by omega))
      (by
        intro k hk1 hk2
        rw [hgsw k]
        by_cases hkj : k = j
        · rw [if_pos hkj]
          exact hB ip (Nat.le_refl ip) (by omega)
        · rw [if_neg hkj, if_neg (by omega)]
          exact hB k (by omega) (by omega))
    refine ⟨a1.trans (swapL_perm vec hiplen hjlen), ?_, ?_, a4, a5⟩
    · intro k hk
      rw [a2 k hk, hgsw k, if_neg (by omega), if_neg (by omega)]
    · intro k hk1 hk2
      rw [a3 k hk1 (by rw [length_swapL]; exact hk2)]
      rw [hgsw k, if_neg (by omega), if_neg (by omega)]
  | case2 vec pivot ip j endIdx h hb ih =>
    intro hsip hipj hje hend hA hB
    rw [partitionLoop, dif_pos h, if_neg hb]
    obtain ⟨a1, a2, a3, a4, a5⟩ := ih hsip (by omega) (by omega) hend hA
      (by
        intro k hk1 hk2
        by_cases hkj : k = j
        · rw [hkj]
          exact Bool.eq_false_iff.mpr hb
        · exact hB k hk1 (by omega))
    exact ⟨a1, a2, a3, a4, a5⟩
  | case3 vec pivot ip j endIdx h =>
    intro hsip hipj hje hend hA hB
    rw [partitionLoop, dif_neg h]
    refine ⟨List.Perm.refl vec, fun k _ => rfl, fun k _ _ => rfl, ?_, ?_⟩
    · intro k hk1 hk2
      exact hA k hk1 hk2
    · intro k hk1 hk2
      exact hB k hk1 (by omega)

theorem partition_spec [Inhabited α] (key : α → β) [LinearOrder β]
    (bgt : α → α → Bool) (vec : List α) (start endIdx : Nat)
    (hse : start ≤ endIdx) (hend : endIdx < vec.length) :
    (partition (kleb key) bgt vec start endIdx).1.Perm vec ∧
    (∀ k, k < start →
      (partition (kleb key) bgt vec start endIdx).1.getD k default
        = vec.getD k default) ∧
    (∀ k, endIdx < k → k < vec.length →
      (partition (kleb key) bgt vec start endIdx).1.getD k default
        = vec.getD k default) ∧
    (∀ k, start ≤ k → k < (partition (kleb key) bgt vec start endIdx).2 →
      key ((partition (kleb key) bgt vec start endIdx).1.getD k default)
        ≤ key ((partition (kleb key) bgt vec start endIdx).1.getD
            (partition (kleb key) bgt vec start endIdx).2 default)) ∧
    (∀ k, (partition (kleb key) bgt vec start endIdx).2 < k → k ≤ endIdx →
      key ((partition (kleb key) bgt vec start endIdx).1.getD
          (partition (kleb key) bgt vec start endIdx).2 default)
        < key ((partition (kleb key) bgt vec start endIdx).1.getD k
            default)) := by
  have hpvt := medianOfThree_mem bgt vec start
    (start + (endIdx - start) / 2) endIdx
  have hpvtle : medianOfThree bgt vec start (start + (endIdx - start) / 2)
      endIdx ≤ endIdx := by
    rcases hpvt with h1 | h1 | h1 <;> rw [h1] <;> omega
  have hpvtlen : medianOfThree bgt vec start (start + (endIdx - start) / 2)
      endIdx < vec.length := by omega
  obtain ⟨b1, b2, b3, b4, b5⟩ := partitionLoop_spec (kleb key) start
    (swapL vec (medianOfThree bgt vec start (start + (endIdx - start) / 2)
      endIdx) endIdx)
    ((swapL vec (medianOfThree bgt vec start (start + (endIdx - start) / 2)
      endIdx) endIdx).getD endIdx default)
    start start endIdx (Nat.le_refl _) (Nat.le_refl _) hse
    (by rw [length_swapL]; exact hend)
    (fun k hk1 hk2 => by omega) (fun k hk1 hk2 => by omega)
  have hqb := partitionLoop_snd_bounds (kleb key)
    (swapL vec (medianOfThree bgt vec start (start + (endIdx - start) / 2)
      endIdx) endIdx)
    ((swapL vec (medianOfThree bgt vec start (start + (endIdx - start) / 2)
      endIdx) endIdx).getD endIdx default)
    start start endIdx (Nat.le_refl _) hse
  rw [partition]
  dsimp only
  have hlooplen : (partitionLoop (kleb key)
      (swapL vec (medianOfThree bgt vec start (start + (endIdx - start) / 2)
        endIdx) endIdx)
      ((swapL vec (medianOfThree bgt vec start
        (start + (endIdx - start) / 2) endIdx) endIdx).getD endIdx default)
      start start endIdx).1.length = vec.length := by
    rw [b1.length_eq, length_swapL]
  have hq2 : (partitionLoop (kleb key)
      (swapL vec (medianOfThree bgt vec start (start + (endIdx - start) / 2)
        endIdx) endIdx)
      ((swapL vec (medianOfThree bgt vec start
        (start + (endIdx - start) / 2) endIdx) endIdx).getD endIdx default)
      start start endIdx).2 ≤ endIdx := hqb.2
  have hgsw2 : ∀ m, (swapL (partitionLoop (kleb key)
      (swapL vec (medianOfThree bgt vec start (start + (endIdx - start) / 2)
        endIdx) endIdx)
      ((swapL vec (medianOfThree bgt vec start
        (start + (endIdx - start) / 2) endIdx) endIdx).getD endIdx default)
      start start endIdx).1
      (partitionLoop (kleb key)
        (swapL vec (medianOfThree bgt vec start
          (start + (endIdx - start) / 2) endIdx) endIdx)
        ((swapL vec (medianOfThree bgt vec start
          (start + (endIdx - start) / 2) endIdx) endIdx).getD endIdx default)
        start start endIdx).2 endIdx).getD m default =
      if m = endIdx then (partitionLoop (kleb key)
        (swapL vec (medianOfThree bgt vec start
          (start + (endIdx - start) / 2) endIdx) endIdx)
        ((swapL vec (medianOfThree bgt vec start
          (start + (endIdx - start) / 2) endIdx) endIdx).getD endIdx default)
        start start endIdx).1.getD (partitionLoop (kleb key)
        (swapL vec (medianOfThree bgt vec start
          (start + (endIdx - start) / 2) endIdx) endIdx)
        ((swapL vec (medianOfThree bgt vec start
          (start + (endIdx - start) / 2) endIdx) endIdx).getD endIdx default)
        start start endIdx).2 default
      else if m = (partitionLoop (kleb key)
        (swapL vec (medianOfThree bgt vec start
          (start + (endIdx - start) / 2) endIdx) endIdx)
        ((swapL vec (medianOfThree bgt vec start
          (start + (endIdx - start) / 2) endIdx) endIdx).getD endIdx default)
        start start endIdx).2 then (partitionLoop (kleb key)
        (swapL vec (medianOfThree bgt vec start
          (start + (endIdx - start) / 2) endIdx) endIdx)
        ((swapL vec (medianOfThree bgt vec start
          (start + (endIdx - start) / 2) endIdx) endIdx).getD endIdx default)
        start start endIdx).1.getD endIdx default
      else (partitionLoop (kleb key)
        (swapL vec (medianOfThree bgt vec start
          (start + (endIdx - start) / 2) endIdx) endIdx)
        ((swapL vec (medianOfThree bgt vec start
          (start + (endIdx - start) / 2) endIdx) endIdx).getD endIdx default)
        start start endIdx).1.getD m default :=
    fun m => getD_swapL _ m (by rw [hlooplen]; omega) (by rw [hlooplen]; omega)
  have hpend : (partitionLoop (kleb key)
      (swapL vec (medianOfThree bgt vec start (start + (endIdx - start) / 2)
        endIdx) endIdx)
      ((swapL vec (medianOfThree bgt vec start
        (start + (endIdx - start) / 2) endIdx) endIdx).getD endIdx default)
      start start endIdx).1.getD endIdx default
      = (swapL vec (medianOfThree bgt vec start
        (start + (endIdx - start) / 2) endIdx) endIdx).getD endIdx default :=
    b3 endIdx (Nat.le_refl _) (by rw [length_swapL]; exact hend)
  have hqpiv : (swapL (partitionLoop (kleb key)
      (swapL vec (medianOfThree bgt vec start (start + (endIdx - start) / 2)
        endIdx) endIdx)
      ((swapL vec (medianOfThree bgt vec start
        (start + (endIdx - start) / 2) endIdx) endIdx).getD endIdx default)
      start start endIdx).1 (partitionLoop (kleb key)
      (swapL vec (medianOfThree bgt vec start (start + (endIdx - start) / 2)
        endIdx) endIdx)
      ((swapL vec (medianOfThree bgt vec start
        (start + (endIdx - start) / 2) endIdx) endIdx).getD endIdx default)
      start start endIdx).2 endIdx).getD (partitionLoop (kleb key)
      (swapL vec (medianOfThree bgt vec start (start + (endIdx - start) / 2)
        endIdx) endIdx)
      ((swapL vec (medianOfThree bgt vec start
        (start + (endIdx - start) / 2) endIdx) endIdx).getD endIdx default)
      start start endIdx).2 default
      = (swapL vec (medianOfThree bgt vec start
        (start + (endIdx - start) / 2) endIdx) endIdx).getD endIdx default := by
    rw [hgsw2 (partitionLoop (kleb key)
      (swapL vec (medianOfThree bgt vec start (start + (endIdx - start) / 2)
        endIdx) endIdx)
      ((swapL vec (medianOfThree bgt vec start
        (start + (endIdx - start) / 2) endIdx) endIdx).getD endIdx default)
      start start endIdx).2]
    by_cases hqe : (partitionLoop (kleb key)
      (swapL vec (medianOfThree bgt vec start (start + (endIdx - start) / 2)
        endIdx) endIdx)
      ((swapL vec (medianOfThree bgt vec start
        (start + (endIdx - start) / 2) endIdx) endIdx).getD endIdx default)
      start start endIdx).2 = endIdx
    · rw [if_pos hqe, hqe]
      exact hpend
    · rw [if_neg hqe, if_pos rfl]
      exact hpend
  refine ⟨?_, ?_, ?_, ?_, ?_⟩
  · exact ((swapL_perm _ (by rw [hlooplen]; omega)
      (by rw [hlooplen]; omega)).trans b1).trans
      (swapL_perm vec hpvtlen hend)
  · intro k hk
    rw [hgsw2 k, if_neg (by omega), if_neg (by omega), b2 k hk]
    rw [getD_swapL vec k hpvtlen hend, if_neg (by omega), if_neg (by
      rcases hpvt with h1 | h1 | h1 <;> omega)]
  · intro k hk1 hk2
    rw [hgsw2 k, if_neg (by omega), if_neg (by omega),
      b3 k (by omega) (by rw [length_swapL]; exact hk2)]
    rw [getD_swapL vec k hpvtlen hend, if_neg (by omega), if_neg (by
      rcases hpvt with h1 | h1 | h1 <;> omega)]
  · intro k hk1 hk2
    rw [hgsw2 k, if_neg (by omega), if_neg (by omega)]
    rw [hqpiv]
    have hble := b4 k hk1 hk2
    rw [kleb_iff] at hble
    exact hble
  · intro k hk1 hk2
    rw [hqpiv]
    by_cases hke : k = endIdx
    · rw [hke, hgsw2 endIdx, if_pos rfl]
      by_cases hqe : (partitionLoop (kleb key)
          (swapL vec (medianOfThree bgt vec start
            (start + (endIdx - start) / 2) endIdx) endIdx)
          ((swapL vec (medianOfThree bgt vec start
            (start + (endIdx - start) / 2) endIdx) endIdx).getD endIdx
              default)
          start start endIdx).2 = endIdx
      · omega
      · have hble := b5 _ (Nat.le_refl _) (by omega)
        have hlt := lt_of_not_le (fun hc =>
          by rw [(kleb_iff key _ _).mpr hc] at hble; simp at hble)
        exact hlt
    · rw [hgsw2 k, if_neg hke, if_neg (by omega)]
      have hble := b5 k (by omega) (by omega)
      have hlt := lt_of_not_le (fun hc =>
        by rw [(kleb_iff key _ _).mpr hc] at hble; simp at hble)
      exact hlt

theorem quickSortHelper_spec [Inhabited α] (key : α → β) [LinearOrder β]
    (bgt : α → α → Bool) :
    ∀ (vec : List α) (start endIdx : Nat), endIdx < vec.length →
      (quickSortHelper (kleb key) bgt vec start endIdx).Perm vec ∧
      (∀ k, k < start →
        (quickSortHelper (kleb key) bgt vec start endIdx).getD k default
          = vec.getD k default) ∧
      (∀ k, endIdx < k → k < vec.length →
        (quickSortHelper (kleb key) bgt vec start endIdx).getD k default
          = vec.getD k default) ∧
      (∀ i j, start ≤ i → i ≤ j → j ≤ endIdx →
        key ((quickSortHelper (kleb key) bgt vec start endIdx).getD i default)
          ≤ key ((quickSortHelper (kleb key) bgt vec start endIdx).getD j
            default)) := by
  intro vec start endIdx
  induction vec, start, endIdx using quickSortHelper.induct (kleb key) bgt with
  | case1 vec start endIdx h =>
    intro hend
    rw [quickSortHelper, dif_pos h]
    refine ⟨List.Perm.refl vec, fun k _ => rfl, fun k _ _ => rfl, ?_⟩
    intro i j hi hij hj
    have hij2 : i = j := by omega
    rw [hij2]
  | case2 vec start endIdx h p ihLp ihL ihR =>
    intro hend
    have hp : p = partition (kleb key) bgt vec start endIdx := rfl
    rw [hp] at ihR
    rw [quickSortHelper, dif_neg h]
    show (quickSortHelper (kleb key) bgt (quickSortHelper (kleb key) bgt (partition (kleb key) bgt vec start endIdx).1 start ((partition (kleb key) bgt vec start endIdx).2 - 1)) ((partition (kleb key) bgt vec start endIdx).2 + 1) endIdx).Perm vec ∧
      (∀ k, k < start → (quickSortHelper (kleb key) bgt (quickSortHelper (kleb key) bgt (partition (kleb key) bgt vec start endIdx).1 start ((partition (kleb key) bgt vec start endIdx).2 - 1)) ((partition (kleb key) bgt vec start endIdx).2 + 1) endIdx).getD k default = vec.getD k default) ∧
      (∀ k, endIdx < k → k < vec.length →
        (quickSortHelper (kleb key) bgt (quickSortHelper (kleb key) bgt (partition (kleb key) bgt vec start endIdx).1 start ((partition (kleb key) bgt vec start endIdx).2 - 1)) ((partition (kleb key) bgt vec start endIdx).2 + 1) endIdx).getD k default = vec.getD k default) ∧
      (∀ i j, start ≤ i → i ≤ j → j ≤ endIdx →
        key ((quickSortHelper (kleb key) bgt (quickSortHelper (kleb key) bgt (partition (kleb key) bgt vec start endIdx).1 start ((partition (kleb key) bgt vec start endIdx).2 - 1)) ((partition (kleb key) bgt vec start endIdx).2 + 1) endIdx).getD i default) ≤ key ((quickSortHelper (kleb key) bgt (quickSortHelper (kleb key) bgt (partition (kleb key) bgt vec start endIdx).1 start ((partition (kleb key) bgt vec start endIdx).2 - 1)) ((partition (kleb key) bgt vec start endIdx).2 + 1) endIdx).getD j default))
    have hse : start ≤ endIdx := by omega
    obtain ⟨w1, w2, w3, w4, w5⟩ := partition_spec key bgt vec start endIdx
      hse hend
    have hqb := partition_snd_bounds (kleb key) bgt vec start endIdx hse
    have hwlen : (partition (kleb key) bgt vec start endIdx).1.length = vec.length := w1.length_eq
    have hLfacts : (quickSortHelper (kleb key) bgt (partition (kleb key) bgt vec start endIdx).1 start ((partition (kleb key) bgt vec start endIdx).2 - 1)).Perm (partition (kleb key) bgt vec start endIdx).1 ∧
        (∀ k, k < start → (quickSortHelper (kleb key) bgt (partition (kleb key) bgt vec start endIdx).1 start ((partition (kleb key) bgt vec start endIdx).2 - 1)).getD k default = (partition (kleb key) bgt vec start endIdx).1.getD k default) ∧
        (∀ k, (partition (kleb key) bgt vec start endIdx).2 ≤ k → k < (partition (kleb key) bgt vec start endIdx).1.length →
          (quickSortHelper (kleb key) bgt (partition (kleb key) bgt vec start endIdx).1 start ((partition (kleb key) bgt vec start endIdx).2 - 1)).getD k default = (partition (kleb key) bgt vec start endIdx).1.getD k default) ∧
        (∀ i j, start ≤ i → i ≤ j → j < (partition (kleb key) bgt vec start endIdx).2 →
          key ((quickSortHelper (kleb key) bgt (partition (kleb key) bgt vec start endIdx).1 start ((partition (kleb key) bgt vec start endIdx).2 - 1)).getD i default) ≤ key ((quickSortHelper (kleb key) bgt (partition (kleb key) bgt vec start endIdx).1 start ((partition (kleb key) bgt vec start endIdx).2 - 1)).getD j default)) := by
      by_cases hdeg : start ≥ (partition (kleb key) bgt vec start endIdx).2 - 1
      · have hL : (quickSortHelper (kleb key) bgt (partition (kleb key) bgt vec start endIdx).1 start ((partition (kleb key) bgt vec start endIdx).2 - 1)) = (partition (kleb key) bgt vec start endIdx).1 := by
          rw [quickSortHelper, dif_pos hdeg]
        refine ⟨by rw [hL], fun k _ => by rw [hL], fun k _ _ => by rw [hL],
          ?_⟩
        intro i j hi hij hjq
        have hij2 : i = j := by omega
        rw [hij2]
      · obtain ⟨l1, l2, l3, l4⟩ := ihL (by rw [hwlen]; omega)
        refine ⟨l1, l2, ?_, ?_⟩
        · intro k hk1 hk2
          exact l3 k (by omega) hk2
        · intro i j hi hij hjq
          exact l4 i j hi hij (by omega)
    obtain ⟨L1, L2, L3, L4⟩ := hLfacts
    have hLlen : (quickSortHelper (kleb key) bgt (partition (kleb key) bgt vec start endIdx).1 start ((partition (kleb key) bgt vec start endIdx).2 - 1)).length = vec.length := by
      rw [L1.length_eq, hwlen]
    obtain ⟨r1, r2, r3, r4⟩ := ihR (by rw [hLlen]; exact hend)
    have hRlen : (quickSortHelper (kleb key) bgt (quickSortHelper (kleb key) bgt (partition (kleb key) bgt vec start endIdx).1 start ((partition (kleb key) bgt vec start endIdx).2 - 1)) ((partition (kleb key) bgt vec start endIdx).2 + 1) endIdx).length = vec.length := by
      rw [r1.length_eq, hLlen]
    have hSb : (partition (kleb key) bgt vec start endIdx).2 ≤ (partition (kleb key) bgt vec start endIdx).1.length := by rw [hwlen]; omega
    have hB : (quickSortHelper (kleb key) bgt (quickSortHelper (kleb key) bgt (partition (kleb key) bgt vec start endIdx).1 start ((partition (kleb key) bgt vec start endIdx).2 - 1)) ((partition (kleb key) bgt vec start endIdx).2 + 1) endIdx).getD (partition (kleb key) bgt vec start endIdx).2 default = (partition (kleb key) bgt vec start endIdx).1.getD (partition (kleb key) bgt vec start endIdx).2 default := by
      rw [r2 (partition (kleb key) bgt vec start endIdx).2 (by omega), L3 (partition (kleb key) bgt vec start endIdx).2 (Nat.le_refl _) (by rw [hwlen]; omega)]
    have hsegL : (seg (quickSortHelper (kleb key) bgt (partition (kleb key) bgt vec start endIdx).1 start ((partition (kleb key) bgt vec start endIdx).2 - 1)) start (partition (kleb key) bgt vec start endIdx).2).Perm (seg (partition (kleb key) bgt vec start endIdx).1 start (partition (kleb key) bgt vec start endIdx).2) :=
      seg_perm_of_frame (quickSortHelper (kleb key) bgt (partition (kleb key) bgt vec start endIdx).1 start ((partition (kleb key) bgt vec start endIdx).2 - 1)) (partition (kleb key) bgt vec start endIdx).1 start (partition (kleb key) bgt vec start endIdx).2 L1 L2 L3 hqb.1 hSb
    have hC : ∀ k, start ≤ k → k < (partition (kleb key) bgt vec start endIdx).2 →
        key ((quickSortHelper (kleb key) bgt (quickSortHelper (kleb key) bgt (partition (kleb key) bgt vec start endIdx).1 start ((partition (kleb key) bgt vec start endIdx).2 - 1)) ((partition (kleb key) bgt vec start endIdx).2 + 1) endIdx).getD k default) ≤ key ((partition (kleb key) bgt vec start endIdx).1.getD (partition (kleb key) bgt vec start endIdx).2 default) := by
      intro k hk1 hk2
      rw [r2 k (by omega)]
      have hmem : (quickSortHelper (kleb key) bgt (partition (kleb key) bgt vec start endIdx).1 start ((partition (kleb key) bgt vec start endIdx).2 - 1)).getD k default ∈ seg (quickSortHelper (kleb key) bgt (partition (kleb key) bgt vec start endIdx).1 start ((partition (kleb key) bgt vec start endIdx).2 - 1)) start (partition (kleb key) bgt vec start endIdx).2 :=
        getD_mem_seg (quickSortHelper (kleb key) bgt (partition (kleb key) bgt vec start endIdx).1 start ((partition (kleb key) bgt vec start endIdx).2 - 1)) start (partition (kleb key) bgt vec start endIdx).2 k hk1 hk2 (by rw [hLlen]; omega)
      obtain ⟨m, hm1, hm2, hm3⟩ := mem_seg (partition (kleb key) bgt vec start endIdx).1 start (partition (kleb key) bgt vec start endIdx).2
        ((quickSortHelper (kleb key) bgt (partition (kleb key) bgt vec start endIdx).1 start ((partition (kleb key) bgt vec start endIdx).2 - 1)).getD k default) (hsegL.subset hmem) hSb
      rw [← hm3]
      exact w4 m hm1 hm2
    have hsegR : (seg (quickSortHelper (kleb key) bgt (quickSortHelper (kleb key) bgt (partition (kleb key) bgt vec start endIdx).1 start ((partition (kleb key) bgt vec start endIdx).2 - 1)) ((partition (kleb key) bgt vec start endIdx).2 + 1) endIdx) ((partition (kleb key) bgt vec start endIdx).2 + 1) (endIdx + 1)).Perm
        (seg (quickSortHelper (kleb key) bgt (partition (kleb key) bgt vec start endIdx).1 start ((partition (kleb key) bgt vec start endIdx).2 - 1)) ((partition (kleb key) bgt vec start endIdx).2 + 1) (endIdx + 1)) :=
      seg_perm_of_frame (quickSortHelper (kleb key) bgt (quickSortHelper (kleb key) bgt (partition (kleb key) bgt vec start endIdx).1 start ((partition (kleb key) bgt vec start endIdx).2 - 1)) ((partition (kleb key) bgt vec start endIdx).2 + 1) endIdx) (quickSortHelper (kleb key) bgt (partition (kleb key) bgt vec start endIdx).1 start ((partition (kleb key) bgt vec start endIdx).2 - 1)) ((partition (kleb key) bgt vec start endIdx).2 + 1) (endIdx + 1) r1 r2
        (fun k hk1 hk2 => r3 k (by omega) hk2) (by omega)
        (by rw [hLlen]; omega)
    have hD : ∀ k, (partition (kleb key) bgt vec start endIdx).2 < k → k ≤ endIdx →
        key ((partition (kleb key) bgt vec start endIdx).1.getD (partition (kleb key) bgt vec start endIdx).2 default) < key ((quickSortHelper (kleb key) bgt (quickSortHelper (kleb key) bgt (partition (kleb key) bgt vec start endIdx).1 start ((partition (kleb key) bgt vec start endIdx).2 - 1)) ((partition (kleb key) bgt vec start endIdx).2 + 1) endIdx).getD k default) := by
      intro k hk1 hk2
      have hmem : (quickSortHelper (kleb key) bgt (quickSortHelper (kleb key) bgt (partition (kleb key) bgt vec start endIdx).1 start ((partition (kleb key) bgt vec start endIdx).2 - 1)) ((partition (kleb key) bgt vec start endIdx).2 + 1) endIdx).getD k default ∈ seg (quickSortHelper (kleb key) bgt (quickSortHelper (kleb key) bgt (partition (kleb key) bgt vec start endIdx).1 start ((partition (kleb key) bgt vec start endIdx).2 - 1)) ((partition (kleb key) bgt vec start endIdx).2 + 1) endIdx) ((partition (kleb key) bgt vec start endIdx).2 + 1) (endIdx + 1) :=
        getD_mem_seg (quickSortHelper (kleb key) bgt (quickSortHelper (kleb key) bgt (partition (kleb key) bgt vec start endIdx).1 start ((partition (kleb key) bgt vec start endIdx).2 - 1)) ((partition (kleb key) bgt vec start endIdx).2 + 1) endIdx) ((partition (kleb key) bgt vec start endIdx).2 + 1) (endIdx + 1) k (by omega) (by omega)
          (by rw [hRlen]; omega)
      obtain ⟨m, hm1, hm2, hm3⟩ := mem_seg (quickSortHelper (kleb key) bgt (partition (kleb key) bgt vec start endIdx).1 start ((partition (kleb key) bgt vec start endIdx).2 - 1)) ((partition (kleb key) bgt vec start endIdx).2 + 1) (endIdx + 1)
        ((quickSortHelper (kleb key) bgt (quickSortHelper (kleb key) bgt (partition (kleb key) bgt vec start endIdx).1 start ((partition (kleb key) bgt vec start endIdx).2 - 1)) ((partition (kleb key) bgt vec start endIdx).2 + 1) endIdx).getD k default) (hsegR.subset hmem) (by rw [hLlen]; omega)
      rw [← hm3]
      rw [L3 m (by omega) (by rw [hwlen]; omega)]
      exact w5 m (by omega) (by omega)
    refine ⟨r1.trans (L1.trans w1), ?_, ?_, ?_⟩
    · intro k hk
      rw [r2 k (by omega), L2 k hk, w2 k hk]
    · intro k hk1 hk2
      rw [r3 k hk1 (by rw [hLlen]; exact hk2),
        L3 k (by omega) (by rw [hwlen]; exact hk2), w3 k hk1 hk2]
    · intro i j hi hij hj
      rcases Nat.lt_or_ge j (partition (kleb key) bgt vec start endIdx).2 with hjq | hjq
      · rw [r2 i (by omega), r2 j (by omega)]
        exact L4 i j hi hij hjq
      · rcases Nat.lt_or_ge i (partition (kleb key) bgt vec start endIdx).2 with hiq | hiq
        · have hCi := hC i hi hiq
          rcases eq_or_lt_of_le hjq with hjq2 | hjq2
          · rw [← hjq2, hB]
            exact hCi
          · exact le_trans hCi (le_of_lt (hD j hjq2 hj))
        · rcases eq_or_lt_of_le hiq with hiq2 | hiq2
          · rcases eq_or_lt_of_le hij with hij2 | hij2
            · rw [hij2]
            · rw [← hiq2, hB]
              exact le_of_lt (hD j (by omega) hj)
          · exact r4 i j (by omega) hij hj

theorem QuickSort_sorts [Inhabited α] (key : α → β) [LinearOrder β]
    (bgt : α → α → Bool) (vec : List α) :
    (QuickSort (kleb key) bgt vec).Perm vec ∧
      List.Pairwise (fun a b => key a ≤ key b)
        (QuickSort (kleb key) bgt vec) := by
  unfold QuickSort
  by_cases hlen : vec.length ≤ 1
  · rw [if_pos hlen]
    refine ⟨List.Perm.refl vec, ?_⟩
    match vec, hlen with
    | [], _ => exact List.Pairwise.nil
    | [a], _ => exact List.pairwise_singleton _ a
  · rw [if_neg hlen]
    obtain ⟨q1, q2, q3, q4⟩ := quickSortHelper_spec key bgt vec 0
      (vec.length - 1) (by omega)
    refine ⟨q1, ?_⟩
    apply pairwise_key_of_getD
    intro a b hab hb
    rw [q1.length_eq] at hb
    exact q4 a b (Nat.zero_le a) (le_of_lt hab) (by omega)

end SortingGo
